import Mathlib

/-!
CloudFileSync: path mapping, dispatch and debounce.

A shallow embedding of the change-detection and dispatch core of CloudFileSync
(`main.go`, `watcher/watcher.go`, the path of an uploaded file in `provider/baidu.go`)
together with the library functions it calls (`path/filepath` on a Unix host with
`filepath.Walk`, `strings`, `fsnotify.Op.String`).

Go strings are modelled as lists of characters.
-/

namespace CloudFileSync

/-! ## `strings` -/

namespace strings

/-- `strings.HasSuffix(s, suffix)`. -/
def HasSuffix (s suffix : List Char) : Bool :=
  decide (suffix.length ≤ s.length) && (s.drop (s.length - suffix.length) == suffix)

/-- `strings.TrimSuffix(s, suffix)`: `s` without the trailing `suffix`, or `s` itself. -/
def TrimSuffix (s suffix : List Char) : List Char :=
  if HasSuffix s suffix then s.take (s.length - suffix.length) else s

/-- `strings.HasPrefix(s, prefix)`. -/
def HasPrefix (s pre : List Char) : Bool :=
  s.take pre.length == pre

/-- `strings.Contains(s, substr)`: some suffix of `s` starts with `substr`. -/
def Contains : List Char → List Char → Bool
  | [], substr => substr == []
  | c :: t, substr => HasPrefix (c :: t) substr || Contains t substr

/-- `strings.Count(s, string(Separator))`: the number of `/` in `s`. -/
def CountSep (s : List Char) : Nat :=
  s.count '/'

end strings

/-! ## `path/filepath` (Unix: separator `/`, no volume names) -/

namespace filepath

/-- The scan `for out.w > dotdot && !os.IsPathSeparator(out.index(out.w)) { out.w-- }`
of `Clean`, started at `out.w = w`: the value of `out.w` when it stops. -/
def backtrack (out : List Char) (dotdot : Nat) : Nat → Nat
  | 0 => 0
  | w + 1 =>
    if dotdot < w + 1 ∧ out[w + 1]? ≠ some '/' then backtrack out dotdot w else w + 1

/-- The test `r+1 == n || os.IsPathSeparator(path[r+1])` of `Clean`, on `path[r+1:]`: the
element ends here. -/
def atElemEnd (t : List Char) : Bool :=
  t = [] || t.head? = some '/'

/-- The main loop `for r < n` of `Clean`.  The arguments are the unread part `path[r:]`, the
written part of the buffer `out` (so `out.w = out.length`) and `dotdot`; the result is the
buffer and `dotdot` when the loop ends.  Every iteration reads at least one byte, so
`fuel = len(path)` iterations are enough. -/
def cleanLoop (rooted : Bool) : Nat → List Char → List Char → Nat → List Char × Nat
  | 0, _, out, dotdot => (out, dotdot)
  | _ + 1, [], out, dotdot => (out, dotdot)
  | fuel + 1, c :: t, out, dotdot =>
    if c = '/' then
      -- empty path element
      cleanLoop rooted fuel t out dotdot
    else if c = '.' ∧ atElemEnd t = true then
      -- . element
      cleanLoop rooted fuel t out dotdot
    else if c = '.' ∧ t.head? = some '.' ∧ atElemEnd t.tail = true then
      -- .. element: remove to last separator
      if dotdot < out.length then
        -- can backtrack
        cleanLoop rooted fuel t.tail (out.take (backtrack out dotdot (out.length - 1))) dotdot
      else if rooted = false then
        -- cannot backtrack, but not rooted, so append .. element
        let out1 := (if 0 < out.length then out ++ ['/'] else out) ++ ['.', '.']
        cleanLoop rooted fuel t.tail out1 out1.length
      else
        cleanLoop rooted fuel t.tail out dotdot
    else
      -- real path element: add slash if needed, copy element
      let out1 :=
        if (rooted = true ∧ out.length ≠ 1) ∨ (rooted = false ∧ out.length ≠ 0) then out ++ ['/']
        else out
      cleanLoop rooted fuel ((c :: t).dropWhile (· != '/'))
        (out1 ++ (c :: t).takeWhile (· != '/')) dotdot

/-- A path element that `Clean` copies: not empty, without `/`, and neither `.` nor `..`. -/
def isElem (e : List Char) : Bool :=
  e != [] && !e.contains '/' && e != ['.'] && e != ['.', '.']

/-- Path elements joined by `/`. -/
def joinElems : List (List Char) → List Char
  | [] => []
  | [e] => e
  | e :: e2 :: es => e ++ '/' :: joinElems (e2 :: es)

/-- The leading slash of a rooted path. -/
def rootOf (rooted : Bool) : List Char :=
  if rooted then ['/'] else []

/-- The shape of the buffer of `Clean`: the root if the path is rooted, then `m` elements
`..` (none if the path is rooted), then elements that are neither `.` nor `..`, joined by
`/`; `dotdot` is the length of the part up to the last `..`. -/
def CleanInv (rooted : Bool) (out : List Char) (dotdot : Nat) : Prop :=
  ∃ (m : Nat) (elems : List (List Char)),
    (∀ e ∈ elems, isElem e = true) ∧ (rooted = true → m = 0) ∧
    out = rootOf rooted ++ joinElems (List.replicate m ['.', '.'] ++ elems) ∧
    dotdot = (rootOf rooted ++ joinElems (List.replicate m ['.', '.'])).length

/-- The buffer of `Clean(path)` when its loop ends, before the empty buffer is turned
into `"."`. -/
def cleanBuf (path : List Char) : List Char :=
  if path.head? = some '/' then (cleanLoop true path.length path.tail ['/'] 1).1
  else (cleanLoop false path.length path [] 0).1

/-- `filepath.Clean(path)`. -/
def Clean (path : List Char) : List Char :=
  if path = [] then ['.']
  else if cleanBuf path = [] then ['.']
  else cleanBuf path

/-- `filepath.Base(path)`. -/
def Base (path : List Char) : List Char :=
  if path = [] then ['.']
  else
    -- strip trailing slashes
    let p := (path.reverse.dropWhile (· == '/')).reverse
    -- the last element
    let last := (p.reverse.takeWhile (· != '/')).reverse
    -- if empty now, it had only slashes
    if last = [] then ['/'] else last

/-- `filepath.Join(elem...)`: the elements from the first non-empty one on, joined with
`/` and cleaned; the empty string when every element is empty. -/
def Join (elem : List (List Char)) : List Char :=
  match elem.dropWhile (· == []) with
  | [] => []
  | es => Clean (['/'].intercalate es)

/-- The loop of `Rel` that positions `base[b0:bi]` and `targ[t0:ti]` at the first differing
elements.  The arguments are `base[b0:]` and `targ[t0:]` at the head of an iteration
(where `bi = b0` and `ti = t0`); the result is `(base[b0:], base[b0:bi], targ[t0:])` when
the loop ends. -/
def relLoop : Nat → List Char → List Char → List Char × List Char × List Char
  | 0, bs, ts => (bs, [], ts)
  | fuel + 1, bs, ts =>
    if bs ≠ [] ∧ ts ≠ [] then
      let be := bs.takeWhile (· != '/')
      let te := ts.takeWhile (· != '/')
      if te ≠ be then (bs, be, ts)
      else relLoop fuel ((bs.dropWhile (· != '/')).drop 1) ((ts.dropWhile (· != '/')).drop 1)
    else (bs, [], ts)

/-- The `..` elements written by `Rel` for the base elements left: `".."` followed by
`seps` times `"/.."`. -/
def dotdots : Nat → List Char
  | 0 => ['.', '.']
  | n + 1 => dotdots n ++ ['/', '.', '.']

/-- `filepath.Rel(basepath, targpath)`; `none` is the error
`Rel: can't make targpath relative to basepath`. -/
def Rel (basepath targpath : List Char) : Option (List Char) :=
  let base := Clean basepath
  let targ := Clean targpath
  if targ = base then some ['.']
  else
    let base := if base = ['.'] then [] else base
    let baseSlashed := base.head? = some '/'
    let targSlashed := targ.head? = some '/'
    if decide baseSlashed ≠ decide targSlashed then none
    else
      match relLoop base.length base targ with
      | (bs, be, ts) =>
        if be = ['.', '.'] then none
        else if bs ≠ [] then
          -- base elements left: must go up before going down
          some (dotdots (strings.CountSep bs) ++ (if ts ≠ [] then '/' :: ts else []))
        else some ts

end filepath

/-! ## `main.go`: path mapping -/

/-- `getRemotePath(localPath, watchDir, targetDir)` of `main.go`. -/
def getRemotePath (localPath watchDir targetDir : List Char) : List Char :=
  match filepath.Rel watchDir localPath with
  | none => filepath.Join [targetDir, filepath.Base localPath]
  | some relPath =>
    let targetDir1 := strings.TrimSuffix targetDir ['/']
    let targetDir2 :=
      if targetDir1 ≠ [] ∧ strings.HasSuffix targetDir1 ['/'] = false then targetDir1 ++ ['/']
      else targetDir1
    targetDir2 ++ relPath

/-! ## `fsnotify`: operation bits -/

namespace fsnotify

/-- `fsnotify.Create`. -/
def Create : Nat := 1
/-- `fsnotify.Write`. -/
def Write : Nat := 2
/-- `fsnotify.Remove`. -/
def Remove : Nat := 4
/-- `fsnotify.Rename`. -/
def Rename : Nat := 8
/-- `fsnotify.Chmod`. -/
def Chmod : Nat := 16

/-- `Op.Has(h)`: `o&h == h`. -/
def Has (o h : Nat) : Bool := o &&& h == h

/-- The pieces `Op.String` writes to its builder, chosen by the five `Has` tests. -/
def opPieces (create remove write rename chmod : Bool) : List Char :=
  (if create then "|CREATE".toList else []) ++
  (if remove then "|REMOVE".toList else []) ++
  (if write then "|WRITE".toList else []) ++
  (if rename then "|RENAME".toList else []) ++
  (if chmod then "|CHMOD".toList else [])

/-- `Op.String()`, the text `fmt.Sprintf("%v", op)` produces for an `fsnotify.Op`. -/
def OpString (o : Nat) : List Char :=
  let b := opPieces (Has o Create) (Has o Remove) (Has o Write) (Has o Rename) (Has o Chmod)
  if b.length = 0 then "[no events]".toList else b.drop 1

/-- `fsnotify.Event`. -/
structure Event where
  Name : List Char
  Op : Nat
  deriving DecidableEq, Repr

end fsnotify

/-! ## `provider`, `config` -/

/-- A Go `error` value: `none` is `nil`. -/
abbrev GoError := Option (List Char)

/-- The `provider.Provider` interface.  A provider acts on its own remote state `σ`. -/
structure Provider (σ : Type) where
  Name : List Char
  UploadFile : List Char → List Char → σ → GoError × σ
  DeleteFile : List Char → σ → GoError × σ
  CreateDir : List Char → σ → GoError × σ

/-- A call on a provider, as seen from outside. -/
inductive Call where
  | UploadFile (localPath remotePath : List Char)
  | DeleteFile (remotePath : List Char)
  | CreateDir (remotePath : List Char)
  deriving DecidableEq, Repr

/-- A provider that appends every call it receives to its state and answers it with
`respond`. -/
def recorder (name : List Char) (respond : Call → GoError) : Provider (List Call) where
  Name := name
  UploadFile := fun l r log => (respond (.UploadFile l r), log ++ [.UploadFile l r])
  DeleteFile := fun r log => (respond (.DeleteFile r), log ++ [.DeleteFile r])
  CreateDir := fun r log => (respond (.CreateDir r), log ++ [.CreateDir r])

/-- `config.ProviderConfig`; `Type_` is the field `Type`. -/
structure ProviderConfig where
  Type_ : List Char
  Name : List Char
  Enable : Bool
  Tokens : List (List Char × List Char)
  Target : List Char
  deriving DecidableEq, Repr

/-- `config.Config`. -/
structure Config where
  WatchDir : List Char
  DelayTime : Int
  Providers : List ProviderConfig
  deriving DecidableEq, Repr

/-- A map lookup `tokens[key]`: the empty string when the key is absent. -/
def tokenOf (tokens : List (List Char × List Char)) (key : List Char) : List Char :=
  (tokens.lookup key).getD []

/-- The provider objects the constructors build. -/
inductive ProviderHandle where
  | aliyun (accessToken driveID : List Char)
  | baidu (accessToken : List Char)
  deriving DecidableEq, Repr

/-- `provider.NewAliYunProvider(tokens)`; `none` is the error `缺少 access_token`. -/
def NewAliYunProvider (tokens : List (List Char × List Char)) : Option ProviderHandle :=
  let accessToken := tokenOf tokens "access_token".toList
  if accessToken = [] then none
  else some (.aliyun accessToken (tokenOf tokens "drive_id".toList))

/-- `provider.NewBaiduProvider(tokens)`; `none` is the error `缺少 access_token`. -/
def NewBaiduProvider (tokens : List (List Char × List Char)) : Option ProviderHandle :=
  let accessToken := tokenOf tokens "access_token".toList
  if accessToken = [] then none else some (.baidu accessToken)

/-- `provider.NewProvider(providerCfg)`; `none` is an error. -/
def NewProvider (providerCfg : ProviderConfig) : Option ProviderHandle :=
  if providerCfg.Type_ = "aliyun".toList then NewAliYunProvider providerCfg.Tokens
  else if providerCfg.Type_ = "baidu".toList then NewBaiduProvider providerCfg.Tokens
  else none

/-! ## `main.go`: loading providers and dispatch -/

/-- The loop of `runCLIMode` over `cfg.Providers` that builds `providers`: disabled entries
and entries whose construction fails are skipped.  Each loaded provider is paired with the
configuration entry `p` of the iteration that appended it (the entry whose `p.Target` the
loop logs for it). -/
def loadProviders : List ProviderConfig → List (ProviderConfig × ProviderHandle)
  | [] => []
  | p :: rest =>
    if p.Enable = false then loadProviders rest
    else
      match NewProvider p with
      | none => loadProviders rest
      | some pvd => (p, pvd) :: loadProviders rest

/-- The slice `providers` that `runCLIMode` passes to `handleFileChanges`. -/
def runCLIModeProviders (cfg : Config) : List ProviderHandle :=
  (loadProviders cfg.Providers).map Prod.snd

/-- A configuration whose first provider is disabled. -/
def cfgDisabledFirst : Config where
  WatchDir := "/data".toList
  DelayTime := 1
  Providers :=
    [ { Type_ := "aliyun".toList, Name := "ali".toList, Enable := false,
        Tokens := [("access_token".toList, "t1".toList)], Target := "A".toList },
      { Type_ := "baidu".toList, Name := "bd".toList, Enable := true,
        Tokens := [("access_token".toList, "t2".toList)], Target := "B".toList } ]

/-- The `targetDir` of the goroutine of `handleFileChanges` started for `providers[index]`:
`cfg.Providers[index].Target`; `none` is the index-out-of-range panic. -/
def targetDirAt (cfg : Config) (index : Nat) : Option (List Char) :=
  (cfg.Providers[index]?).map ProviderConfig.Target

/-- `uploadFile(pvd, localPath, remotePath, op)` of `main.go`, for an `op` that holds an
`fsnotify.Op`. -/
def uploadFile {σ : Type} (pvd : Provider σ) (localPath remotePath : List Char) (op : Nat)
    (s : σ) : GoError × σ :=
  let opStr := fsnotify.OpString op
  if strings.Contains opStr "Remove".toList then pvd.DeleteFile remotePath s
  else pvd.UploadFile localPath remotePath s

/-- `watcher.FileEvent`; times are points of a discrete clock. -/
structure FileEvent where
  Path : List Char
  Op : Nat
  Timestamp : Nat
  deriving DecidableEq, Repr

/-- The goroutine `handleFileChanges` starts for `providers[index]` on one event: the
provider's result (the error is logged when it is not nil) and its state afterwards;
`none` is the index-out-of-range panic. -/
def dispatchOne {σ : Type} (cfg : Config) (event : FileEvent) (index : Nat)
    (pvd : Provider σ) (s : σ) : Option (GoError × σ) :=
  match targetDirAt cfg index with
  | none => none
  | some targetDir =>
    let remotePath := getRemotePath event.Path cfg.WatchDir targetDir
    some (uploadFile pvd event.Path remotePath event.Op s)

/-- The dispatch of one event by `handleFileChanges`: one goroutine per provider, each on
its own provider with its own state, joined by `wg.Wait()`. -/
def dispatchFrom {σ : Type} (cfg : Config) (event : FileEvent) :
    Nat → List (Provider σ × σ) → List (Option (GoError × σ))
  | _, [] => []
  | index, (pvd, s) :: rest =>
    dispatchOne cfg event index pvd s :: dispatchFrom cfg event (index + 1) rest

/-- The dispatch of one event to `providers`, indices counted from 0. -/
def dispatch {σ : Type} (cfg : Config) (event : FileEvent)
    (providers : List (Provider σ × σ)) : List (Option (GoError × σ)) :=
  dispatchFrom cfg event 0 providers

/-! ## `watcher/watcher.go`

The watcher is a state machine.  Its steps are the ones that can interleave at run time:
`handleEvent` on a raw notification, a timer expiring (its callback starts), a callback
sending its event and deleting the map entry of its path, and `Stop`. -/

namespace watcher

/-- The life of a `*time.Timer` made by `time.AfterFunc`: `pending` until it expires or is
stopped, `running` while its function runs, `finished` when the function has returned. -/
inductive TimerStatus where
  | pending
  | stopped
  | running
  | finished
  deriving DecidableEq, Repr

/-- A timer made by `time.AfterFunc(w.delay, func() {...})` in `handleEvent`, with the
variables its function captured: `fileEvent` and `event.Name`. -/
structure Timer where
  fileEvent : FileEvent
  name : List Char
  deadline : Nat
  status : TimerStatus
  deriving DecidableEq, Repr

/-- `watcher.Watcher`.  `timers` holds every timer made so far, a timer is named by its
position; `timerMap` is the `sync.Map` from path to timer; `eventChan` lists the events
sent on the channel so far; `closed` says that `stopChan` and `fsWatcher` are closed;
`watched` is the watch set of `fsWatcher`. -/
structure Watcher where
  watchDir : List Char
  delay : Nat
  closed : Bool
  watched : List (List Char)
  timers : List Timer
  timerMap : List (List Char × Nat)
  eventChan : List FileEvent
  deriving DecidableEq, Repr

/-- The `Watcher` that `NewWatcher(watchDir, delay)` returns once `addWatchDir` has
registered the directories `watched`. -/
def newWatcher (watchDir : List Char) (delay : Nat) (watched : List (List Char)) : Watcher where
  watchDir := watchDir
  delay := delay
  closed := false
  watched := watched
  timers := []
  timerMap := []
  eventChan := []

/-- `sync.Map.Load(key)`. -/
def mapLoad (m : List (List Char × Nat)) (key : List Char) : Option Nat :=
  m.lookup key

/-- `sync.Map.Delete(key)`. -/
def mapDelete (m : List (List Char × Nat)) (key : List Char) : List (List Char × Nat) :=
  m.filter (fun e => e.1 != key)

/-- `sync.Map.Store(key, value)`. -/
def mapStore (m : List (List Char × Nat)) (key : List Char) (value : Nat) :
    List (List Char × Nat) :=
  (key, value) :: mapDelete m key

/-- Apply `f` to the timer at position `id`. -/
def updateTimer (f : Timer → Timer) : Nat → List Timer → List Timer
  | _, [] => []
  | 0, t :: ts => f t :: ts
  | id + 1, t :: ts => t :: updateTimer f id ts

/-- `timer.Stop()`: a pending timer will not fire; a timer that has expired is not
affected (its function runs to the end). -/
def stopTimer (t : Timer) : Timer :=
  if t.status = .pending then { t with status := .stopped } else t

/-- `fsWatcher.Add(name)`; `ok` says whether the registration succeeds.  Adding a watched
path again changes nothing, and nothing is added to a closed watcher. -/
def fsAdd (w : Watcher) (name : List Char) (ok : Bool) : Watcher :=
  if w.closed = false ∧ ok = true ∧ name ∉ w.watched then { w with watched := w.watched ++ [name] }
  else w

/-- `handleEvent(event)` run at time `now`.  `isDir` is the answer of
`os.Stat(event.Name)` (no error and a directory), `addOk` the one of `fsWatcher.Add`. -/
def handleEvent (w : Watcher) (event : fsnotify.Event) (now : Nat) (isDir addOk : Bool) :
    Watcher :=
  -- exclude temporary and hidden files
  let base := filepath.Base event.Name
  if 0 < base.length ∧ base.head? = some '.' then w
  -- only create, write, remove, rename
  else if event.Op &&& (fsnotify.Create ||| fsnotify.Write ||| fsnotify.Remove |||
      fsnotify.Rename) = 0 then w
  else
    -- a created directory is watched
    let w1 :=
      if event.Op &&& fsnotify.Create = fsnotify.Create ∧ isDir = true then
        fsAdd w event.Name addOk
      else w
    let fileEvent : FileEvent := { Path := event.Name, Op := event.Op, Timestamp := now }
    -- cancel the previous timer
    let w2 :=
      match mapLoad w1.timerMap event.Name with
      | some id => { w1 with timers := updateTimer stopTimer id w1.timers }
      | none => w1
    -- make the new delayed timer and store it
    let timer : Timer :=
      { fileEvent := fileEvent, name := event.Name, deadline := now + w2.delay,
        status := .pending }
    { w2 with timers := w2.timers ++ [timer],
              timerMap := mapStore w2.timerMap event.Name w2.timers.length }

/-- The timer `id` expires at time `now`: its function starts. -/
def expire (w : Watcher) (id now : Nat) : Watcher :=
  match w.timers[id]? with
  | none => w
  | some t =>
    if t.status = .pending ∧ t.deadline ≤ now then
      { w with timers := updateTimer (fun t => { t with status := .running }) id w.timers }
    else w

/-- The function of timer `id` runs: `w.eventChan <- fileEvent` and
`w.timerMap.Delete(event.Name)`. -/
def complete (w : Watcher) (id : Nat) : Watcher :=
  match w.timers[id]? with
  | none => w
  | some t =>
    if t.status = .running then
      { w with eventChan := w.eventChan ++ [t.fileEvent],
               timerMap := mapDelete w.timerMap t.name,
               timers := updateTimer (fun t => { t with status := .finished }) id w.timers }
    else w

/-- The function `Stop` passes to `timerMap.Range`, applied to one entry. -/
def stopEntry (w : Watcher) (e : List Char × Nat) : Watcher :=
  { w with timers := updateTimer stopTimer e.2 w.timers,
           timerMap := mapDelete w.timerMap e.1 }

/-- `Stop()`: `stopChan` and `fsWatcher` are closed, then every entry of `timerMap` is
visited, its timer stopped and the entry deleted. -/
def Stop (w : Watcher) : Watcher :=
  w.timerMap.foldl stopEntry { w with closed := true }

/-- A step of the watcher. -/
inductive Step where
  | handle (event : fsnotify.Event) (now : Nat) (isDir addOk : Bool)
  | expire (id now : Nat)
  | complete (id : Nat)
  | stop
  deriving DecidableEq, Repr

/-- The watcher after one step.  A step that cannot happen leaves the watcher as it is: the
expiry of a timer that is not pending or whose time has not come, the callback of a timer
that is not running. -/
def step (w : Watcher) : Step → Watcher
  | .handle event now isDir addOk => handleEvent w event now isDir addOk
  | .expire id now => expire w id now
  | .complete id => complete w id
  | .stop => Stop w

/-- The watcher after a list of steps. -/
def run (w : Watcher) (steps : List Step) : Watcher :=
  steps.foldl step w

/-- A timer is live when it is neither stopped nor completed. -/
def Timer.live (t : Timer) : Bool :=
  t.status = .pending || t.status = .running

/-- The positions of the live timers of path `p`. -/
def liveTimers (w : Watcher) (p : List Char) : List Nat :=
  (List.range w.timers.length).filter fun id =>
    match w.timers[id]? with
    | some t => t.live && t.name == p
    | none => false

/-- The event `handleEvent` does not drop: its base name is not hidden and it carries one of
the operations create, write, remove, rename. -/
def Eligible (event : fsnotify.Event) : Prop :=
  (filepath.Base event.Name).head? ≠ some '.' ∧
    event.Op &&& (fsnotify.Create ||| fsnotify.Write ||| fsnotify.Remove ||| fsnotify.Rename) ≠ 0

/-- The timers after `handleEvent` has stopped the timer stored for the path. -/
def timersAfterCancel (w : Watcher) (name : List Char) : List Timer :=
  match mapLoad w.timerMap name with
  | some id => updateTimer stopTimer id w.timers
  | none => w.timers

/-- The events sent so far for path `p`. -/
def eventsFor (p : List Char) (w : Watcher) : List FileEvent :=
  w.eventChan.filter (fun e => e.Path == p)

/-- A step that is not `handleEvent`. -/
def Step.isHandle : Step → Bool
  | .handle _ _ _ _ => true
  | _ => false

/-- A run in which a callback has started when the next notification for its path is
handled: write at 0, the timer expires at 10, write at 10, the first callback completes,
write at 11. -/
def raceSteps : List Step :=
  [.handle ⟨"/data/a".toList, fsnotify.Write⟩ 0 false false, .expire 0 10,
   .handle ⟨"/data/a".toList, fsnotify.Write⟩ 10 false false, .complete 0,
   .handle ⟨"/data/a".toList, fsnotify.Write⟩ 11 false false]

/-- The steps `handleEvent` on a burst of notifications for path `p`; a notification is
given by its operation, the time it is handled at, and the answers of `os.Stat` and
`fsWatcher.Add`. -/
def burstSteps (p : List Char) (burst : List (Nat × Nat × Bool × Bool)) : List Step :=
  burst.map fun b => .handle ⟨p, b.1⟩ b.2.1 b.2.2.1 b.2.2.2

/-- The function of every timer deletes the path of the event it sends. -/
def NamePath (w : Watcher) : Prop :=
  ∀ (i : Nat) (t : Timer), w.timers[i]? = some t → t.name = t.fileEvent.Path

/-- The only live timer of path `p`, if any, is the timer at place `n`, and it carries the
event `e`. -/
def OnlyLiveAt (w : Watcher) (p : List Char) (n : Nat) (e : FileEvent) : Prop :=
  ∀ (i : Nat) (t : Timer), w.timers[i]? = some t → t.name = p → t.live = true →
    i = n ∧ t.fileEvent = e

/-- Path `p` has no live timer. -/
def NoLive (w : Watcher) (p : List Char) : Prop :=
  ∀ (i : Nat) (t : Timer), w.timers[i]? = some t → t.name = p → t.live = false

/-- Every live timer of path `p` is pending and is the timer stored for `p`. -/
def LiveStored (w : Watcher) (p : List Char) : Prop :=
  ∀ (i : Nat) (t : Timer), w.timers[i]? = some t → t.name = p → t.live = true →
    t.status = .pending ∧ mapLoad w.timerMap p = some i

/-- The timer `handleEvent` makes for an event it does not drop. -/
def newTimer (w : Watcher) (event : fsnotify.Event) (now : Nat) : Timer :=
  { fileEvent := { Path := event.Name, Op := event.Op, Timestamp := now },
    name := event.Name, deadline := now + w.delay, status := .pending }

/-- Two timers differ at most in their status. -/
def SameBody (t1 t2 : Timer) : Prop :=
  t1.fileEvent = t2.fileEvent ∧ t1.name = t2.name ∧ t1.deadline = t2.deadline

/-- The status changes a timer can go through: a pending timer is stopped or starts
running, a running one finishes. -/
def StatusLe : TimerStatus → TimerStatus → Prop
  | .pending, _ => True
  | .running, s => s = .running ∨ s = .finished
  | .stopped, s => s = .stopped
  | .finished, s => s = .finished

/-- The timers `ts2` are the timers `ts1` later on: every timer of `ts1` is at its place,
with a status it can have reached, and timers may have been added at the end. -/
def Evolves (ts1 ts2 : List Timer) : Prop :=
  ∀ (i : Nat) (t : Timer), ts1[i]? = some t →
    ∃ t2, ts2[i]? = some t2 ∧ SameBody t2 t ∧ StatusLe t.status t2.status

end watcher

end CloudFileSync

namespace CloudFileSync

/-! ## `provider/baidu.go`: the path of an uploaded file -/

namespace strings

/-- `strings.Trim(s, "/")`: `s` without its leading and trailing `/`. -/
def TrimSlashes (s : List Char) : List Char :=
  ((s.dropWhile (· == '/')).reverse.dropWhile (· == '/')).reverse

end strings

namespace baidu

/-- The path `getOrCreateDir(remotePath)` returns when no request fails: `/` for the remote
root, otherwise `/` followed by the trimmed directory (the same value on the branch that
finds the directory and on the one that creates it with `createDirRecursive`). -/
def getOrCreateDirPath (remotePath : List Char) : List Char :=
  let trimmed := strings.TrimSlashes remotePath
  if trimmed = [] then ['/'] else '/' :: trimmed

/-- The `path` field `createFile(parentPath, fileName, ...)` sends. -/
def createFilePath (parentPath fileName : List Char) : List Char :=
  let remotePath := strings.TrimSuffix parentPath ['/']
  let remotePath1 := if remotePath = [] then ['/'] else remotePath
  remotePath1 ++ ['/'] ++ fileName

end baidu

end CloudFileSync

namespace CloudFileSync

/-! ## `filepath.Walk`, `addWatchDir` and `NewWatcher` -/

namespace watcher

mutual
/-- What is found at a path: something that is not a directory, a directory with its
entries in the order of `readDirNames`, or a directory whose names cannot be read. -/
inductive FsNode where
  | file : FsNode
  | dir (entries : FsEntries) : FsNode
  | unreadable (err : List Char) : FsNode
/-- The entries of a directory: for each name either what `os.Lstat` finds there, or the
error of `os.Lstat`. -/
inductive FsEntries where
  | nil : FsEntries
  | entry (name : List Char) (node : FsNode) (rest : FsEntries) : FsEntries
  | lstatErr (name : List Char) (err : List Char) (rest : FsEntries) : FsEntries
end

/-- `info.IsDir()`. -/
def FsNode.IsDir : FsNode → Bool
  | .file => false
  | .dir _ => true
  | .unreadable _ => true

/-- A non-nil error returned by a walk function: `filepath.SkipDir` or another error. -/
inductive WalkErr where
  | SkipDir
  | other (err : List Char)
  deriving DecidableEq, Repr

/-- What a walk has done so far: the paths the walk function was called with, and the
paths it passed to `fsWatcher.Add`. -/
structure WalkLog where
  visited : List (List Char)
  added : List (List Char)
  deriving DecidableEq, Repr

/-- The function `addWatchDir` passes to `filepath.Walk`, called with `path`, whether
`info` is a directory, and `err`; `addErr` is the answer of `fsWatcher.Add`. -/
def addWatchFn (addErr : List Char → GoError) (path : List Char) (isDir : Bool)
    (err : GoError) (log : WalkLog) : Option WalkErr × WalkLog :=
  let log1 := { log with visited := log.visited ++ [path] }
  match err with
  | some e => (some (.other e), log1)
  | none =>
    if isDir = true then
      -- exclude hidden directories
      if (filepath.Base path).head? = some '.' then (some .SkipDir, log1)
      else ((addErr path).map WalkErr.other, { log1 with added := log1.added ++ [path] })
    else (none, log1)

mutual
/-- `walk(path, info, walkFn)` of `path/filepath`, for the walk function of `addWatchDir`. -/
def walk (addErr : List Char → GoError) (path : List Char) :
    FsNode → WalkLog → Option WalkErr × WalkLog
  | .file, log => addWatchFn addErr path false none log
  | .unreadable e, log => addWatchFn addErr path true (some e) log
  | .dir entries, log =>
    match addWatchFn addErr path true none log with
    | (some err1, log1) => (some err1, log1)
    | (none, log1) => walkEntries addErr path entries log1
/-- The loop `for _, name := range names` of `walk`. -/
def walkEntries (addErr : List Char → GoError) (path : List Char) :
    FsEntries → WalkLog → Option WalkErr × WalkLog
  | .nil, log => (none, log)
  | .lstatErr name e rest, log =>
    match addWatchFn addErr (filepath.Join [path, name]) false (some e) log with
    | (some (.other e1), log1) => (some (.other e1), log1)
    | (_, log1) => walkEntries addErr path rest log1
  | .entry name node rest, log =>
    match walk addErr (filepath.Join [path, name]) node log with
    | (none, log1) => walkEntries addErr path rest log1
    | (some err, log1) =>
      if node.IsDir = false ∨ err ≠ .SkipDir then (some err, log1)
      else walkEntries addErr path rest log1
end

/-- The file system and the notification library as `NewWatcher` meets them:
the answer of `fsnotify.NewWatcher()`, what `os.Lstat(watchDir)` finds (or its error), and
the answer of `fsWatcher.Add` for each path. -/
structure FsEnv where
  newWatcherErr : GoError
  root : Except (List Char) FsNode
  addErr : List Char → GoError

/-- `addWatchDir(dir)`, that is `filepath.Walk(dir, ...)`: the error returned and what the
walk did. -/
def addWatchDir (env : FsEnv) (dir : List Char) : GoError × WalkLog :=
  let r :=
    match env.root with
    | .error e => addWatchFn env.addErr dir false (some e) ⟨[], []⟩
    | .ok info => walk env.addErr dir info ⟨[], []⟩
  match r with
  | (none, log) => (none, log)
  | (some .SkipDir, log) => (none, log)
  | (some (.other e), log) => (some e, log)

/-- The watch set after the registrations `added`: a path registered twice is held once. -/
def watchSetOf (added : List (List Char)) : List (List Char) :=
  added.foldl (fun ws p => if p ∈ ws then ws else ws ++ [p]) []

/-- `NewWatcher(watchDir, delay)`: an error, or the new watcher. -/
def NewWatcher (env : FsEnv) (watchDir : List Char) (delay : Nat) :
    Except (List Char) Watcher :=
  match env.newWatcherErr with
  | some e => .error e
  | none =>
    match addWatchDir env watchDir with
    | (some e, _) => .error e
    | (none, log) => .ok (newWatcher watchDir delay (watchSetOf log.added))

/-- A base name that begins with `.`. -/
def hiddenName (name : List Char) : Bool :=
  name.head? = some '.'

mutual
/-- The directories of the tree at `path` that seeding is to register, in the words of the
specification: the directory itself and, in every directory listed, the entries that are
directories with a base name that is not hidden, with theirs. -/
def eligibleDirs (path : List Char) : FsNode → List (List Char)
  | .file => []
  | .unreadable _ => [path]
  | .dir entries => path :: eligibleIn path entries
/-- The directories to register among the entries of the directory `path`. -/
def eligibleIn (path : List Char) : FsEntries → List (List Char)
  | .nil => []
  | .lstatErr _ _ rest => eligibleIn path rest
  | .entry name node rest =>
    (if hiddenName name then [] else eligibleDirs (filepath.Join [path, name]) node) ++
      eligibleIn path rest
end

mutual
/-- Every directory of the tree can be listed, every entry examined, and the names of the
entries are file names (not empty, without `/`, neither `.` nor `..`). -/
def FsNode.Sound : FsNode → Bool
  | .file => true
  | .unreadable _ => false
  | .dir entries => entries.Sound
/-- The entries of a directory are sound. -/
def FsEntries.Sound : FsEntries → Bool
  | .nil => true
  | .lstatErr _ _ _ => false
  | .entry name node rest => filepath.isElem name && node.Sound && rest.Sound
end

mutual
/-- The paths of the tree at `path` that are not inside a hidden directory, in the words of
the specification and in the order of the walk: the path itself and, for a directory that
is listed, its entries, each with what it holds unless its base name is hidden. -/
def outsideHidden (path : List Char) : FsNode → List (List Char)
  | .file => [path]
  | .unreadable _ => [path]
  | .dir entries => path :: outsideHiddenIn path entries
/-- The paths not inside a hidden directory among and below the entries of the directory
`path`. -/
def outsideHiddenIn (path : List Char) : FsEntries → List (List Char)
  | .nil => []
  | .lstatErr name _ rest => filepath.Join [path, name] :: outsideHiddenIn path rest
  | .entry name node rest =>
    (if hiddenName name then [filepath.Join [path, name]]
      else outsideHidden (filepath.Join [path, name]) node) ++ outsideHiddenIn path rest
end

/-- A tree: `/data` with the file `a.txt`, the hidden directory `.git` holding `objects`,
and the directory `sub` holding the directory `deep` and the file `b`. -/
def sampleTree : FsNode :=
  .dir (.entry ".git".toList (.dir (.entry "objects".toList (.dir .nil) .nil))
    (.entry "a.txt".toList .file
      (.entry "sub".toList
        (.dir (.entry "b".toList .file (.entry "deep".toList (.dir .nil) .nil)))
        .nil)))

/-- A tree: `/data` with the directory `sub`, which cannot be opened, and the directory
`z`. -/
def closedDirTree : FsNode :=
  .dir (.entry "sub".toList (.unreadable "permission denied".toList)
    (.entry "z".toList (.dir .nil) .nil))

end watcher

end CloudFileSync

namespace CloudFileSync

namespace watcher

/-- What a walk leaves in its log, for any tree: registrations are kept; a path registered
by the walk is not hidden; and a path visited by the walk is its starting point or an
entry of a registered directory. -/
def WalkKeeps (start : Option (List Char)) (log log2 : WalkLog) : Prop :=
  (∀ a ∈ log.added, a ∈ log2.added) ∧
  (∀ d ∈ log2.added, d ∈ log.added ∨ (filepath.Base d).head? ≠ some '.') ∧
  (∀ v ∈ log2.visited, v ∈ log.visited ∨ some v = start ∨
    ∃ d ∈ log2.added, ∃ name, v = filepath.Join [d, name])

end watcher

end CloudFileSync

namespace CloudFileSync

namespace filepath

/-! ## `Clean`: the loop -/

theorem length_dropWhile_le (p : Char → Bool) (l : List Char) :
    (l.dropWhile p).length ≤ l.length := by
  induction l with
  | nil => simp
  | cons a l ih =>
    rw [List.dropWhile_cons]
    split
    · simp; omega
    · simp

/-- The loop of `Clean` does not depend on the fuel once there is enough of it. -/
theorem cleanLoop_fuel (rooted : Bool) (f1 f2 : Nat) (rest out : List Char) (dotdot : Nat)
    (h1 : rest.length ≤ f1) (h2 : rest.length ≤ f2) :
    cleanLoop rooted f1 rest out dotdot = cleanLoop rooted f2 rest out dotdot := by
  induction f1 generalizing f2 rest out dotdot with
  | zero =>
    have : rest = [] := List.length_eq_zero.mp (by omega)
    subst this
    cases f2 <;> rfl
  | succ n ih =>
    cases rest with
    | nil => cases f2 <;> rfl
    | cons c t =>
      cases f2 with
      | zero => simp at h2
      | succ m =>
        simp only [List.length_cons] at h1 h2
        have ht : t.length ≤ n := by omega
        have ht2 : t.length ≤ m := by omega
        have htt : t.tail.length ≤ n := by simp; omega
        have htt2 : t.tail.length ≤ m := by simp; omega
        have hd := length_dropWhile_le (· != '/') t
        simp only [cleanLoop]
        split
        · exact ih _ _ _ _ ht ht2
        · split
          · exact ih _ _ _ _ ht ht2
          · split
            · split
              · exact ih _ _ _ _ htt htt2
              · split
                · exact ih _ _ _ _ htt htt2
                · exact ih _ _ _ _ htt htt2
            · next hc _ _ =>
              have hdw : (c :: t).dropWhile (· != '/') = t.dropWhile (· != '/') := by
                simp [List.dropWhile_cons, hc]
              rw [hdw]
              exact ih _ _ _ _ (by omega) (by omega)

theorem cleanLoop_nil (rooted : Bool) (fuel : Nat) (out : List Char) (dotdot : Nat) :
    cleanLoop rooted fuel [] out dotdot = (out, dotdot) := by
  cases fuel <;> rfl

theorem atElemEnd_append (t ys : List Char) :
    atElemEnd (t ++ '/' :: ys) = atElemEnd t := by
  cases t <;> simp [atElemEnd]

theorem takeWhile_append_sep (xs ys : List Char) :
    (xs ++ '/' :: ys).takeWhile (· != '/') = xs.takeWhile (· != '/') := by
  induction xs with
  | nil => simp
  | cons a xs ih =>
    simp only [List.cons_append, List.takeWhile_cons]
    split
    · rw [ih]
    · rfl

theorem dropWhile_append_sep (xs ys : List Char) :
    (xs ++ '/' :: ys).dropWhile (· != '/') = xs.dropWhile (· != '/') ++ '/' :: ys := by
  induction xs with
  | nil => simp
  | cons a xs ih =>
    simp only [List.cons_append, List.dropWhile_cons]
    split
    · rw [ih]
    · rfl

theorem cleanLoop_cons (rooted : Bool) (fuel : Nat) (c : Char) (t out : List Char)
    (dotdot : Nat) :
    cleanLoop rooted (fuel + 1) (c :: t) out dotdot =
      if c = '/' then cleanLoop rooted fuel t out dotdot
      else if c = '.' ∧ atElemEnd t = true then cleanLoop rooted fuel t out dotdot
      else if c = '.' ∧ t.head? = some '.' ∧ atElemEnd t.tail = true then
        if dotdot < out.length then
          cleanLoop rooted fuel t.tail (out.take (backtrack out dotdot (out.length - 1))) dotdot
        else if rooted = false then
          cleanLoop rooted fuel t.tail
            ((if 0 < out.length then out ++ ['/'] else out) ++ ['.', '.'])
            ((if 0 < out.length then out ++ ['/'] else out) ++ ['.', '.']).length
        else cleanLoop rooted fuel t.tail out dotdot
      else
        cleanLoop rooted fuel ((c :: t).dropWhile (· != '/'))
          ((if (rooted = true ∧ out.length ≠ 1) ∨ (rooted = false ∧ out.length ≠ 0) then
              out ++ ['/']
            else out) ++ (c :: t).takeWhile (· != '/')) dotdot := by
  rw [cleanLoop]

/-- Reading `xs`, then `/`, then `ys` is reading `xs` and then `ys`: an element of `xs`
ends at the end of `xs` as it does before a separator. -/
theorem cleanLoop_split (rooted : Bool) (n : Nat) (xs ys out : List Char) (dotdot f2 f3 : Nat)
    (hn : xs.length ≤ n) (h2 : xs.length + 1 + ys.length ≤ f2) (h3 : ys.length ≤ f3) :
    cleanLoop rooted f2 (xs ++ '/' :: ys) out dotdot =
      cleanLoop rooted f3 ys (cleanLoop rooted n xs out dotdot).1
        (cleanLoop rooted n xs out dotdot).2 := by
  induction n generalizing xs out dotdot f2 with
  | zero =>
    have : xs = [] := List.length_eq_zero.mp (by omega)
    subst this
    cases f2 with
    | zero => simp at h2
    | succ m =>
      rw [List.nil_append, cleanLoop_cons, if_pos rfl, cleanLoop_nil]
      exact cleanLoop_fuel rooted _ _ _ _ _ (by simp at h2; omega) h3
  | succ n ih =>
    cases xs with
    | nil =>
      cases f2 with
      | zero => simp at h2
      | succ m =>
        rw [List.nil_append, cleanLoop_cons, if_pos rfl, cleanLoop_nil]
        exact cleanLoop_fuel rooted _ _ _ _ _ (by simp at h2; omega) h3
    | cons c t =>
      cases f2 with
      | zero => simp at h2
      | succ m =>
        simp only [List.length_cons] at hn h2
        have hlt : t.length ≤ n := by omega
        have hlm : t.length + 1 + ys.length ≤ m := by omega
        rw [List.cons_append, cleanLoop_cons, cleanLoop_cons]
        by_cases h1 : c = '/'
        · rw [if_pos h1, if_pos h1]
          exact ih t out dotdot m hlt hlm
        · rw [if_neg h1, if_neg h1]
          by_cases hd : c = '.' ∧ atElemEnd t = true
          · rw [if_pos hd, if_pos (by rw [atElemEnd_append]; exact hd)]
            exact ih t out dotdot m hlt hlm
          · rw [if_neg hd, if_neg (by rw [atElemEnd_append]; exact hd)]
            by_cases hdd : c = '.' ∧ t.head? = some '.' ∧ atElemEnd t.tail = true
            · obtain ⟨d, t2, rfl⟩ : ∃ d t2, t = d :: t2 := by
                cases t with
                | nil => simp at hdd
                | cons d t2 => exact ⟨d, t2, rfl⟩
              simp only [List.length_cons] at hlt hlm
              have hdd2 : c = '.' ∧ (d :: t2 ++ '/' :: ys).head? = some '.' ∧
                  atElemEnd (d :: t2 ++ '/' :: ys).tail = true := by
                simp only [List.cons_append, List.head?_cons, List.tail_cons, atElemEnd_append]
                simpa using hdd
              rw [if_pos hdd, if_pos hdd2]
              simp only [List.cons_append, List.tail_cons]
              split
              · exact ih t2 _ dotdot m (by omega) (by omega)
              · split
                · exact ih t2 _ _ m (by omega) (by omega)
                · exact ih t2 out dotdot m (by omega) (by omega)
            · have hdd2 : ¬ (c = '.' ∧ (t ++ '/' :: ys).head? = some '.' ∧
                  atElemEnd (t ++ '/' :: ys).tail = true) := by
                intro h
                apply hdd
                cases t with
                | nil => simp at h
                | cons d t2 =>
                  simp only [List.cons_append, List.head?_cons, List.tail_cons,
                    atElemEnd_append] at h
                  simpa using h
              rw [if_neg hdd, if_neg hdd2]
              have e1 : (c :: (t ++ '/' :: ys)).takeWhile (· != '/') =
                  (c :: t).takeWhile (· != '/') := takeWhile_append_sep (c :: t) ys
              have e2 : (c :: (t ++ '/' :: ys)).dropWhile (· != '/') =
                  (c :: t).dropWhile (· != '/') ++ '/' :: ys := dropWhile_append_sep (c :: t) ys
              rw [e1, e2]
              have hdw : (c :: t).dropWhile (· != '/') = t.dropWhile (· != '/') := by
                simp [List.dropWhile_cons, h1]
              have hdl := length_dropWhile_le (· != '/') t
              exact ih _ _ dotdot m (by rw [hdw]; omega) (by rw [hdw]; omega)

end filepath

end CloudFileSync

namespace CloudFileSync

namespace filepath

/-! ## `Clean`: the shape of the buffer -/

theorem isElem_iff (e : List Char) :
    isElem e = true ↔ e ≠ [] ∧ '/' ∉ e ∧ e ≠ ['.'] ∧ e ≠ ['.', '.'] := by
  unfold isElem
  simp [and_assoc]

theorem joinElems_cons (e : List Char) (es : List (List Char)) (h : es ≠ []) :
    joinElems (e :: es) = e ++ '/' :: joinElems es := by
  cases es with
  | nil => exact absurd rfl h
  | cons e2 es => rfl

theorem joinElems_append_singleton (cs : List (List Char)) (c : List Char) :
    joinElems (cs ++ [c]) = if cs = [] then c else joinElems cs ++ '/' :: c := by
  induction cs with
  | nil => rfl
  | cons a cs ih =>
    cases cs with
    | nil => simp [joinElems]
    | cons b cs =>
      rw [List.cons_append, joinElems_cons _ _ (by simp), ih]
      simp [joinElems]

theorem joinElems_eq_nil (cs : List (List Char)) (h : ∀ e ∈ cs, e ≠ []) :
    joinElems cs = [] ↔ cs = [] := by
  constructor
  · intro hj
    cases cs with
    | nil => rfl
    | cons a cs =>
      exfalso
      have ha : a ≠ [] := h a (List.mem_cons_self _ _)
      cases cs with
      | nil => exact ha hj
      | cons b cs =>
        rw [joinElems_cons _ _ (by simp)] at hj
        simp at hj
  · intro hc
    rw [hc]
    rfl

theorem joinElems_length_le (cs ds : List (List Char)) :
    (joinElems cs).length ≤ (joinElems (cs ++ ds)).length := by
  induction ds using List.reverseRecOn with
  | nil => simp
  | append_singleton l a ih =>
    rw [← List.append_assoc, joinElems_append_singleton]
    split
    · next h =>
      have : cs = [] := (List.append_eq_nil.mp h).1
      rw [this]
      simp [joinElems]
    · simp
      omega

theorem joinElems_length_lt (cs ds : List (List Char)) (hne : ds ≠ [])
    (h : ∀ e ∈ ds, e ≠ []) :
    (joinElems cs).length < (joinElems (cs ++ ds)).length := by
  rcases List.eq_nil_or_concat ds with h0 | ⟨l, a, hla⟩
  · exact absurd h0 hne
  · rw [List.concat_eq_append] at hla
    subst hla
    have ha : a ≠ [] := h a (by simp)
    have hal : 0 < a.length := List.length_pos.mpr ha
    rw [← List.append_assoc, joinElems_append_singleton]
    have := joinElems_length_le cs l
    split
    · next h1 =>
      have : cs = [] := (List.append_eq_nil.mp h1).1
      rw [this]
      simpa [joinElems] using hal
    · simp
      omega

/-- The backward scan over an element that follows a separator stops at the separator. -/
theorem backtrack_sep (A c : List Char) (dotdot k : Nat) (hc : '/' ∉ c)
    (hd : dotdot ≤ A.length) (hk : k ≤ c.length) :
    backtrack (A ++ '/' :: c) dotdot (A.length + k) = A.length := by
  induction k with
  | zero =>
    rw [Nat.add_zero]
    cases hA : A.length with
    | zero => rfl
    | succ w =>
      rw [backtrack, if_neg]
      rw [← hA, List.getElem?_append_right (Nat.le_refl _)]
      simp
  | succ k ih =>
    rw [← Nat.add_assoc, backtrack, if_pos, ih (by omega)]
    refine ⟨by omega, ?_⟩
    rw [List.getElem?_append_right (by omega)]
    have : A.length + k + 1 - A.length = k + 1 := by omega
    rw [this, List.getElem?_cons_succ]
    intro h
    exact hc (by rw [List.mem_iff_getElem?]; exact ⟨k, h⟩)

/-- The backward scan over an element that starts at `dotdot` stops at `dotdot`. -/
theorem backtrack_nosep (A c : List Char) (dotdot k : Nat) (hc : '/' ∉ c)
    (hd : dotdot = A.length) (hk : k < c.length) :
    backtrack (A ++ c) dotdot (A.length + k) = A.length := by
  induction k with
  | zero =>
    rw [Nat.add_zero]
    cases hA : A.length with
    | zero => rfl
    | succ w =>
      rw [backtrack, if_neg]
      intro h
      omega
  | succ k ih =>
    rw [← Nat.add_assoc, backtrack, if_pos, ih (by omega)]
    refine ⟨by omega, ?_⟩
    rw [List.getElem?_append_right (by omega)]
    have : A.length + k + 1 - A.length = k + 1 := by omega
    rw [this]
    intro h
    exact hc (by rw [List.mem_iff_getElem?]; exact ⟨k + 1, h⟩)

theorem takeWhile_eq_nil_iff_atElemEnd (t : List Char) :
    t.takeWhile (· != '/') = [] ↔ atElemEnd t = true := by
  cases t with
  | nil => simp [atElemEnd]
  | cons a t =>
    simp only [List.takeWhile_cons, atElemEnd]
    by_cases ha : a = '/' <;> simp [ha]

/-- The element `Clean` copies in its last case is neither empty, `.` nor `..`. -/
theorem takeWhile_isElem (c : Char) (t : List Char) (h1 : c ≠ '/')
    (h2 : ¬ (c = '.' ∧ atElemEnd t = true))
    (h3 : ¬ (c = '.' ∧ t.head? = some '.' ∧ atElemEnd t.tail = true)) :
    isElem ((c :: t).takeWhile (· != '/')) = true := by
  have hc : (c :: t).takeWhile (· != '/') = c :: t.takeWhile (· != '/') := by
    simp [List.takeWhile_cons, h1]
  rw [hc, isElem_iff]
  refine ⟨by simp, ?_, ?_, ?_⟩
  · intro hm
    rcases List.mem_cons.mp hm with h | h
    · exact h1 h.symm
    · have := List.mem_takeWhile_imp h
      simp at this
  · intro h
    simp only [List.cons.injEq] at h
    exact h2 ⟨h.1, (takeWhile_eq_nil_iff_atElemEnd t).mp h.2⟩
  · intro h
    simp only [List.cons.injEq] at h
    apply h3
    refine ⟨h.1, ?_⟩
    cases t with
    | nil => simp at h
    | cons d t2 =>
      by_cases hd : d = '/'
      · simp [List.takeWhile_cons, hd] at h
      · simp only [List.takeWhile_cons, bne_iff_ne, ne_eq, hd, not_false_eq_true, decide_True,
          if_true, List.cons.injEq] at h
        exact ⟨by simp [h.2.1], (takeWhile_eq_nil_iff_atElemEnd t2).mp h.2.2⟩

end filepath

end CloudFileSync

namespace CloudFileSync

namespace filepath

theorem dots_ne_nil (m : Nat) (elems : List (List Char)) (h : ∀ e ∈ elems, isElem e = true) :
    ∀ e ∈ List.replicate m ['.', '.'] ++ elems, e ≠ [] := by
  intro e he
  rcases List.mem_append.mp he with h1 | h1
  · rw [(List.mem_replicate.mp h1).2]
    simp
  · exact ((isElem_iff e).mp (h e h1)).1

/-- Copying an element keeps the shape of the buffer. -/
theorem CleanInv_elem (rooted : Bool) (out e : List Char) (dotdot : Nat)
    (h : CleanInv rooted out dotdot) (he : isElem e = true) :
    CleanInv rooted
      ((if (rooted = true ∧ out.length ≠ 1) ∨ (rooted = false ∧ out.length ≠ 0) then
          out ++ ['/']
        else out) ++ e) dotdot := by
  obtain ⟨m, elems, hel, hm, hout, hdd⟩ := h
  refine ⟨m, elems ++ [e], ?_, hm, ?_, hdd⟩
  · intro x hx
    rcases List.mem_append.mp hx with h1 | h1
    · exact hel x h1
    · simp at h1
      rw [h1]
      exact he
  · have hne := dots_ne_nil m elems hel
    rw [← List.append_assoc, joinElems_append_singleton]
    by_cases hcs : List.replicate m ['.', '.'] ++ elems = []
    · rw [hcs] at hout
      rw [if_pos hcs, hout]
      cases rooted <;> simp [rootOf, joinElems]
    · have hj : joinElems (List.replicate m ['.', '.'] ++ elems) ≠ [] :=
        fun hj => hcs ((joinElems_eq_nil _ hne).mp hj)
      have hl : 0 < (joinElems (List.replicate m ['.', '.'] ++ elems)).length :=
        List.length_pos.mpr hj
      rw [if_neg hcs, hout]
      cases rooted
      · simp [rootOf, hj]
      · simp [rootOf, hj]

/-- Removing the last element keeps the shape of the buffer. -/
theorem CleanInv_backtrack (rooted : Bool) (out : List Char) (dotdot : Nat)
    (h : CleanInv rooted out dotdot) (hlt : dotdot < out.length) :
    CleanInv rooted (out.take (backtrack out dotdot (out.length - 1))) dotdot := by
  obtain ⟨m, elems, hel, hm, hout, hdd⟩ := h
  rcases List.eq_nil_or_concat elems with h0 | ⟨es, e, hes⟩
  · exfalso
    rw [h0, List.append_nil] at hout
    rw [hout, hdd] at hlt
    exact Nat.lt_irrefl _ hlt
  · rw [List.concat_eq_append] at hes
    subst hes
    have he := (isElem_iff e).mp (hel e (by simp))
    have hepos : 0 < e.length := List.length_pos.mpr he.1
    have hel2 : ∀ x ∈ es, isElem x = true := fun x hx => hel x (by simp [hx])
    refine ⟨m, es, hel2, hm, ?_, hdd⟩
    rw [← List.append_assoc, joinElems_append_singleton] at hout
    by_cases hcs : List.replicate m ['.', '.'] ++ es = []
    · rw [if_pos hcs] at hout
      have hm0 : List.replicate m ['.', '.'] = [] := (List.append_eq_nil.mp hcs).1
      rw [hm0] at hdd
      have hd2 : dotdot = (rootOf rooted).length := by simpa [joinElems] using hdd
      have hk : out.length - 1 = (rootOf rooted).length + (e.length - 1) := by
        rw [hout]; simp; omega
      rw [hk, hout, backtrack_nosep (rootOf rooted) e dotdot (e.length - 1) he.2.1 hd2
        (by omega), hcs]
      simp [joinElems]
    · rw [if_neg hcs] at hout
      have hout2 : out = (rootOf rooted ++ joinElems (List.replicate m ['.', '.'] ++ es)) ++
          '/' :: e := by rw [hout]; simp
      have hle := joinElems_length_le (List.replicate m ['.', '.']) es
      have hk : out.length - 1 =
          (rootOf rooted ++ joinElems (List.replicate m ['.', '.'] ++ es)).length +
            e.length := by
        rw [hout2]; simp; omega
      rw [hk, hout2, backtrack_sep _ e dotdot e.length he.2.1 (by rw [hdd]; simp; omega)
        (Nat.le_refl _)]
      exact List.take_left' rfl

/-- Appending `..` to a buffer of `..` elements keeps the shape of the buffer. -/
theorem CleanInv_dotdot (out : List Char) (dotdot : Nat) (h : CleanInv false out dotdot)
    (hge : ¬ dotdot < out.length) :
    CleanInv false ((if 0 < out.length then out ++ ['/'] else out) ++ ['.', '.'])
      ((if 0 < out.length then out ++ ['/'] else out) ++ ['.', '.']).length := by
  obtain ⟨m, elems, hel, hm, hout, hdd⟩ := h
  have hnil : elems = [] := by
    by_contra hne
    have := joinElems_length_lt (List.replicate m ['.', '.']) elems hne
      (fun e he => ((isElem_iff e).mp (hel e he)).1)
    apply hge
    rw [hout, hdd]
    simpa [rootOf] using this
  subst hnil
  rw [List.append_nil] at hout
  simp only [rootOf, Bool.false_eq_true, if_false, List.nil_append] at hout hdd
  have hshape : (if 0 < out.length then out ++ ['/'] else out) ++ ['.', '.'] =
      joinElems (List.replicate (m + 1) ['.', '.']) := by
    rw [List.replicate_succ', joinElems_append_singleton]
    by_cases hm0 : m = 0
    · subst hm0
      rw [hout]
      simp [joinElems]
    · have hr : List.replicate m ['.', '.'] ≠ [] := by
        intro h
        apply hm0
        simpa using congrArg List.length h
      have hne : ∀ e ∈ List.replicate m ['.', '.'], e ≠ [] := by
        intro e he
        rw [(List.mem_replicate.mp he).2]
        simp
      have hj : joinElems (List.replicate m ['.', '.']) ≠ [] :=
        fun hj => hr ((joinElems_eq_nil _ hne).mp hj)
      rw [if_neg hr, hout, if_pos (List.length_pos.mpr hj)]
      simp
  refine ⟨m + 1, [], by simp, by simp, ?_, ?_⟩
  · rw [hshape]; simp [rootOf]
  · rw [hshape]; simp [rootOf]

/-- The loop of `Clean` keeps the shape of the buffer. -/
theorem cleanLoop_inv (rooted : Bool) (fuel : Nat) (rest out : List Char) (dotdot : Nat)
    (h : CleanInv rooted out dotdot) :
    CleanInv rooted (cleanLoop rooted fuel rest out dotdot).1
      (cleanLoop rooted fuel rest out dotdot).2 := by
  induction fuel generalizing rest out dotdot with
  | zero => exact h
  | succ n ih =>
    cases rest with
    | nil => exact h
    | cons c t =>
      rw [cleanLoop_cons]
      by_cases h1 : c = '/'
      · rw [if_pos h1]
        exact ih t out dotdot h
      · rw [if_neg h1]
        by_cases h2 : c = '.' ∧ atElemEnd t = true
        · rw [if_pos h2]
          exact ih t out dotdot h
        · rw [if_neg h2]
          by_cases h3 : c = '.' ∧ t.head? = some '.' ∧ atElemEnd t.tail = true
          · rw [if_pos h3]
            by_cases h4 : dotdot < out.length
            · rw [if_pos h4]
              exact ih _ _ _ (CleanInv_backtrack rooted out dotdot h h4)
            · rw [if_neg h4]
              cases rooted with
              | false =>
                rw [if_pos rfl]
                exact ih _ _ _ (CleanInv_dotdot out dotdot h h4)
              | true =>
                rw [if_neg (by simp)]
                exact ih _ _ _ h
          · rw [if_neg h3]
            exact ih _ _ _ (CleanInv_elem rooted out _ dotdot h (takeWhile_isElem c t h1 h2 h3))

theorem CleanInv_init (rooted : Bool) :
    CleanInv rooted (rootOf rooted) (rootOf rooted).length :=
  ⟨0, [], by simp, fun _ => rfl, by simp [joinElems], by simp [joinElems]⟩

/-- The buffer of `Clean(path)` is the root, if the path is rooted, followed by elements
`..` (only if it is not rooted) and then elements that are neither `.` nor `..`. -/
theorem cleanBuf_shape (path : List Char) :
    ∃ (m : Nat) (elems : List (List Char)),
      (∀ e ∈ elems, isElem e = true) ∧ (path.head? = some '/' → m = 0) ∧
      cleanBuf path = rootOf (decide (path.head? = some '/')) ++
        joinElems (List.replicate m ['.', '.'] ++ elems) := by
  unfold cleanBuf
  by_cases hr : path.head? = some '/'
  · rw [if_pos hr]
    obtain ⟨m, elems, h1, h2, h3, _⟩ :=
      cleanLoop_inv true path.length path.tail ['/'] 1 (CleanInv_init true)
    exact ⟨m, elems, h1, fun _ => h2 rfl, by simpa [hr] using h3⟩
  · rw [if_neg hr]
    obtain ⟨m, elems, h1, _, h3, _⟩ :=
      cleanLoop_inv false path.length path [] 0 (CleanInv_init false)
    exact ⟨m, elems, h1, fun h => absurd h hr, by simpa [hr] using h3⟩

end filepath

end CloudFileSync

namespace CloudFileSync

namespace filepath

/-! ## `Clean`: reading clean elements -/

theorem takeWhile_of_not_mem (e : List Char) (h : '/' ∉ e) : e.takeWhile (· != '/') = e := by
  rw [List.takeWhile_eq_self_iff]
  intro x hx
  simp only [bne_iff_ne, ne_eq]
  intro hx2
  exact h (hx2 ▸ hx)

theorem dropWhile_of_not_mem (e : List Char) (h : '/' ∉ e) : e.dropWhile (· != '/') = [] := by
  rw [List.dropWhile_eq_nil_iff]
  intro x hx
  simp only [bne_iff_ne, ne_eq]
  intro hx2
  exact h (hx2 ▸ hx)

theorem takeWhile_elem_append (e R : List Char) (h : '/' ∉ e) (hR : atElemEnd R = true) :
    (e ++ R).takeWhile (· != '/') = e ∧ (e ++ R).dropWhile (· != '/') = R := by
  cases R with
  | nil => simp [takeWhile_of_not_mem e h, dropWhile_of_not_mem e h]
  | cons x R =>
    have hx : x = '/' := by simpa [atElemEnd] using hR
    subst hx
    rw [takeWhile_append_sep, dropWhile_append_sep, takeWhile_of_not_mem e h,
      dropWhile_of_not_mem e h]
    simp

/-- One iteration of the loop of `Clean` on a clean element `e` that ends the path or is
followed by a separator: the element is copied. -/
theorem cleanLoop_elem_step (rooted : Bool) (fuel : Nat) (e R out : List Char) (dotdot : Nat)
    (he : isElem e = true) (hR : atElemEnd R = true) :
    cleanLoop rooted (fuel + 1) (e ++ R) out dotdot =
      cleanLoop rooted fuel R
        ((if (rooted = true ∧ out.length ≠ 1) ∨ (rooted = false ∧ out.length ≠ 0) then
            out ++ ['/']
          else out) ++ e) dotdot := by
  obtain ⟨hne, hsep, hdot, hdotdot⟩ := (isElem_iff e).mp he
  cases e with
  | nil => exact absurd rfl hne
  | cons c t =>
    have hc : c ≠ '/' := fun h => hsep (by simp [h])
    have htsep : '/' ∉ t := fun h => hsep (List.mem_cons_of_mem _ h)
    have h2 : ¬ (c = '.' ∧ atElemEnd (t ++ R) = true) := by
      rintro ⟨hc1, hend⟩
      cases t with
      | nil => exact hdot (by rw [hc1])
      | cons d t2 =>
        have : d = '/' := by simpa [atElemEnd] using hend
        exact htsep (by simp [this])
    have h3 : ¬ (c = '.' ∧ (t ++ R).head? = some '.' ∧ atElemEnd (t ++ R).tail = true) := by
      rintro ⟨hc1, hhead, hend⟩
      cases t with
      | nil => exact hdot (by rw [hc1])
      | cons d t2 =>
        have hd : d = '.' := by simpa using hhead
        cases t2 with
        | nil => exact hdotdot (by rw [hc1, hd])
        | cons x t3 =>
          have : x = '/' := by simpa [atElemEnd] using hend
          exact htsep (by simp [this])
    obtain ⟨e1, e2⟩ := takeWhile_elem_append (c :: t) R hsep hR
    rw [List.cons_append, cleanLoop_cons, if_neg hc, if_neg h2, if_neg h3]
    rw [List.cons_append] at e1 e2
    rw [e1, e2]

/-- The loop of `Clean` on clean elements joined by `/` copies them as they are. -/
theorem cleanLoop_elems (rooted : Bool) (es : List (List Char)) (hne : es ≠ [])
    (hes : ∀ e ∈ es, isElem e = true) (fuel : Nat) (out : List Char) (dotdot : Nat)
    (hf : (joinElems es).length ≤ fuel) :
    cleanLoop rooted fuel (joinElems es) out dotdot =
      ((if (rooted = true ∧ out.length ≠ 1) ∨ (rooted = false ∧ out.length ≠ 0) then
          out ++ ['/']
        else out) ++ joinElems es, dotdot) := by
  induction es generalizing fuel out with
  | nil => exact absurd rfl hne
  | cons e es ih =>
    have he : isElem e = true := hes e (List.mem_cons_self _ _)
    have hepos : 0 < e.length := List.length_pos.mpr ((isElem_iff e).mp he).1
    cases es with
    | nil =>
      cases fuel with
      | zero =>
        have : (joinElems [e]).length = e.length := rfl
        omega
      | succ f =>
        have := cleanLoop_elem_step rooted f e [] out dotdot he rfl
        rw [List.append_nil] at this
        simp only [joinElems]
        rw [this, cleanLoop_nil]
    | cons e2 es2 =>
      rw [joinElems_cons _ _ (by simp)] at hf ⊢
      simp only [List.length_append, List.length_cons] at hf
      cases fuel with
      | zero => omega
      | succ f =>
        rw [cleanLoop_elem_step rooted f e ('/' :: joinElems (e2 :: es2)) out dotdot he
          (by simp [atElemEnd])]
        cases f with
        | zero => omega
        | succ f2 =>
          have hf2 : (joinElems (e2 :: es2)).length ≤ f2 := by omega
          rw [cleanLoop_cons, if_pos rfl,
            ih (by simp) (fun x hx => hes x (List.mem_cons_of_mem _ hx)) f2 _ hf2]
          have hcond : (rooted = true ∧
              ((if (rooted = true ∧ out.length ≠ 1) ∨ (rooted = false ∧ out.length ≠ 0) then
                  out ++ ['/'] else out) ++ e).length ≠ 1) ∨
              (rooted = false ∧
              ((if (rooted = true ∧ out.length ≠ 1) ∨ (rooted = false ∧ out.length ≠ 0) then
                  out ++ ['/'] else out) ++ e).length ≠ 0) := by
            cases rooted
            · right
              refine ⟨rfl, ?_⟩
              simp only [List.length_append]
              omega
            · left
              refine ⟨rfl, ?_⟩
              by_cases h1 : out.length = 1
              · have hn : ¬ ((true = true ∧ out.length ≠ 1) ∨ (true = false ∧ out.length ≠ 0)) := by
                  simp [h1]
                rw [if_neg hn, List.length_append]
                omega
              · rw [if_pos (Or.inl ⟨rfl, h1⟩)]
                simp only [List.length_append, List.length_cons, List.length_nil]
                omega
          rw [if_pos hcond]
          simp

/-- The state of the loop of `Clean` when it has read `path`. -/
theorem cleanBuf_eq (path : List Char) :
    cleanBuf path =
      (cleanLoop (decide (path.head? = some '/')) path.length
        (if path.head? = some '/' then path.tail else path)
        (rootOf (decide (path.head? = some '/')))
        (rootOf (decide (path.head? = some '/'))).length).1 := by
  unfold cleanBuf
  by_cases h : path.head? = some '/' <;> simp [h, rootOf]

/-- Cleaning `W/ys` is reading `ys` from the state reached at the end of `W`. -/
theorem cleanBuf_append (W ys : List Char) (hW : W ≠ []) :
    cleanBuf (W ++ '/' :: ys) =
      (cleanLoop (decide (W.head? = some '/')) ys.length ys
        (cleanLoop (decide (W.head? = some '/')) W.length
          (if W.head? = some '/' then W.tail else W)
          (rootOf (decide (W.head? = some '/')))
          (rootOf (decide (W.head? = some '/'))).length).1
        (cleanLoop (decide (W.head? = some '/')) W.length
          (if W.head? = some '/' then W.tail else W)
          (rootOf (decide (W.head? = some '/')))
          (rootOf (decide (W.head? = some '/'))).length).2).1 := by
  have hhead : (W ++ '/' :: ys).head? = W.head? := by
    cases W with
    | nil => exact absurd rfl hW
    | cons a W => rfl
  rw [cleanBuf_eq, hhead]
  have htail : (if W.head? = some '/' then (W ++ '/' :: ys).tail else W ++ '/' :: ys) =
      (if W.head? = some '/' then W.tail else W) ++ '/' :: ys := by
    cases W with
    | nil => exact absurd rfl hW
    | cons a W => split <;> rfl
  rw [htail]
  have hlen : (if W.head? = some '/' then W.tail else W).length ≤ W.length := by
    split
    · simp
    · exact Nat.le_refl _
  rw [cleanLoop_split _ W.length _ ys _ _ _ ys.length hlen (by simp; omega) (Nat.le_refl _)]

end filepath

end CloudFileSync

namespace CloudFileSync

namespace filepath

/-! ## `Clean` and `Rel` below a directory -/

theorem getLast?_append_elem (X a : List Char) (hne : a ≠ []) (hsep : '/' ∉ a) :
    (X ++ a).getLast? ≠ some '/' := by
  rw [List.getLast?_append, List.getLast?_eq_getLast a hne]
  simp only [Option.or, ne_eq, Option.some.injEq]
  intro h
  exact hsep (h ▸ List.getLast_mem hne)

theorem joinElems_getLast? (X : List Char) (cs : List (List Char)) (hne : cs ≠ [])
    (h : ∀ e ∈ cs, e ≠ [] ∧ '/' ∉ e) :
    (X ++ joinElems cs).getLast? ≠ some '/' := by
  rcases List.eq_nil_or_concat cs with h0 | ⟨l, a, hla⟩
  · exact absurd h0 hne
  · rw [List.concat_eq_append] at hla
    subst hla
    obtain ⟨ha1, ha2⟩ := h a (by simp)
    rw [joinElems_append_singleton]
    split
    · exact getLast?_append_elem X a ha1 ha2
    · have : X ++ (joinElems l ++ '/' :: a) = (X ++ joinElems l ++ ['/']) ++ a := by simp
      rw [this]
      exact getLast?_append_elem _ a ha1 ha2

theorem joinElems_head? (cs : List (List Char)) (h : ∀ e ∈ cs, e ≠ [] ∧ '/' ∉ e) :
    (joinElems cs).head? ≠ some '/' := by
  cases cs with
  | nil => simp [joinElems]
  | cons a cs =>
    obtain ⟨ha1, ha2⟩ := h a (List.mem_cons_self _ _)
    cases a with
    | nil => exact absurd rfl ha1
    | cons c t =>
      have hc : c ≠ '/' := fun hc => ha2 (by simp [hc])
      cases cs with
      | nil => simpa [joinElems] using hc
      | cons b cs => simpa [joinElems] using hc

theorem joinElems_ne_dot (cs : List (List Char)) (h : ∀ e ∈ cs, e ≠ [] ∧ e ≠ ['.']) :
    joinElems cs ≠ ['.'] := by
  cases cs with
  | nil => simp [joinElems]
  | cons a cs =>
    obtain ⟨ha1, ha2⟩ := h a (List.mem_cons_self _ _)
    cases cs with
    | nil => simpa [joinElems] using ha2
    | cons b cs =>
      intro hj
      have hl := congrArg List.length hj
      have := List.length_pos.mpr ha1
      simp [joinElems] at hl
      omega

theorem dots_and_elems (m : Nat) (elems : List (List Char))
    (h : ∀ e ∈ elems, isElem e = true) :
    ∀ e ∈ List.replicate m ['.', '.'] ++ elems, (e ≠ [] ∧ '/' ∉ e) ∧ (e ≠ [] ∧ e ≠ ['.']) := by
  intro e he
  rcases List.mem_append.mp he with h1 | h1
  · rw [(List.mem_replicate.mp h1).2]
    simp
  · obtain ⟨a, b, c, _⟩ := (isElem_iff e).mp (h e h1)
    exact ⟨⟨a, b⟩, a, c⟩

theorem dropWhile_head (l : List Char) (x : Char) (l2 : List Char)
    (h : l.dropWhile (· != '/') = x :: l2) : x = '/' := by
  induction l with
  | nil => simp at h
  | cons a l ih =>
    rw [List.dropWhile_cons] at h
    split at h
    · exact ih h
    · next hn =>
      simp only [List.cons.injEq] at h
      rw [← h.1]
      simpa using hn

theorem relLoop_nil (fuel : Nat) (ts : List Char) : relLoop fuel [] ts = ([], [], ts) := by
  cases fuel <;> simp [relLoop]

/-- The loop of `Rel` on `base` and `base/r`, for a `base` that does not end in a
separator: every element of `base` is matched and `r` is left. -/
theorem relLoop_prefix (fuel : Nat) (bs r : List Char) (hne : bs ≠ [])
    (hlast : bs.getLast? ≠ some '/') (hf : bs.length ≤ fuel) :
    relLoop fuel bs (bs ++ '/' :: r) = ([], [], r) := by
  induction fuel generalizing bs with
  | zero =>
    exact absurd (List.length_eq_zero.mp (by omega)) hne
  | succ n ih =>
    rw [relLoop, if_pos ⟨hne, by simp⟩]
    simp only [takeWhile_append_sep, dropWhile_append_sep, ne_eq, not_true_eq_false, if_false]
    have hsplit := List.takeWhile_append_dropWhile (· != '/') bs
    cases hd : bs.dropWhile (· != '/') with
    | nil => simp [relLoop_nil]
    | cons x bs2 =>
      have hx := dropWhile_head bs x bs2 hd
      subst hx
      rw [hd] at hsplit
      have hbs2 : bs2 ≠ [] := by
        intro h0
        apply hlast
        rw [← hsplit, h0]
        simp
      have hlast2 : bs2.getLast? ≠ some '/' := by
        intro h0
        apply hlast
        rw [← hsplit]
        have : List.takeWhile (fun x => x != '/') bs ++ '/' :: bs2 =
            (List.takeWhile (fun x => x != '/') bs ++ ['/']) ++ bs2 := by simp
        rw [this, List.getLast?_append, h0]
        rfl
      have hlen : bs2.length ≤ n := by
        have := congrArg List.length hsplit
        simp at this
        omega
      simpa using ih bs2 hbs2 hlast2 hlen

/-- Cleaning `W/r` for a non-empty `W` and clean elements `r`: the elements are appended to
the buffer of `W`. -/
theorem cleanBuf_append_elems (W : List Char) (es : List (List Char)) (hW : W ≠ [])
    (hne : es ≠ []) (hes : ∀ e ∈ es, isElem e = true) :
    cleanBuf (W ++ '/' :: joinElems es) =
      (if (decide (W.head? = some '/') = true ∧ (cleanBuf W).length ≠ 1) ∨
          (decide (W.head? = some '/') = false ∧ (cleanBuf W).length ≠ 0) then
        cleanBuf W ++ ['/']
      else cleanBuf W) ++ joinElems es := by
  rw [cleanBuf_append W _ hW, cleanLoop_elems _ es hne hes _ _ _ (Nat.le_refl _),
    ← cleanBuf_eq]

/-- `Rel(W, W/r)` is `r` when `r` is made of clean elements. -/
theorem Rel_append_elems (W : List Char) (es : List (List Char)) (hW : W ≠ [])
    (hne : es ≠ []) (hes : ∀ e ∈ es, isElem e = true) :
    Rel W (W ++ '/' :: joinElems es) = some (joinElems es) := by
  have hr : joinElems es ≠ [] := fun h =>
    hne ((joinElems_eq_nil es (fun e he => ((isElem_iff e).mp (hes e he)).1)).mp h)
  have hrdot : joinElems es ≠ ['.'] :=
    joinElems_ne_dot es (fun e he => ⟨((isElem_iff e).mp (hes e he)).1,
      ((isElem_iff e).mp (hes e he)).2.2.1⟩)
  have hrhead : (joinElems es).head? ≠ some '/' :=
    joinElems_head? es (fun e he => ⟨((isElem_iff e).mp (hes e he)).1,
      ((isElem_iff e).mp (hes e he)).2.1⟩)
  have happ := cleanBuf_append_elems W es hW hne hes
  obtain ⟨m, elems, hel, hm, hshape⟩ := cleanBuf_shape W
  have hall := dots_and_elems m elems hel
  have htargne : cleanBuf (W ++ '/' :: joinElems es) ≠ [] := by
    rw [happ]
    simp [hr]
  have hclean2 : Clean (W ++ '/' :: joinElems es) = cleanBuf (W ++ '/' :: joinElems es) := by
    unfold Clean
    rw [if_neg (by simp), if_neg htargne]
  have hclean1 : Clean W = if cleanBuf W = [] then ['.'] else cleanBuf W := by
    unfold Clean
    rw [if_neg hW]
  unfold Rel
  simp only [hclean1, hclean2]
  by_cases hcs : List.replicate m ['.', '.'] ++ elems = []
  · -- the buffer of `W` is the root alone
    rw [hcs] at hshape
    by_cases hroot : W.head? = some '/'
    · have hB : cleanBuf W = ['/'] := by simpa [hroot, rootOf, joinElems] using hshape
      rw [hB] at happ
      simp only [hroot, decide_True, List.length_singleton, ne_eq, not_true_eq_false,
        and_false, Bool.true_eq_false, false_and, or_self, if_false] at happ
      rw [happ, hB]
      simp [relLoop, hr]
    · have hB : cleanBuf W = [] := by simpa [hroot, rootOf, joinElems] using hshape
      rw [hB] at happ
      simp only [hroot, decide_False, Bool.false_eq_true, List.length_nil, ne_eq,
        not_true_eq_false, and_false, or_self, if_false, List.nil_append] at happ
      rw [happ, hB]
      simp [relLoop, hrdot, hrhead]
  · -- the buffer of `W` ends in an element
    have hjne : joinElems (List.replicate m ['.', '.'] ++ elems) ≠ [] := fun h =>
      hcs ((joinElems_eq_nil _ (fun e he => (hall e he).1.1)).mp h)
    have hBne : cleanBuf W ≠ [] := by
      rw [hshape]
      simp [hjne]
    have hBlast : (cleanBuf W).getLast? ≠ some '/' := by
      rw [hshape]
      exact joinElems_getLast? _ _ hcs (fun e he => (hall e he).1)
    have hBdot : cleanBuf W ≠ ['.'] := by
      rw [hshape]
      by_cases hroot : W.head? = some '/'
      · simp [hroot, rootOf]
      · simpa [hroot, rootOf] using joinElems_ne_dot _ (fun e he => (hall e he).2)
    have hcond : (decide (W.head? = some '/') = true ∧ (cleanBuf W).length ≠ 1) ∨
        (decide (W.head? = some '/') = false ∧ (cleanBuf W).length ≠ 0) := by
      have hjl := List.length_pos.mpr hjne
      by_cases hroot : W.head? = some '/'
      · left
        refine ⟨by simp [hroot], ?_⟩
        have h1 : (rootOf (decide (W.head? = some '/'))).length = 1 := by simp [hroot, rootOf]
        rw [hshape, List.length_append, h1]
        omega
      · right
        refine ⟨by simp [hroot], ?_⟩
        rw [hshape, List.length_append]
        omega
    rw [if_pos hcond] at happ
    have happ2 : cleanBuf (W ++ '/' :: joinElems es) = cleanBuf W ++ '/' :: joinElems es := by
      rw [happ]; simp
    rw [happ2, if_neg hBne, if_neg hBdot]
    have hneq : cleanBuf W ++ '/' :: joinElems es ≠ cleanBuf W := by
      intro h
      have := congrArg List.length h
      simp at this
    have hhead : (cleanBuf W ++ '/' :: joinElems es).head? = (cleanBuf W).head? := by
      cases hB : cleanBuf W with
      | nil => exact absurd hB hBne
      | cons a B => rfl
    rw [if_neg hneq, hhead, relLoop_prefix _ _ _ hBne hBlast (Nat.le_refl _)]
    simp

end filepath

end CloudFileSync

namespace CloudFileSync

namespace filepath

/-! ## `Clean` is idempotent -/

theorem joinElems_append (a b : List (List Char)) (ha : a ≠ []) (hb : b ≠ []) :
    joinElems (a ++ b) = joinElems a ++ '/' :: joinElems b := by
  induction a with
  | nil => exact absurd rfl ha
  | cons x a ih =>
    cases a with
    | nil => simp [joinElems_cons x b hb, joinElems]
    | cons y a =>
      rw [List.cons_append, joinElems_cons x (y :: a ++ b) (by simp), ih (by simp),
        joinElems_cons x (y :: a) (by simp)]
      simp

/-- The buffer after `..` is appended to a buffer of `m` elements `..`. -/
theorem dotdot_append_shape (m : Nat) :
    (if 0 < (joinElems (List.replicate m ['.', '.'])).length then
        joinElems (List.replicate m ['.', '.']) ++ ['/']
      else joinElems (List.replicate m ['.', '.'])) ++ ['.', '.'] =
      joinElems (List.replicate (m + 1) ['.', '.']) := by
  rw [List.replicate_succ', joinElems_append_singleton]
  by_cases hm0 : m = 0
  · subst hm0
    simp [joinElems]
  · have hr : List.replicate m ['.', '.'] ≠ [] := by
      intro h
      apply hm0
      simpa using congrArg List.length h
    have hne : ∀ e ∈ List.replicate m ['.', '.'], e ≠ [] := by
      intro e he
      rw [(List.mem_replicate.mp he).2]
      simp
    have hj : joinElems (List.replicate m ['.', '.']) ≠ [] :=
      fun hj => hr ((joinElems_eq_nil _ hne).mp hj)
    rw [if_neg hr, if_pos (List.length_pos.mpr hj)]
    simp

/-- The loop of `Clean` on a relative path in clean form, `..` elements first: the path is
copied as it is. -/
theorem cleanLoop_dots (m j : Nat) (elems : List (List Char))
    (hel : ∀ e ∈ elems, isElem e = true) (fuel : Nat)
    (hf : (joinElems (List.replicate m ['.', '.'] ++ elems)).length ≤ fuel) :
    (cleanLoop false fuel (joinElems (List.replicate m ['.', '.'] ++ elems))
        (joinElems (List.replicate j ['.', '.']))
        (joinElems (List.replicate j ['.', '.'])).length).1 =
      joinElems (List.replicate (j + m) ['.', '.'] ++ elems) := by
  induction m generalizing j fuel with
  | zero =>
    simp only [List.replicate_zero, List.nil_append, Nat.add_zero] at hf ⊢
    by_cases he : elems = []
    · subst he
      simp [joinElems, cleanLoop_nil]
    · rw [cleanLoop_elems false elems he hel fuel _ _ hf]
      by_cases hj : j = 0
      · subst hj
        simp [joinElems]
      · have hr : List.replicate j ['.', '.'] ≠ [] := by
          intro h
          apply hj
          simpa using congrArg List.length h
        have hne : ∀ e ∈ List.replicate j ['.', '.'], e ≠ [] := by
          intro e he
          rw [(List.mem_replicate.mp he).2]
          simp
        have hjn : joinElems (List.replicate j ['.', '.']) ≠ [] :=
          fun h => hr ((joinElems_eq_nil _ hne).mp h)
        have hlen : (joinElems (List.replicate j ['.', '.'])).length ≠ 0 := by
          have := List.length_pos.mpr hjn
          omega
        rw [if_pos (Or.inr ⟨rfl, hlen⟩), joinElems_append _ _ hr he]
        simp
  | succ m ih =>
    have hj1 : j + (m + 1) = (j + 1) + m := by omega
    rw [hj1]
    rw [List.replicate_succ, List.cons_append] at hf ⊢
    have hcant : ¬ (joinElems (List.replicate j ['.', '.'])).length <
        (joinElems (List.replicate j ['.', '.'])).length := Nat.lt_irrefl _
    by_cases hrest : List.replicate m ['.', '.'] ++ elems = []
    · have hm0 : m = 0 := by
        have := (List.append_eq_nil.mp hrest).1
        simpa using congrArg List.length this
      have he0 : elems = [] := (List.append_eq_nil.mp hrest).2
      subst hm0
      subst he0
      simp only [List.replicate_zero, List.append_nil, joinElems] at hf ⊢
      cases fuel with
      | zero => simp at hf
      | succ f =>
        rw [cleanLoop_cons, if_neg (by decide), if_neg (by simp [atElemEnd]),
          if_pos (by simp [atElemEnd]), if_neg hcant, if_pos rfl]
        simp only [List.tail_cons, cleanLoop_nil]
        exact dotdot_append_shape j
    · rw [joinElems_cons _ _ hrest] at hf ⊢
      simp only [List.cons_append, List.nil_append, List.length_cons] at hf ⊢
      cases fuel with
      | zero => omega
      | succ f =>
        rw [cleanLoop_cons, if_neg (by decide), if_neg (by simp [atElemEnd]),
          if_pos (by simp [atElemEnd]), if_neg hcant, if_pos rfl]
        simp only [List.tail_cons]
        cases f with
        | zero => omega
        | succ f2 =>
          rw [cleanLoop_cons, if_pos rfl, dotdot_append_shape j]
          exact ih (j + 1) f2 (by omega)

/-- A path in clean form is its own buffer. -/
theorem cleanBuf_of_shape (rooted : Bool) (m : Nat) (elems : List (List Char))
    (hel : ∀ e ∈ elems, isElem e = true) (hm : rooted = true → m = 0) :
    cleanBuf (rootOf rooted ++ joinElems (List.replicate m ['.', '.'] ++ elems)) =
      rootOf rooted ++ joinElems (List.replicate m ['.', '.'] ++ elems) := by
  cases rooted with
  | true =>
    have hm0 := hm rfl
    subst hm0
    simp only [rootOf, if_true, List.replicate_zero, List.nil_append, List.singleton_append]
    unfold cleanBuf
    rw [if_pos (by simp)]
    simp only [List.tail_cons, List.length_cons]
    by_cases he : elems = []
    · subst he
      simp [joinElems, cleanLoop_nil]
    · rw [cleanLoop_elems true elems he hel _ _ _ (by omega)]
      simp
  | false =>
    simp only [rootOf, Bool.false_eq_true, if_false, List.nil_append]
    have hh := joinElems_head? _ (fun e he => (dots_and_elems m elems hel e he).1)
    unfold cleanBuf
    rw [if_neg hh]
    have := cleanLoop_dots m 0 elems hel
      (joinElems (List.replicate m ['.', '.'] ++ elems)).length (Nat.le_refl _)
    simpa [joinElems] using this

/-- `Clean(Clean(path)) = Clean(path)`. -/
theorem Clean_idem (path : List Char) : Clean (Clean path) = Clean path := by
  have hdot : Clean ['.'] = ['.'] := by decide
  by_cases hp : path = []
  · subst hp
    simpa [Clean] using hdot
  · by_cases hb : cleanBuf path = []
    · have : Clean path = ['.'] := by
        unfold Clean
        rw [if_neg hp, if_pos hb]
      rw [this, hdot]
    · have hc : Clean path = cleanBuf path := by
        unfold Clean
        rw [if_neg hp, if_neg hb]
      obtain ⟨m, elems, hel, hm, hshape⟩ := cleanBuf_shape path
      have hfix := cleanBuf_of_shape (decide (path.head? = some '/')) m elems hel
        (fun h => hm (by simpa using h))
      rw [← hshape] at hfix
      rw [hc]
      unfold Clean
      rw [if_neg hb, hfix, if_neg hb]

/-- `Rel` sees its second argument only through `Clean`. -/
theorem Rel_Clean (basepath targpath : List Char) :
    Rel basepath (Clean targpath) = Rel basepath targpath := by
  unfold Rel
  rw [Clean_idem]

end filepath

end CloudFileSync

namespace CloudFileSync

namespace filepath

/-- A clean relative path that does not begin with `..` is `.` or is made of elements that
are neither `.` nor `..`, joined by `/`. -/
theorem clean_rel_shape (r : List Char) (hclean : Clean r = r) (hrel : r.head? ≠ some '/')
    (hdd : strings.HasPrefix r ['.', '.'] = false) :
    r = ['.'] ∨ ∃ es : List (List Char), es ≠ [] ∧ (∀ e ∈ es, isElem e = true) ∧
      r = joinElems es := by
  have hne : r ≠ [] := by
    intro h
    rw [h] at hclean
    simp [Clean] at hclean
  unfold Clean at hclean
  rw [if_neg hne] at hclean
  by_cases hb : cleanBuf r = []
  · left
    rw [if_pos hb] at hclean
    exact hclean.symm
  · right
    rw [if_neg hb] at hclean
    obtain ⟨m, elems, hel, _, hshape⟩ := cleanBuf_shape r
    rw [hclean] at hshape
    simp only [hrel, decide_False, rootOf, Bool.false_eq_true, if_false,
      List.nil_append] at hshape
    cases m with
    | zero =>
      simp only [List.replicate_zero, List.nil_append] at hshape
      refine ⟨elems, ?_, hel, hshape⟩
      intro h
      rw [h] at hshape
      exact hne hshape
    | succ m =>
      exfalso
      rw [List.replicate_succ, List.cons_append] at hshape
      have : strings.HasPrefix r ['.', '.'] = true := by
        rw [hshape]
        cases hrest : List.replicate m ['.', '.'] ++ elems with
        | nil => simp [joinElems, strings.HasPrefix]
        | cons a l => simp [joinElems, strings.HasPrefix]
      rw [this] at hdd
      cases hdd

/-- `Rel(W, W/.)` is `.`. -/
theorem Rel_append_dot (W : List Char) (hW : W ≠ []) :
    Rel W (W ++ ['/', '.']) = some ['.'] := by
  have hbuf : cleanBuf (W ++ '/' :: ['.']) = cleanBuf W := by
    rw [cleanBuf_append W _ hW, cleanBuf_eq W]
    simp [cleanLoop, atElemEnd]
  have : Clean (W ++ ['/', '.']) = Clean W := by
    unfold Clean
    rw [if_neg (by simp), if_neg hW]
    have e : W ++ ['/', '.'] = W ++ '/' :: ['.'] := rfl
    rw [e, hbuf]
  unfold Rel
  simp [this]

/-- `Rel("", r)` is `r` for a clean relative path `r`. -/
theorem Rel_empty_base (r : List Char) (hclean : Clean r = r) (hrel : r.head? ≠ some '/') :
    Rel [] r = some r := by
  have hbase : Clean [] = ['.'] := by simp [Clean]
  unfold Rel
  simp only [hbase, hclean]
  by_cases hr : r = ['.']
  · simp [hr]
  · simp [hr, hrel, relLoop]

end filepath

/-! ## C1: a path below the watch root -/

/-- `Rel(W, Join(W, r))` is `r` for a clean relative path `r` that does not begin with
`..`. -/
theorem Rel_Join (W r : List Char) (hclean : filepath.Clean r = r)
    (hrel : r.head? ≠ some '/') (hdd : strings.HasPrefix r ['.', '.'] = false) :
    filepath.Rel W (filepath.Join [W, r]) = some r := by
  have hr : r ≠ [] := by
    intro h
    rw [h] at hclean
    simp [filepath.Clean] at hclean
  by_cases hW : W = []
  · subst hW
    have hj : filepath.Join [[], r] = filepath.Clean r := by
      simp [filepath.Join, hr, List.intercalate]
    rw [hj, filepath.Rel_Clean]
    exact filepath.Rel_empty_base r hclean hrel
  · have hj : filepath.Join [W, r] = filepath.Clean (W ++ '/' :: r) := by
      simp [filepath.Join, hW, List.intercalate]
    rw [hj, filepath.Rel_Clean]
    rcases filepath.clean_rel_shape r hclean hrel hdd with h | ⟨es, hne, hes, h⟩
    · rw [h]
      exact filepath.Rel_append_dot W hW
    · rw [h]
      exact filepath.Rel_append_elems W es hW hne hes

theorem targetDir_normalised (T : List Char) (hT : T ≠ [])
    (hTs : strings.HasSuffix T ['/'] = false) :
    (if strings.TrimSuffix T ['/'] ≠ [] ∧
        strings.HasSuffix (strings.TrimSuffix T ['/']) ['/'] = false then
      strings.TrimSuffix T ['/'] ++ ['/']
    else strings.TrimSuffix T ['/']) = T ++ ['/'] ∧
    (if strings.TrimSuffix (T ++ ['/']) ['/'] ≠ [] ∧
        strings.HasSuffix (strings.TrimSuffix (T ++ ['/']) ['/']) ['/'] = false then
      strings.TrimSuffix (T ++ ['/']) ['/'] ++ ['/']
    else strings.TrimSuffix (T ++ ['/']) ['/']) = T ++ ['/'] := by
  have h1 : strings.TrimSuffix T ['/'] = T := by
    unfold strings.TrimSuffix
    rw [hTs]
    simp
  have h2 : strings.TrimSuffix (T ++ ['/']) ['/'] = T := by
    unfold strings.TrimSuffix strings.HasSuffix
    simp
  rw [h1, h2, if_pos ⟨hT, hTs⟩]
  exact ⟨rfl, rfl⟩

/-- With a relative path computed by `Rel`, `getRemotePath` writes it after the target root
and one separator, for a target root given with or without its trailing separator. -/
theorem getRemotePath_of_Rel (localPath watchDir T rel : List Char)
    (hRel : filepath.Rel watchDir localPath = some rel) (hT : T ≠ [])
    (hTs : strings.HasSuffix T ['/'] = false) :
    getRemotePath localPath watchDir T = T ++ '/' :: rel ∧
      getRemotePath localPath watchDir (T ++ ['/']) = T ++ '/' :: rel := by
  obtain ⟨h1, h2⟩ := targetDir_normalised T hT hTs
  unfold getRemotePath
  simp only [hRel]
  rw [h1, h2]
  simp

/-- C1: for a clean relative path `r` that does not begin with `..`, a target root `T` that
is not empty and does not end in `/`, and every watch root `W`, `getRemotePath` maps the
file `W/r` to `T/r`, for the target root written `T` or `T/`.  The file `W/r` is taken as
the text `W`, `/`, `r` for a non-empty `W`, as `r` itself for the empty `W`, and as
`filepath.Join(W, r)`.  The path `/data/sub/a.txt` under `/data` goes to
`remote/sub/a.txt` for the target root `remote/`. -/
theorem getRemotePath_under_watch_root (W r T : List Char)
    (hclean : filepath.Clean r = r) (hrel : r.head? ≠ some '/')
    (hdd : strings.HasPrefix r ['.', '.'] = false) (hT : T ≠ [])
    (hTs : strings.HasSuffix T ['/'] = false) :
    (W ≠ [] →
      getRemotePath (W ++ '/' :: r) W T = T ++ '/' :: r ∧
      getRemotePath (W ++ '/' :: r) W (T ++ ['/']) = T ++ '/' :: r) ∧
    (getRemotePath r [] T = T ++ '/' :: r ∧
      getRemotePath r [] (T ++ ['/']) = T ++ '/' :: r) ∧
    (getRemotePath (filepath.Join [W, r]) W T = T ++ '/' :: r ∧
      getRemotePath (filepath.Join [W, r]) W (T ++ ['/']) = T ++ '/' :: r) ∧
    getRemotePath "/data/sub/a.txt".toList "/data".toList "remote/".toList =
      "remote/sub/a.txt".toList := by
  refine ⟨?_, ?_, ?_, by decide⟩
  · intro hW
    apply getRemotePath_of_Rel _ _ _ _ _ hT hTs
    rcases filepath.clean_rel_shape r hclean hrel hdd with h | ⟨es, hne, hes, h⟩
    · rw [h]
      exact filepath.Rel_append_dot W hW
    · rw [h]
      exact filepath.Rel_append_elems W es hW hne hes
  · exact getRemotePath_of_Rel _ _ _ _ (filepath.Rel_empty_base r hclean hrel) hT hTs
  · exact getRemotePath_of_Rel _ _ _ _ (Rel_Join W r hclean hrel hdd) hT hTs

/-- C1 at the watch root `/data`, the relative path `sub/a.txt` and the target root
`remote`. -/
theorem getRemotePath_under_watch_root_witness :
    filepath.Clean "sub/a.txt".toList = "sub/a.txt".toList ∧
    "sub/a.txt".toList.head? ≠ some '/' ∧
    strings.HasPrefix "sub/a.txt".toList ['.', '.'] = false ∧
    "remote".toList ≠ [] ∧
    strings.HasSuffix "remote".toList ['/'] = false ∧
    getRemotePath ("/data".toList ++ '/' :: "sub/a.txt".toList) "/data".toList
      "remote".toList = "remote".toList ++ '/' :: "sub/a.txt".toList :=
  ⟨by decide, by decide, by decide, by decide, by decide,
   ((getRemotePath_under_watch_root "/data".toList "sub/a.txt".toList "remote".toList
      (by decide) (by decide) (by decide) (by decide) (by decide)).1 (by decide)).1⟩

end CloudFileSync

namespace CloudFileSync

namespace filepath

/-- `Clean` keeps a rooted path rooted and a relative path relative. -/
theorem Clean_head? (p : List Char) : (Clean p).head? = some '/' ↔ p.head? = some '/' := by
  by_cases hp : p = []
  · subst hp
    simp [Clean]
  · obtain ⟨m, elems, hel, hm, hshape⟩ := cleanBuf_shape p
    unfold Clean
    rw [if_neg hp]
    by_cases hroot : p.head? = some '/'
    · have hb : cleanBuf p = '/' :: joinElems (List.replicate m ['.', '.'] ++ elems) := by
        simpa [hroot, rootOf] using hshape
      rw [hb]
      simp [hroot]
    · have hb : cleanBuf p = joinElems (List.replicate m ['.', '.'] ++ elems) := by
        simpa [hroot, rootOf] using hshape
      have hh := joinElems_head? _ (fun e he => (dots_and_elems m elems hel e he).1)
      rw [← hb] at hh
      split
      · simp [hroot]
      · simp [hroot, hh]

/-- `Rel` fails when one of the two paths is rooted and the other is not. -/
theorem Rel_mixed (basepath targpath : List Char)
    (h : decide (targpath.head? = some '/') ≠ decide (basepath.head? = some '/')) :
    Rel basepath targpath = none := by
  have hb := Clean_head? basepath
  have ht := Clean_head? targpath
  have hne : Clean targpath ≠ Clean basepath := by
    intro heq
    rw [heq] at ht
    apply h
    simp only [decide_eq_decide]
    exact ht.symm.trans hb
  have hb2 : (if Clean basepath = ['.'] then [] else Clean basepath).head? = some '/' ↔
      basepath.head? = some '/' := by
    split
    · next hdot =>
      rw [hdot] at hb
      simpa using hb
    · exact hb
  unfold Rel
  simp only [hne, if_false]
  rw [if_pos]
  simp only [ne_eq, decide_eq_decide]
  intro hiff
  apply h
  simp only [decide_eq_decide]
  exact ht.symm.trans (hiff.symm.trans hb2)

/-! ## `Rel` on two rooted paths -/

theorem joinElems_cons_split (e : List Char) (es : List (List Char)) (he : '/' ∉ e) :
    (joinElems (e :: es)).takeWhile (· != '/') = e ∧
      ((joinElems (e :: es)).dropWhile (· != '/')).drop 1 = joinElems es := by
  cases es with
  | nil =>
    simp only [joinElems]
    rw [takeWhile_of_not_mem e he, dropWhile_of_not_mem e he]
    exact ⟨rfl, rfl⟩
  | cons e2 es =>
    simp only [joinElems]
    have h1 := takeWhile_append_sep e (joinElems (e2 :: es))
    have h2 := dropWhile_append_sep e (joinElems (e2 :: es))
    rw [h1, h2, takeWhile_of_not_mem e he, dropWhile_of_not_mem e he]
    exact ⟨rfl, rfl⟩

/-- The loop of `Rel` on a base made of clean elements never stops at an element `..`. -/
theorem relLoop_elems_ne_dotdot (fuel : Nat) (es : List (List Char)) (ts : List Char)
    (h : ∀ e ∈ es, isElem e = true) :
    (relLoop fuel (joinElems es) ts).2.1 ≠ ['.', '.'] := by
  induction fuel generalizing es ts with
  | zero => simp [relLoop]
  | succ n ih =>
    rw [relLoop]
    split
    · cases es with
      | nil => simp [joinElems] at *
      | cons e es2 =>
        have he := (isElem_iff e).mp (h e (List.mem_cons_self _ _))
        obtain ⟨h1, h2⟩ := joinElems_cons_split e es2 he.2.1
        simp only [h1, h2]
        split
        · exact he.2.2.2
        · exact ih es2 _ (fun x hx => h x (List.mem_cons_of_mem _ hx))
    · simp

/-- `Rel` does not fail when both paths are rooted. -/
theorem Rel_rooted (basepath targpath : List Char) (hb : basepath.head? = some '/')
    (ht : targpath.head? = some '/') : ∃ r, Rel basepath targpath = some r := by
  have hcb := (Clean_head? basepath).mpr hb
  have hct := (Clean_head? targpath).mpr ht
  obtain ⟨m, elems, hel, hm, hshape⟩ := cleanBuf_shape basepath
  have hm0 := hm hb
  subst hm0
  simp only [hb, decide_True, rootOf, if_true, List.replicate_zero, List.nil_append,
    List.singleton_append] at hshape
  have hne : basepath ≠ [] := by
    intro h
    rw [h] at hb
    cases hb
  have hclean : Clean basepath = '/' :: joinElems elems := by
    unfold Clean
    rw [if_neg hne, hshape]
    simp
  obtain ⟨t, htt⟩ : ∃ t, Clean targpath = '/' :: t := by
    cases hc : Clean targpath with
    | nil => rw [hc] at hct; cases hct
    | cons c t =>
      rw [hc] at hct
      simp only [List.head?_cons, Option.some.injEq] at hct
      exact ⟨t, by rw [hct]⟩
  unfold Rel
  simp only [hclean, htt]
  split
  · exact ⟨_, rfl⟩
  · have hnd : ('/' :: joinElems elems) ≠ ['.'] := by simp
    simp only [hnd, if_false, List.head?_cons, decide_True, ne_eq, not_true_eq_false]
    have hloop : relLoop ('/' :: joinElems elems).length ('/' :: joinElems elems) ('/' :: t) =
        relLoop (joinElems elems).length (joinElems elems) t := by
      simp [relLoop]
    rw [hloop]
    have hdd := relLoop_elems_ne_dotdot (joinElems elems).length elems t hel
    rcases hr : relLoop (joinElems elems).length (joinElems elems) t with ⟨bs, be, ts⟩
    rw [hr] at hdd
    simp only at hdd
    simp only [hdd, if_false]
    split
    · exact ⟨_, rfl⟩
    · exact ⟨_, rfl⟩

end filepath

/-! ## C2: a path outside the watch root -/

/-- C2, counterexample: for the watch root `/data`, the local path `/other/a.txt` and the
target root `remote`, the remote path is `remote/../other/a.txt`, not the target root
joined with the base name, `remote/a.txt`. -/
theorem getRemotePath_outside_watch_root :
    getRemotePath "/other/a.txt".toList "/data".toList "remote".toList =
        "remote/../other/a.txt".toList ∧
      filepath.Join ["remote".toList, filepath.Base "/other/a.txt".toList] =
        "remote/a.txt".toList := by
  decide

/-- C2, amended: `getRemotePath` returns the target root joined with the base name of the
local path when `Rel(watchDir, localPath)` fails, which it does whenever one of the two
paths is rooted and the other is not; `Rel` does not fail when both paths are rooted, and
whenever it succeeds with a relative path, for a target root that is not empty and does
not end in `/`, the result is the target root, one separator and that relative path; so
it is for the watch root `/data` and the local path `/other/a.txt`, where the relative
path is `../other/a.txt` and the result is the target root followed by
`/../other/a.txt`. -/
theorem getRemotePath_fallback (localPath watchDir T : List Char) :
    (filepath.Rel watchDir localPath = none →
      getRemotePath localPath watchDir T = filepath.Join [T, filepath.Base localPath]) ∧
    (decide (localPath.head? = some '/') ≠ decide (watchDir.head? = some '/') →
      getRemotePath localPath watchDir T = filepath.Join [T, filepath.Base localPath]) ∧
    (∀ rel, filepath.Rel watchDir localPath = some rel → T ≠ [] →
      strings.HasSuffix T ['/'] = false →
      getRemotePath localPath watchDir T = T ++ '/' :: rel) ∧
    (localPath.head? = some '/' → watchDir.head? = some '/' →
      ∃ rel, filepath.Rel watchDir localPath = some rel ∧
        (T ≠ [] → strings.HasSuffix T ['/'] = false →
          getRemotePath localPath watchDir T = T ++ '/' :: rel)) ∧
    (T ≠ [] → strings.HasSuffix T ['/'] = false →
      filepath.Rel "/data".toList "/other/a.txt".toList = some "../other/a.txt".toList ∧
      getRemotePath "/other/a.txt".toList "/data".toList T =
        T ++ "/../other/a.txt".toList) := by
  have h1 : filepath.Rel watchDir localPath = none →
      getRemotePath localPath watchDir T = filepath.Join [T, filepath.Base localPath] := by
    intro h
    unfold getRemotePath
    rw [h]
  exact ⟨h1, fun h => h1 (filepath.Rel_mixed watchDir localPath h),
    fun rel hrel hT hTs => (getRemotePath_of_Rel localPath watchDir T rel hrel hT hTs).1,
    fun hl hw => by
      obtain ⟨rel, hrel⟩ := filepath.Rel_rooted watchDir localPath hw hl
      exact ⟨rel, hrel, fun hT hTs =>
        (getRemotePath_of_Rel localPath watchDir T rel hrel hT hTs).1⟩,
    fun hT hTs => ⟨by decide,
      (getRemotePath_of_Rel "/other/a.txt".toList "/data".toList T "../other/a.txt".toList
        (by decide) hT hTs).1⟩⟩

/-- C2 at a rooted local path: with a relative watch root the base name is joined to the
target root, with the rooted watch root `/data` the relative path is kept. -/
theorem getRemotePath_fallback_witness :
    (decide ("/other/a.txt".toList.head? = some '/') ≠
        decide ("data".toList.head? = some '/') ∧
      getRemotePath "/other/a.txt".toList "data".toList "remote".toList =
        filepath.Join ["remote".toList, filepath.Base "/other/a.txt".toList]) ∧
    ("remote".toList ≠ [] ∧ strings.HasSuffix "remote".toList ['/'] = false ∧
      filepath.Rel "/data".toList "/other/a.txt".toList = some "../other/a.txt".toList ∧
      getRemotePath "/other/a.txt".toList "/data".toList "remote".toList =
        "remote".toList ++ "/../other/a.txt".toList) :=
  ⟨⟨by decide,
    (getRemotePath_fallback "/other/a.txt".toList "data".toList "remote".toList).2.1
      (by decide)⟩,
   by decide, by decide,
   (getRemotePath_fallback "/other/a.txt".toList "/data".toList "remote".toList).2.2.2.2
     (by decide) (by decide)⟩

end CloudFileSync

namespace CloudFileSync

/-! ## Dispatch: upload or delete -/

/-- Whatever the five `Has` tests answer, the text of `Op.String` does not contain
`Remove`: the operation names are written in capitals. -/
theorem opPieces_not_contains_Remove :
    ∀ a b c d e : Bool,
      strings.Contains
        (if (fsnotify.opPieces a b c d e).length = 0 then "[no events]".toList
         else (fsnotify.opPieces a b c d e).drop 1) "Remove".toList = false := by
  decide

/-- The test `strings.Contains(opStr, "Remove")` of `uploadFile` fails for every
operation value. -/
theorem OpString_not_contains_Remove (op : Nat) :
    strings.Contains (fsnotify.OpString op) "Remove".toList = false := by
  unfold fsnotify.OpString
  exact opPieces_not_contains_Remove _ _ _ _ _

/-- For every operation value `uploadFile` is one call of `UploadFile`. -/
theorem uploadFile_eq_UploadFile {σ : Type} (pvd : Provider σ) (localPath remotePath : List Char)
    (op : Nat) (s : σ) :
    uploadFile pvd localPath remotePath op s = pvd.UploadFile localPath remotePath s := by
  simp only [uploadFile, OpString_not_contains_Remove, Bool.false_eq_true, if_false]

/-- C3, at the failing input: for the operation `Remove`, `uploadFile` on a recording
provider records one `UploadFile(localPath, remotePath)` and no `DeleteFile`, and returns
the answer to `UploadFile`. -/
theorem uploadFile_Remove_uploads (name localPath remotePath : List Char)
    (respond : Call → GoError) :
    uploadFile (recorder name respond) localPath remotePath fsnotify.Remove [] =
      (respond (.UploadFile localPath remotePath), [.UploadFile localPath remotePath]) := by
  rw [uploadFile_eq_UploadFile]
  rfl

/-! ## Dispatch: the target root of a loaded provider -/

/-- C4, at the failing input: with a disabled provider before an enabled one, the only
loaded provider was created from the entry with target `B`, and the goroutine started for
it takes the target `A` of the disabled entry. -/
theorem targetDir_of_loaded_provider_mismatch :
    (loadProviders cfgDisabledFirst.Providers).map (fun e => (e.1.Target, e.2)) =
        [("B".toList, ProviderHandle.baidu "t2".toList)] ∧
      runCLIModeProviders cfgDisabledFirst = [ProviderHandle.baidu "t2".toList] ∧
      targetDirAt cfgDisabledFirst 0 = some "A".toList := by
  decide

end CloudFileSync

namespace CloudFileSync

/-! ## Dispatch isolation -/

theorem loadProviders_length_le (ps : List ProviderConfig) :
    (loadProviders ps).length ≤ ps.length := by
  induction ps with
  | nil => simp [loadProviders]
  | cons p rest ih =>
    unfold loadProviders
    split
    · simp; omega
    · split <;> simp <;> omega

theorem dispatchFrom_length {σ : Type} (cfg : Config) (event : FileEvent) (k : Nat)
    (providers : List (Provider σ × σ)) :
    (dispatchFrom cfg event k providers).length = providers.length := by
  induction providers generalizing k with
  | nil => rfl
  | cons q rest ih => simp [dispatchFrom, ih]

theorem dispatchFrom_getElem? {σ : Type} (cfg : Config) (event : FileEvent) (k j : Nat)
    (providers : List (Provider σ × σ)) :
    (dispatchFrom cfg event k providers)[j]? =
      (providers[j]?).map (fun q => dispatchOne cfg event (k + j) q.1 q.2) := by
  induction providers generalizing k j with
  | nil => simp [dispatchFrom]
  | cons q rest ih =>
    cases j with
    | zero => simp [dispatchFrom]
    | succ j =>
      simp only [dispatchFrom, List.getElem?_cons_succ, ih]
      have : k + 1 + j = k + (j + 1) := by omega
      rw [this]

/-- C5: the dispatch of one event to `M` loaded providers yields `M` outcomes; the outcome
of provider `j` is the result of one `UploadFile` or one `DeleteFile` on that provider, with
the event's path and the remote path computed from `cfg.Providers[j].Target`; and replacing
provider `i` by any other provider (one that fails, say) changes no other outcome. -/
theorem dispatch_isolation {σ : Type} (cfg : Config) (event : FileEvent)
    (providers : List (Provider σ × σ)) (hM : providers.length ≤ cfg.Providers.length) :
    (dispatch cfg event providers).length = providers.length ∧
    (∀ j pvd s, providers[j]? = some (pvd, s) →
      ∃ targetDir, targetDirAt cfg j = some targetDir ∧
        (dispatch cfg event providers)[j]? =
          some (some (uploadFile pvd event.Path
            (getRemotePath event.Path cfg.WatchDir targetDir) event.Op s)) ∧
        (uploadFile pvd event.Path (getRemotePath event.Path cfg.WatchDir targetDir)
            event.Op s =
            pvd.UploadFile event.Path (getRemotePath event.Path cfg.WatchDir targetDir) s ∨
          uploadFile pvd event.Path (getRemotePath event.Path cfg.WatchDir targetDir)
            event.Op s =
            pvd.DeleteFile (getRemotePath event.Path cfg.WatchDir targetDir) s)) ∧
    (∀ i j q, i ≠ j →
      (dispatch cfg event (providers.set i q))[j]? = (dispatch cfg event providers)[j]?) := by
  refine ⟨dispatchFrom_length cfg event 0 providers, ?_, ?_⟩
  · intro j pvd s hj
    have hlt : j < providers.length := by
      rcases Nat.lt_or_ge j providers.length with h | h
      · exact h
      · rw [List.getElem?_eq_none h] at hj; cases hj
    have hc : j < cfg.Providers.length := by omega
    refine ⟨(cfg.Providers[j]).Target, ?_, ?_, ?_⟩
    · simp [targetDirAt, List.getElem?_eq_getElem hc]
    · unfold dispatch
      rw [dispatchFrom_getElem?, hj]
      simp [dispatchOne, targetDirAt, List.getElem?_eq_getElem hc]
    · exact Or.inl (uploadFile_eq_UploadFile _ _ _ _ _)
  · intro i j q hij
    unfold dispatch
    rw [dispatchFrom_getElem?, dispatchFrom_getElem?, List.getElem?_set_ne hij]

/-- C5 at a configuration with two providers, the first one failing. -/
theorem dispatch_isolation_witness :
    ([(recorder "a".toList (fun _ => some "down".toList), ([] : List Call)),
      (recorder "b".toList (fun _ => none), [])] : List (Provider (List Call) × List Call)).length
        ≤ cfgDisabledFirst.Providers.length ∧
    (dispatch cfgDisabledFirst ⟨"/data/x".toList, fsnotify.Write, 0⟩
      [(recorder "a".toList (fun _ => some "down".toList), ([] : List Call)),
       (recorder "b".toList (fun _ => none), [])]).length = 2 :=
  ⟨by decide,
   (dispatch_isolation cfgDisabledFirst ⟨"/data/x".toList, fsnotify.Write, 0⟩
      [(recorder "a".toList (fun _ => some "down".toList), ([] : List Call)),
       (recorder "b".toList (fun _ => none), [])] (by decide)).1⟩

end CloudFileSync

namespace CloudFileSync

namespace watcher

/-! ## The watcher: basic facts -/

theorem updateTimer_length (f : Timer → Timer) (id : Nat) (ts : List Timer) :
    (updateTimer f id ts).length = ts.length := by
  induction ts generalizing id with
  | nil => cases id <;> rfl
  | cons t ts ih => cases id <;> simp [updateTimer, ih]

theorem updateTimer_getElem? (f : Timer → Timer) (id j : Nat) (ts : List Timer) :
    (updateTimer f id ts)[j]? = if j = id then (ts[j]?).map f else ts[j]? := by
  induction ts generalizing id j with
  | nil => cases id <;> simp [updateTimer]
  | cons t ts ih =>
    cases id with
    | zero => cases j <;> simp [updateTimer]
    | succ id =>
      cases j with
      | zero => simp [updateTimer]
      | succ j => simp [updateTimer, ih]

theorem timersAfterCancel_length (w : Watcher) (name : List Char) :
    (timersAfterCancel w name).length = w.timers.length := by
  unfold timersAfterCancel
  split <;> simp [updateTimer_length]

theorem handleEvent_eligible (w : Watcher) (event : fsnotify.Event) (now : Nat)
    (isDir addOk : Bool) (h : Eligible event) :
    (handleEvent w event now isDir addOk).timers =
        timersAfterCancel w event.Name ++ [newTimer w event now] ∧
      (handleEvent w event now isDir addOk).timerMap =
        mapStore w.timerMap event.Name w.timers.length ∧
      (handleEvent w event now isDir addOk).eventChan = w.eventChan ∧
      (handleEvent w event now isDir addOk).delay = w.delay ∧
      (handleEvent w event now isDir addOk).closed = w.closed := by
  obtain ⟨h1, h2⟩ := h
  unfold handleEvent timersAfterCancel fsAdd newTimer
  simp only [h1, h2, and_false, if_false]
  split <;> split <;> split <;> simp_all [updateTimer_length]

theorem handleEvent_ignored (w : Watcher) (event : fsnotify.Event) (now : Nat)
    (isDir addOk : Bool) (h : ¬ Eligible event) :
    handleEvent w event now isDir addOk = w := by
  unfold Eligible at h
  unfold handleEvent
  by_cases h1 : (filepath.Base event.Name).head? = some '.'
  · have : 0 < (filepath.Base event.Name).length := by
      cases hb : filepath.Base event.Name with
      | nil => rw [hb] at h1; simp at h1
      | cons c t => simp
    simp [h1, this]
  · have h2 : event.Op &&& (fsnotify.Create ||| fsnotify.Write ||| fsnotify.Remove |||
        fsnotify.Rename) = 0 := by
      by_contra hc
      exact h ⟨h1, hc⟩
    simp [h1, h2]

end watcher

end CloudFileSync

namespace CloudFileSync

namespace watcher

/-! ## The watcher: how a step changes timers and channel -/

theorem StatusLe_refl (s : TimerStatus) : StatusLe s s := by
  cases s <;> simp [StatusLe]

theorem StatusLe_trans {a b c : TimerStatus} (h1 : StatusLe a b) (h2 : StatusLe b c) :
    StatusLe a c := by
  cases a <;> cases b <;> cases c <;> simp_all [StatusLe]

theorem SameBody_refl (t : Timer) : SameBody t t := ⟨rfl, rfl, rfl⟩

theorem SameBody_trans {a b c : Timer} (h1 : SameBody a b) (h2 : SameBody b c) :
    SameBody a c :=
  ⟨h1.1.trans h2.1, h1.2.1.trans h2.2.1, h1.2.2.trans h2.2.2⟩

theorem Evolves_refl (ts : List Timer) : Evolves ts ts := by
  unfold Evolves
  exact fun _ t h => ⟨t, h, SameBody_refl t, StatusLe_refl _⟩

theorem Evolves_trans {a b c : List Timer} (h1 : Evolves a b) (h2 : Evolves b c) :
    Evolves a c := by
  unfold Evolves
  intro i t h
  obtain ⟨t2, h2a, hb, hs⟩ := h1 i t h
  obtain ⟨t3, h3a, hb3, hs3⟩ := h2 i t2 h2a
  exact ⟨t3, h3a, SameBody_trans hb3 hb, StatusLe_trans hs hs3⟩

theorem Evolves_append (ts extra : List Timer) : Evolves ts (ts ++ extra) := by
  unfold Evolves
  intro i t h
  have hlt : i < ts.length := by
    rcases Nat.lt_or_ge i ts.length with h1 | h1
    · exact h1
    · rw [List.getElem?_eq_none h1] at h; cases h
  exact ⟨t, by rw [List.getElem?_append_left hlt]; exact h, SameBody_refl t, StatusLe_refl _⟩

/-- Changing the status of one timer along `StatusLe` is an evolution. -/
theorem Evolves_updateTimer (f : Timer → Timer) (id : Nat) (ts : List Timer)
    (hf : ∀ t, SameBody (f t) t ∧ StatusLe t.status (f t).status) :
    Evolves ts (updateTimer f id ts) := by
  unfold Evolves
  intro i t h
  rw [updateTimer_getElem?]
  by_cases hi : i = id
  · simp only [hi, if_true]
    rw [← hi, h]
    exact ⟨f t, rfl, (hf t).1, (hf t).2⟩
  · simp only [hi, if_false]
    exact ⟨t, h, SameBody_refl t, StatusLe_refl _⟩

theorem stopTimer_spec (t : Timer) :
    SameBody (stopTimer t) t ∧ StatusLe t.status (stopTimer t).status := by
  unfold stopTimer
  split
  · next h => exact ⟨⟨rfl, rfl, rfl⟩, by rw [h]; trivial⟩
  · exact ⟨SameBody_refl t, StatusLe_refl _⟩

theorem foldl_stopEntry (l : List (List Char × Nat)) (w : Watcher) :
    (l.foldl stopEntry w).eventChan = w.eventChan ∧
      (l.foldl stopEntry w).closed = w.closed ∧
      (l.foldl stopEntry w).delay = w.delay ∧
      (l.foldl stopEntry w).timers.length = w.timers.length ∧
      Evolves w.timers (l.foldl stopEntry w).timers := by
  induction l generalizing w with
  | nil => exact ⟨rfl, rfl, rfl, rfl, Evolves_refl _⟩
  | cons e l ih =>
    obtain ⟨h1, h2, h3, h4, h5⟩ := ih (stopEntry w e)
    refine ⟨h1, h2, h3, ?_, ?_⟩
    · rw [List.foldl_cons, h4]; simp [stopEntry, updateTimer_length]
    · exact Evolves_trans (Evolves_updateTimer stopTimer e.2 w.timers stopTimer_spec) h5

theorem timersAfterCancel_evolves (w : Watcher) (name : List Char) :
    Evolves w.timers (timersAfterCancel w name) := by
  unfold timersAfterCancel
  split
  · exact Evolves_updateTimer stopTimer _ _ stopTimer_spec
  · exact Evolves_refl _

/-- A step keeps every timer at its place and moves no status backwards. -/
theorem step_evolves (w : Watcher) (s : Step) : Evolves w.timers (step w s).timers := by
  cases s with
  | handle event now isDir addOk =>
    by_cases h : Eligible event
    · simp only [step]
      rw [(handleEvent_eligible w event now isDir addOk h).1]
      exact Evolves_trans (timersAfterCancel_evolves w event.Name) (Evolves_append _ _)
    · simp only [step, handleEvent_ignored w event now isDir addOk h]
      exact Evolves_refl _
  | expire id now =>
    simp only [step, expire]
    split
    · exact Evolves_refl _
    · next t ht =>
      split
      · next hc =>
        unfold Evolves
        intro i t0 h0
        simp only [updateTimer_getElem?]
        by_cases hi : i = id
        · subst hi
          rw [ht] at h0
          cases h0
          simp only [if_true, ht, Option.map_some']
          exact ⟨_, rfl, ⟨rfl, rfl, rfl⟩, by rw [hc.1]; trivial⟩
        · simp only [hi, if_false]
          exact ⟨t0, h0, SameBody_refl _, StatusLe_refl _⟩
      · exact Evolves_refl _
  | complete id =>
    simp only [step, complete]
    split
    · exact Evolves_refl _
    · next t ht =>
      split
      · next hc =>
        unfold Evolves
        intro i t0 h0
        simp only [updateTimer_getElem?]
        by_cases hi : i = id
        · subst hi
          rw [ht] at h0
          cases h0
          simp only [if_true, ht, Option.map_some']
          exact ⟨_, rfl, ⟨rfl, rfl, rfl⟩, by rw [hc]; right; rfl⟩
        · simp only [hi, if_false]
          exact ⟨t0, h0, SameBody_refl _, StatusLe_refl _⟩
      · exact Evolves_refl _
  | stop =>
    simp only [step, Stop]
    exact (foldl_stopEntry w.timerMap { w with closed := true }).2.2.2.2

theorem run_evolves (w : Watcher) (steps : List Step) : Evolves w.timers (run w steps).timers := by
  induction steps generalizing w with
  | nil => exact Evolves_refl _
  | cons s steps ih => exact Evolves_trans (step_evolves w s) (ih (step w s))

/-- What a step sends on the channel: nothing, or the event of a timer that was running. -/
theorem step_eventChan (w : Watcher) (s : Step) :
    (step w s).eventChan = w.eventChan ∨
      ∃ id t, s = .complete id ∧ w.timers[id]? = some t ∧ t.status = .running ∧
        (step w s).eventChan = w.eventChan ++ [t.fileEvent] ∧
        (step w s).timers[id]? = some { t with status := .finished } := by
  cases s with
  | handle event now isDir addOk =>
    left
    by_cases h : Eligible event
    · exact (handleEvent_eligible w event now isDir addOk h).2.2.1
    · simp only [step, handleEvent_ignored w event now isDir addOk h]
  | expire id now =>
    left
    simp only [step, expire]
    split
    · rfl
    · split <;> rfl
  | complete id =>
    simp only [step, complete]
    split
    · left; rfl
    · next t ht =>
      split
      · next hc =>
        right
        refine ⟨id, t, rfl, ht, hc, rfl, ?_⟩
        simp only [updateTimer_getElem?, if_true, ht, Option.map_some']
      · left; rfl
  | stop =>
    left
    simp only [step, Stop]
    exact (foldl_stopEntry w.timerMap { w with closed := true }).1

end watcher

end CloudFileSync

namespace CloudFileSync

namespace watcher

theorem step_timers_length (w : Watcher) (s : Step) :
    (step w s).timers.length = w.timers.length ∨
      ∃ event now isDir addOk, s = .handle event now isDir addOk ∧ Eligible event ∧
        (step w s).timers = timersAfterCancel w event.Name ++ [newTimer w event now] := by
  cases s with
  | handle event now isDir addOk =>
    by_cases h : Eligible event
    · right
      exact ⟨event, now, isDir, addOk, rfl, h, (handleEvent_eligible w event now isDir addOk h).1⟩
    · left
      simp only [step, handleEvent_ignored w event now isDir addOk h]
  | expire id now =>
    left
    simp only [step, expire]
    split
    · rfl
    · split
      · simp [updateTimer_length]
      · rfl
  | complete id =>
    left
    simp only [step, complete]
    split
    · rfl
    · split
      · simp [updateTimer_length]
      · rfl
  | stop =>
    left
    simp only [step, Stop]
    exact (foldl_stopEntry w.timerMap { w with closed := true }).2.2.2.1

/-- A timer found after a step was there before, up to its status, or is the timer the
step made for an eligible notification. -/
theorem step_timers_backward (w : Watcher) (s : Step) (i : Nat) (t2 : Timer)
    (h : (step w s).timers[i]? = some t2) :
    (∃ t, w.timers[i]? = some t ∧ SameBody t2 t ∧ StatusLe t.status t2.status) ∨
      (i = w.timers.length ∧ ∃ event now isDir addOk, s = .handle event now isDir addOk ∧
        Eligible event ∧ t2 = newTimer w event now) := by
  rcases Nat.lt_or_ge i w.timers.length with hlt | hge
  · left
    obtain ⟨t3, h3, hb, hs⟩ := step_evolves w s i (w.timers[i]) (List.getElem?_eq_getElem hlt)
    rw [h] at h3
    cases h3
    exact ⟨_, List.getElem?_eq_getElem hlt, hb, hs⟩
  · right
    rcases step_timers_length w s with hl | ⟨event, now, isDir, addOk, hs, he, ht⟩
    · rw [List.getElem?_eq_none (by omega)] at h
      cases h
    · have hlen := timersAfterCancel_length w event.Name
      rw [ht] at h
      have hi : i = w.timers.length := by
        rcases Nat.lt_or_ge w.timers.length i with h1 | h1
        · rw [List.getElem?_eq_none (by simp; omega)] at h
          cases h
        · omega
      subst hi
      rw [List.getElem?_append_right (by omega)] at h
      simp [hlen] at h
      exact ⟨rfl, event, now, isDir, addOk, hs, he, h.symm⟩

/-- A property of events that holds for the event of every eligible notification handled
holds for every timer and every event sent. -/
theorem run_events_sat (P : FileEvent → Prop) (w : Watcher) (steps : List Step)
    (hsteps : ∀ event now isDir addOk, Step.handle event now isDir addOk ∈ steps →
      Eligible event → P { Path := event.Name, Op := event.Op, Timestamp := now })
    (hw : (∀ (i : Nat) (t : Timer), w.timers[i]? = some t → P t.fileEvent) ∧
      ∀ e ∈ w.eventChan, P e) :
    (∀ (i : Nat) (t : Timer), (run w steps).timers[i]? = some t → P t.fileEvent) ∧
      ∀ e ∈ (run w steps).eventChan, P e := by
  induction steps generalizing w with
  | nil => exact hw
  | cons s steps ih =>
    apply ih (step w s)
    · intro event now isDir addOk hm
      exact hsteps event now isDir addOk (List.mem_cons_of_mem _ hm)
    · constructor
      · intro i t2 h2
        rcases step_timers_backward w s i t2 h2 with ⟨t, ht, hb, _⟩ | ⟨_, event, now, isDir, addOk, hs, he, ht⟩
        · rw [hb.1]
          exact hw.1 i t ht
        · rw [ht]
          exact hsteps event now isDir addOk (by rw [hs]; exact List.mem_cons_self _ _) he
      · intro e he
        rcases step_eventChan w s with h | ⟨id, t, _, ht, _, h, _⟩
        · rw [h] at he
          exact hw.2 e he
        · rw [h] at he
          rcases List.mem_append.mp he with h1 | h1
          · exact hw.2 e h1
          · simp at h1
            rw [h1]
            exact hw.1 id t ht

/-! ## C7: the time carried by an emitted event -/

/-- C7, counterexample: a notification handled at time 0 with quiet period 1, whose timer
fires at time 1, is emitted with `Timestamp` 0. -/
theorem timestamp_not_emission_time :
    (run (newWatcher "/data".toList 1 ["/data".toList])
      [.handle ⟨"/data/a".toList, fsnotify.Write⟩ 0 false false, .expire 0 1,
        .complete 0]).eventChan =
      [{ Path := "/data/a".toList, Op := fsnotify.Write, Timestamp := 0 }] := by
  decide

/-- Handling an eligible notification, letting its timer expire and run sends the event
made by `handleEvent`. -/
theorem handle_expire_complete (w : Watcher) (event : fsnotify.Event)
    (t0 t1 : Nat) (isDir addOk : Bool) (h : Eligible event) (ht : t0 + w.delay ≤ t1) :
    (complete (expire (handleEvent w event t0 isDir addOk) w.timers.length t1)
        w.timers.length).eventChan =
      w.eventChan ++ [{ Path := event.Name, Op := event.Op, Timestamp := t0 }] := by
  obtain ⟨h1, _, h3, _, _⟩ := handleEvent_eligible w event t0 isDir addOk h
  have hlen := timersAfterCancel_length w event.Name
  have hget : (handleEvent w event t0 isDir addOk).timers[w.timers.length]? =
      some (newTimer w event t0) := by
    rw [h1, List.getElem?_append_right (by omega)]
    simp [hlen]
  have hexp : (expire (handleEvent w event t0 isDir addOk) w.timers.length t1) =
      { handleEvent w event t0 isDir addOk with
        timers := updateTimer (fun t => { t with status := .running }) w.timers.length
          (handleEvent w event t0 isDir addOk).timers } := by
    unfold expire
    rw [hget]
    simp [newTimer, ht]
  have hget2 : (expire (handleEvent w event t0 isDir addOk) w.timers.length t1).timers[
      w.timers.length]? = some { newTimer w event t0 with status := .running } := by
    rw [hexp]
    simp only [updateTimer_getElem?, if_true, hget, Option.map_some']
  unfold complete
  rw [hget2]
  simp [hexp, h3, newTimer]

/-- C7, amended: when an eligible notification is handled at time `t0` and its timer fires
at a time `t1` with `t0 + delay ≤ t1`, the event sent carries the path and operation of the
notification and the `Timestamp` `t0`, the instant `handleEvent` ran. -/
theorem emitted_timestamp_is_handling_time (w : Watcher) (event : fsnotify.Event)
    (t0 t1 : Nat) (isDir addOk : Bool) (h : Eligible event) (ht : t0 + w.delay ≤ t1) :
    (complete (expire (handleEvent w event t0 isDir addOk) w.timers.length t1)
        w.timers.length).eventChan =
      w.eventChan ++ [{ Path := event.Name, Op := event.Op, Timestamp := t0 }] :=
  handle_expire_complete w event t0 t1 isDir addOk h ht

/-- C7 at a fresh watcher with quiet period 5: handled at 3, fired at 9, stamped 3. -/
theorem emitted_timestamp_is_handling_time_witness :
    Eligible ⟨"/data/a".toList, fsnotify.Write⟩ ∧
    3 + (newWatcher "/data".toList 5 []).delay ≤ 9 ∧
    (complete (expire (handleEvent (newWatcher "/data".toList 5 [])
        ⟨"/data/a".toList, fsnotify.Write⟩ 3 false false)
        (newWatcher "/data".toList 5 []).timers.length 9)
        (newWatcher "/data".toList 5 []).timers.length).eventChan =
      (newWatcher "/data".toList 5 []).eventChan ++
        [{ Path := "/data/a".toList, Op := fsnotify.Write, Timestamp := 3 }] :=
  ⟨by unfold Eligible; decide, by decide,
   emitted_timestamp_is_handling_time (newWatcher "/data".toList 5 [])
     ⟨"/data/a".toList, fsnotify.Write⟩ 3 9 false false (by unfold Eligible; decide)
     (by decide)⟩

/-! ## C10: hidden entries -/

/-- C10: a notification whose base name begins with `.` leaves the watcher as it is, and
in no run of a new watcher is an event sent for its path. -/
theorem hidden_notification_ignored (w : Watcher) (event : fsnotify.Event) (now : Nat)
    (isDir addOk : Bool) (h : (filepath.Base event.Name).head? = some '.') :
    handleEvent w event now isDir addOk = w ∧
      ∀ watchDir delay watched steps,
        ∀ e ∈ (run (newWatcher watchDir delay watched) steps).eventChan,
          e.Path ≠ event.Name := by
  constructor
  · exact handleEvent_ignored w event now isDir addOk (fun he => he.1 h)
  · intro watchDir delay watched steps e he
    have hinv := run_events_sat (fun e => (filepath.Base e.Path).head? ≠ some '.')
      (newWatcher watchDir delay watched) steps
      (fun ev _ _ _ _ hel => hel.1)
      ⟨by intro i t ht; simp [newWatcher] at ht, by intro e he; simp [newWatcher] at he⟩
    intro heq
    exact hinv.2 e he (by rw [heq]; exact h)

/-- C10 at the notification `CREATE /data/.git`. -/
theorem hidden_notification_ignored_witness :
    (filepath.Base "/data/.git".toList).head? = some '.' ∧
    handleEvent (newWatcher "/data".toList 1 ["/data".toList])
      ⟨"/data/.git".toList, fsnotify.Create⟩ 0 true true =
      newWatcher "/data".toList 1 ["/data".toList] :=
  ⟨by decide,
   (hidden_notification_ignored (newWatcher "/data".toList 1 ["/data".toList])
     ⟨"/data/.git".toList, fsnotify.Create⟩ 0 true true (by decide)).1⟩

end watcher

end CloudFileSync

namespace CloudFileSync

namespace watcher

/-! ## C8: one live timer per path -/

/-- C8, at the failing run: after `raceSteps` the path `/data/a` has two live timers, 1 and
2, of which only 2 is stored in `timerMap`; both fire, and with the event of the first
timer three events are sent, the last two from the overlapping windows 10..20 and 11..21. -/
theorem race_leaves_two_live_timers :
    liveTimers (run (newWatcher "/data".toList 10 ["/data".toList]) raceSteps)
        "/data/a".toList = [1, 2] ∧
      mapLoad (run (newWatcher "/data".toList 10 ["/data".toList]) raceSteps).timerMap
        "/data/a".toList = some 2 ∧
      (run (newWatcher "/data".toList 10 ["/data".toList])
        (raceSteps ++ [.expire 1 20, .complete 1, .expire 2 21, .complete 2])).eventChan =
        [{ Path := "/data/a".toList, Op := fsnotify.Write, Timestamp := 0 },
         { Path := "/data/a".toList, Op := fsnotify.Write, Timestamp := 10 },
         { Path := "/data/a".toList, Op := fsnotify.Write, Timestamp := 11 }] := by
  decide

/-! ## C9: shutdown -/

/-- A callback that has started before `Stop` sends its event after `Stop` (a timer that
has begun emission completes), and a notification handled after `Stop` installs a timer
that fires and sends. -/
theorem event_sent_after_Stop :
    (run (newWatcher "/data".toList 10 ["/data".toList])
        [.handle ⟨"/data/a".toList, fsnotify.Write⟩ 0 false false, .expire 0 10,
          .stop]).eventChan = [] ∧
      (run (newWatcher "/data".toList 10 ["/data".toList])
        [.handle ⟨"/data/a".toList, fsnotify.Write⟩ 0 false false, .expire 0 10,
          .stop, .complete 0]).eventChan =
        [{ Path := "/data/a".toList, Op := fsnotify.Write, Timestamp := 0 }] ∧
      (run (newWatcher "/data".toList 10 ["/data".toList])
        [.stop, .handle ⟨"/data/a".toList, fsnotify.Write⟩ 0 false false, .expire 0 10,
          .complete 0]).eventChan =
        [{ Path := "/data/a".toList, Op := fsnotify.Write, Timestamp := 0 }] := by
  decide

theorem stopTimer_idem (t : Timer) : stopTimer (stopTimer t) = stopTimer t := by
  unfold stopTimer
  split <;> simp_all

theorem foldl_stopEntry_timerMap (l : List (List Char × Nat)) (w : Watcher) :
    ∀ x ∈ (l.foldl stopEntry w).timerMap, x ∈ w.timerMap ∧ ∀ e ∈ l, x.1 ≠ e.1 := by
  induction l generalizing w with
  | nil => intro x hx; exact ⟨hx, by simp⟩
  | cons e l ih =>
    intro x hx
    obtain ⟨h1, h2⟩ := ih (stopEntry w e) x hx
    simp only [stopEntry, mapDelete, List.mem_filter] at h1
    refine ⟨h1.1, ?_⟩
    intro e2 he2
    rcases List.mem_cons.mp he2 with h | h
    · rw [h]; simpa using h1.2
    · exact h2 e2 h

/-- What `Stop` does to the timer at place `id`: it is stopped when it is stored in
`timerMap`, otherwise it is left as it is. -/
theorem foldl_stopEntry_timer (l : List (List Char × Nat)) (w : Watcher) (id : Nat)
    (t : Timer) (ht : w.timers[id]? = some t) :
    ((∃ key, (key, id) ∈ l) → (l.foldl stopEntry w).timers[id]? = some (stopTimer t)) ∧
      ((∀ key, (key, id) ∉ l) → (l.foldl stopEntry w).timers[id]? = some t) := by
  induction l generalizing w t with
  | nil =>
    constructor
    · rintro ⟨key, hk⟩; simp at hk
    · intro _; exact ht
  | cons e l ih =>
    have h1 : (stopEntry w e).timers[id]? = some (if id = e.2 then stopTimer t else t) := by
      simp only [stopEntry, updateTimer_getElem?, ht]
      split <;> rfl
    obtain ⟨iha, ihb⟩ := ih (stopEntry w e) _ h1
    constructor
    · rintro ⟨key, hk⟩
      rw [List.foldl_cons]
      by_cases hreg : ∃ key, (key, id) ∈ l
      · rw [iha hreg]
        split <;> simp [stopTimer_idem]
      · have hreg2 : ∀ key, (key, id) ∉ l := fun key hk2 => hreg ⟨key, hk2⟩
        rw [ihb hreg2]
        rcases List.mem_cons.mp hk with h | h
        · have : id = e.2 := by rw [← h]
          simp [this]
        · exact absurd h (hreg2 key)
    · intro hno
      rw [List.foldl_cons]
      have hne : id ≠ e.2 := by
        intro h
        exact hno e.1 (by rw [h]; exact List.mem_cons_self _ _)
      rw [ihb (fun key hk => hno key (List.mem_cons_of_mem _ hk))]
      simp [hne]

/-- In a run without `handleEvent`, every event sent is the event of a timer that was
pending or running at the start. -/
theorem run_no_handle_events (w : Watcher) (steps : List Step)
    (hsteps : ∀ s ∈ steps, s.isHandle = false) :
    ∃ es, (run w steps).eventChan = w.eventChan ++ es ∧
      ∀ e ∈ es, ∃ (id : Nat) (t : Timer), w.timers[id]? = some t ∧ t.fileEvent = e ∧
        (t.status = .pending ∨ t.status = .running) := by
  induction steps generalizing w with
  | nil => exact ⟨[], by simp [run], by simp⟩
  | cons s steps ih =>
    obtain ⟨es, hes, hall⟩ := ih (step w s) (fun s2 h2 => hsteps s2 (List.mem_cons_of_mem _ h2))
    have hs : s.isHandle = false := hsteps s (List.mem_cons_self _ _)
    have hback : ∀ e ∈ es, ∃ (id : Nat) (t : Timer), w.timers[id]? = some t ∧ t.fileEvent = e ∧
        (t.status = .pending ∨ t.status = .running) := by
      intro e he
      obtain ⟨id, t2, ht2, hev, hst⟩ := hall e he
      rcases step_timers_backward w s id t2 ht2 with ⟨t, ht, hb, hle⟩ | ⟨_, ev, now, d, a, hh, _⟩
      · refine ⟨id, t, ht, by rw [← hev, hb.1], ?_⟩
        cases hts : t.status <;> cases ht2s : t2.status <;>
          simp_all [StatusLe]
      · rw [hh] at hs; simp [Step.isHandle] at hs
    rcases step_eventChan w s with h | ⟨id, t, _, ht, hrun, h, _⟩
    · exact ⟨es, by show (run (step w s) steps).eventChan = _; rw [hes, h], hback⟩
    · refine ⟨t.fileEvent :: es, ?_, ?_⟩
      · show (run (step w s) steps).eventChan = _
        rw [hes, h]; simp
      · intro e he
        rcases List.mem_cons.mp he with h1 | h1
        · exact ⟨id, t, ht, h1.symm, Or.inr hrun⟩
        · exact hback e h1

/-- What `Stop` reaches: it leaves `timerMap` empty and stops every pending timer stored
in it; and as long as no notification is handled after `Stop`, every event sent after
`Stop` is the event of a timer whose callback had started before `Stop`, or of a pending
timer that `timerMap` did not hold. -/
theorem Stop_cancels_stored_timers (w : Watcher) :
    (Stop w).timerMap = [] ∧
      (∀ key id t, (key, id) ∈ w.timerMap → w.timers[id]? = some t → t.status = .pending →
        (Stop w).timers[id]? = some { t with status := .stopped }) ∧
      (∀ steps : List Step, (∀ s ∈ steps, s.isHandle = false) →
        ∃ es, (run (Stop w) steps).eventChan = w.eventChan ++ es ∧
          ∀ e ∈ es, ∃ (id : Nat) (t : Timer), w.timers[id]? = some t ∧ t.fileEvent = e ∧
            (t.status = .running ∨ (t.status = .pending ∧ ∀ key, (key, id) ∉ w.timerMap))) := by
  refine ⟨?_, ?_, ?_⟩
  · rw [List.eq_nil_iff_forall_not_mem]
    intro x hx
    obtain ⟨h1, h2⟩ := foldl_stopEntry_timerMap w.timerMap { w with closed := true } x hx
    exact h2 x h1 rfl
  · intro key id t hk ht hp
    have := (foldl_stopEntry_timer w.timerMap { w with closed := true } id t ht).1 ⟨key, hk⟩
    unfold Stop
    rw [this]
    simp [stopTimer, hp]
  · intro steps hsteps
    obtain ⟨es, hes, hall⟩ := run_no_handle_events (Stop w) steps hsteps
    have hchan : (Stop w).eventChan = w.eventChan :=
      (foldl_stopEntry w.timerMap { w with closed := true }).1
    refine ⟨es, by rw [hes, hchan], ?_⟩
    intro e he
    obtain ⟨id, t2, ht2, hev, hst⟩ := hall e he
    have hlen : (Stop w).timers.length = w.timers.length :=
      (foldl_stopEntry w.timerMap { w with closed := true }).2.2.2.1
    have hlt : id < w.timers.length := by
      rcases Nat.lt_or_ge id w.timers.length with h | h
      · exact h
      · rw [List.getElem?_eq_none (by omega)] at ht2; cases ht2
    have ht : w.timers[id]? = some (w.timers[id]) := List.getElem?_eq_getElem hlt
    obtain ⟨ha, hb⟩ := foldl_stopEntry_timer w.timerMap { w with closed := true } id _ ht
    by_cases hreg : ∃ key, (key, id) ∈ w.timerMap
    · have h3 := ha hreg
      unfold Stop at ht2
      rw [h3] at ht2
      cases ht2
      refine ⟨id, _, ht, by rw [← hev]; simp [stopTimer]; split <;> rfl, ?_⟩
      left
      unfold stopTimer at hst
      split at hst
      · simp at hst
      · rcases hst with h | h
        · next hn => exact absurd h hn
        · exact h
    · have hreg2 : ∀ key, (key, id) ∉ w.timerMap := fun key hk => hreg ⟨key, hk⟩
      have h3 := hb hreg2
      unfold Stop at ht2
      rw [h3] at ht2
      cases ht2
      refine ⟨id, _, ht, hev, ?_⟩
      rcases hst with h | h
      · exact Or.inr ⟨h, hreg2⟩
      · exact Or.inl h

/-- C9, at the failing runs: `Stop` stops the timers it finds in `timerMap` only.  After
write at 0, the expiry of timer 0 at 10, write at 10 and the callback of timer 0 (which
deletes the entry of timer 1), `Stop` finds an empty map and leaves timer 1 pending; it
expires at 20 and its event, stamped 10, is sent after `Stop`, from a timer whose callback
had not started when `Stop` ran.  And a notification handled right after `Stop` installs
a timer, which fires and sends its event. -/
theorem Stop_leaves_pending_timer :
    (run (newWatcher "/data".toList 10 ["/data".toList])
        [.handle ⟨"/data/a".toList, fsnotify.Write⟩ 0 false false, .expire 0 10,
          .handle ⟨"/data/a".toList, fsnotify.Write⟩ 10 false false, .complete 0]).timerMap
        = [] ∧
      ((run (newWatcher "/data".toList 10 ["/data".toList])
        [.handle ⟨"/data/a".toList, fsnotify.Write⟩ 0 false false, .expire 0 10,
          .handle ⟨"/data/a".toList, fsnotify.Write⟩ 10 false false, .complete 0,
          .stop]).timers.map fun t => t.status) = [.finished, .pending] ∧
      (run (newWatcher "/data".toList 10 ["/data".toList])
        [.handle ⟨"/data/a".toList, fsnotify.Write⟩ 0 false false, .expire 0 10,
          .handle ⟨"/data/a".toList, fsnotify.Write⟩ 10 false false, .complete 0,
          .stop]).eventChan =
        [{ Path := "/data/a".toList, Op := fsnotify.Write, Timestamp := 0 }] ∧
      (run (newWatcher "/data".toList 10 ["/data".toList])
        [.handle ⟨"/data/a".toList, fsnotify.Write⟩ 0 false false, .expire 0 10,
          .handle ⟨"/data/a".toList, fsnotify.Write⟩ 10 false false, .complete 0,
          .stop, .expire 1 20, .complete 1]).eventChan =
        [{ Path := "/data/a".toList, Op := fsnotify.Write, Timestamp := 0 },
         { Path := "/data/a".toList, Op := fsnotify.Write, Timestamp := 10 }] ∧
      (run (newWatcher "/data".toList 10 ["/data".toList]) [.stop]).eventChan = [] ∧
      (run (newWatcher "/data".toList 10 ["/data".toList])
        [.stop, .handle ⟨"/data/b".toList, fsnotify.Create⟩ 0 false false, .expire 0 10,
          .complete 0]).eventChan =
        [{ Path := "/data/b".toList, Op := fsnotify.Create, Timestamp := 0 }] := by
  decide

end watcher

end CloudFileSync

namespace CloudFileSync

namespace watcher

/-! ## C6: debounce -/

theorem live_of_StatusLe (t t2 : Timer) (h : StatusLe t.status t2.status)
    (hl : t2.live = true) : t.live = true := by
  unfold Timer.live at hl ⊢
  cases hts : t.status <;> cases ht2s : t2.status <;> simp_all [StatusLe]

theorem NamePath_step (w : Watcher) (s : Step) (h : NamePath w) : NamePath (step w s) := by
  unfold NamePath
  intro i t2 h2
  rcases step_timers_backward w s i t2 h2 with ⟨t, ht, hb, _⟩ | ⟨_, ev, now, d, a, _, _, ht⟩
  · rw [hb.1, hb.2.1]
    exact h i t ht
  · rw [ht]
    rfl

theorem NamePath_run (w : Watcher) (steps : List Step) (h : NamePath w) :
    NamePath (run w steps) := by
  induction steps generalizing w with
  | nil => exact h
  | cons s steps ih => exact ih (step w s) (NamePath_step w s h)

theorem NamePath_newWatcher (watchDir : List Char) (delay : Nat) (watched : List (List Char)) :
    NamePath (newWatcher watchDir delay watched) := by
  unfold NamePath
  intro i t h
  simp [newWatcher] at h

theorem mapLoad_mapStore_self (m : List (List Char × Nat)) (key : List Char) (v : Nat) :
    mapLoad (mapStore m key v) key = some v := by
  simp [mapLoad, mapStore, List.lookup]

/-- After `handleEvent` on an eligible notification for `p`, in a state where every live
timer of `p` is pending and stored, the new timer is the only live timer of `p`. -/
theorem handle_only_live (w : Watcher) (p : List Char) (op now : Nat) (isDir addOk : Bool)
    (hk : LiveStored w p) (he : Eligible ⟨p, op⟩) :
    OnlyLiveAt (handleEvent w ⟨p, op⟩ now isDir addOk) p w.timers.length
        { Path := p, Op := op, Timestamp := now } ∧
      LiveStored (handleEvent w ⟨p, op⟩ now isDir addOk) p ∧
      (handleEvent w ⟨p, op⟩ now isDir addOk).timers[w.timers.length]? =
        some (newTimer w ⟨p, op⟩ now) ∧
      (handleEvent w ⟨p, op⟩ now isDir addOk).timers.length = w.timers.length + 1 := by
  obtain ⟨h1', h2', _, _, _⟩ := handleEvent_eligible w ⟨p, op⟩ now isDir addOk he
  have h1 : (handleEvent w ⟨p, op⟩ now isDir addOk).timers =
      timersAfterCancel w p ++ [newTimer w ⟨p, op⟩ now] := h1'
  have h2 : (handleEvent w ⟨p, op⟩ now isDir addOk).timerMap =
      mapStore w.timerMap p w.timers.length := h2'
  have hlen := timersAfterCancel_length w p
  have hget : (handleEvent w ⟨p, op⟩ now isDir addOk).timers[w.timers.length]? =
      some (newTimer w ⟨p, op⟩ now) := by
    rw [h1, List.getElem?_append_right (by simp [hlen])]
    simp [hlen]
  have hold : ∀ (i : Nat) (t : Timer), i < w.timers.length →
      (timersAfterCancel w p)[i]? = some t → t.name = p → t.live = true → False := by
    intro i t hi ht hn hl
    have h0 : w.timers[i]? = some (w.timers[i]) := List.getElem?_eq_getElem hi
    unfold timersAfterCancel at ht
    split at ht
    · next id hid =>
      rw [updateTimer_getElem?, h0] at ht
      by_cases hiid : i = id
      · subst hiid
        simp only [if_true, Option.map_some', Option.some.injEq] at ht
        by_cases hp : (w.timers[i]).status = .pending
        · rw [← ht] at hl
          simp [stopTimer, hp, Timer.live] at hl
        · have heq : t = w.timers[i] := by
            rw [← ht]; simp [stopTimer, hp]
          rw [heq] at hn hl
          exact hp (hk i _ h0 hn hl).1
      · simp only [hiid, if_false, Option.some.injEq] at ht
        rw [← ht] at hn hl
        have := (hk i _ h0 hn hl).2
        rw [hid] at this
        exact hiid (Option.some.inj this).symm
    · next hnone =>
      rw [h0] at ht
      cases ht
      have := (hk i _ h0 hn hl).2
      rw [hnone] at this
      cases this
  have honly : OnlyLiveAt (handleEvent w ⟨p, op⟩ now isDir addOk) p w.timers.length
      { Path := p, Op := op, Timestamp := now } := by
    unfold OnlyLiveAt
    intro i t ht hn hl
    rcases Nat.lt_trichotomy i w.timers.length with hi | hi | hi
    · exfalso
      rw [h1, List.getElem?_append_left (by omega)] at ht
      exact hold i t hi ht hn hl
    · subst hi
      rw [hget] at ht
      cases ht
      exact ⟨rfl, rfl⟩
    · rw [h1, List.getElem?_eq_none (by simp [hlen]; omega)] at ht
      cases ht
  refine ⟨honly, ?_, hget, by rw [h1]; simp [hlen]⟩
  unfold LiveStored
  intro i t ht hn hl
  obtain ⟨hi, _⟩ := honly i t ht hn hl
  subst hi
  rw [hget] at ht
  cases ht
  exact ⟨rfl, by rw [h2]; exact mapLoad_mapStore_self _ _ _⟩

/-- A burst of eligible notifications for `p` keeps every live timer of `p` pending and
stored, and sends nothing. -/
theorem burst_liveStored (p : List Char) (burst : List (Nat × Nat × Bool × Bool))
    (w : Watcher) (hk : LiveStored w p) (he : ∀ b ∈ burst, Eligible ⟨p, b.1⟩) :
    LiveStored (run w (burstSteps p burst)) p ∧
      (run w (burstSteps p burst)).eventChan = w.eventChan ∧
      (run w (burstSteps p burst)).delay = w.delay := by
  induction burst generalizing w with
  | nil => exact ⟨hk, rfl, rfl⟩
  | cons b burst ih =>
    have hb : Eligible ⟨p, b.1⟩ := he b (List.mem_cons_self _ _)
    obtain ⟨_, h2, _, _⟩ := handle_only_live w p b.1 b.2.1 b.2.2.1 b.2.2.2 hk hb
    obtain ⟨i1, i2, i3⟩ := ih (handleEvent w ⟨p, b.1⟩ b.2.1 b.2.2.1 b.2.2.2) h2
      (fun b2 hb2 => he b2 (List.mem_cons_of_mem _ hb2))
    obtain ⟨_, _, e3, e4, _⟩ := handleEvent_eligible w ⟨p, b.1⟩ b.2.1 b.2.2.1 b.2.2.2 hb
    exact ⟨i1, i2.trans e3, i3.trans e4⟩

theorem eventsFor_append (p : List Char) (w : Watcher) (chan : List FileEvent) (e : FileEvent)
    (h : w.eventChan = chan ++ [e]) :
    eventsFor p w = chan.filter (fun e => e.Path == p) ++ (if e.Path = p then [e] else []) := by
  unfold eventsFor
  rw [h, List.filter_append]
  by_cases hp : e.Path = p <;> simp [hp]

/-- Once the only live timer of `p` carries `e`, steps other than `handleEvent` for `p` send
at most one event for `p`, and that event is `e`. -/
theorem later_at_most_one (p : List Char) (n : Nat) (e : FileEvent) (base : List FileEvent)
    (steps : List Step) (w : Watcher)
    (hsteps : ∀ s ∈ steps, ∀ ev now isDir addOk, s = .handle ev now isDir addOk → ev.Name ≠ p)
    (hnp : NamePath w)
    (h : (eventsFor p w = base ∧ OnlyLiveAt w p n e) ∨
      (eventsFor p w = base ++ [e] ∧ NoLive w p)) :
    eventsFor p (run w steps) = base ∨ eventsFor p (run w steps) = base ++ [e] := by
  induction steps generalizing w with
  | nil =>
    rcases h with h | h
    · exact Or.inl h.1
    · exact Or.inr h.1
  | cons s steps ih =>
    have hs := hsteps s (List.mem_cons_self _ _)
    apply ih (step w s) (fun s2 h2 => hsteps s2 (List.mem_cons_of_mem _ h2))
      (NamePath_step w s hnp)
    -- a live timer of `p` after the step was a live timer of `p` before
    have hback : ∀ (i : Nat) (t2 : Timer), (step w s).timers[i]? = some t2 → t2.name = p →
        t2.live = true →
        ∃ t, w.timers[i]? = some t ∧ t.name = p ∧ t.live = true ∧ t.fileEvent = t2.fileEvent ∧
          StatusLe t.status t2.status := by
      intro i t2 h2 hn hl
      rcases step_timers_backward w s i t2 h2 with ⟨t, ht, hb, hle⟩ | ⟨_, ev, now, d, a, hh, _, ht⟩
      · exact ⟨t, ht, by rw [← hb.2.1]; exact hn, live_of_StatusLe t t2 hle hl, hb.1.symm, hle⟩
      · exfalso
        apply hs ev now d a hh
        rw [← hn, ht]
        rfl
    rcases step_eventChan w s with hc | ⟨id, t, _, ht, hrun, hc, hfin⟩
    · -- nothing sent
      have hev : eventsFor p (step w s) = eventsFor p w := by
        unfold eventsFor; rw [hc]
      rcases h with ⟨h1, h2⟩ | ⟨h1, h2⟩
      · left
        refine ⟨hev.trans h1, ?_⟩
        unfold OnlyLiveAt
        intro i t2 ht2 hn hl
        obtain ⟨t, ht, htn, htl, hte, _⟩ := hback i t2 ht2 hn hl
        obtain ⟨hi, hfe⟩ := h2 i t ht htn htl
        exact ⟨hi, by rw [← hte]; exact hfe⟩
      · right
        refine ⟨hev.trans h1, ?_⟩
        unfold NoLive
        intro i t2 ht2 hn
        by_contra hl
        obtain ⟨t, ht, htn, htl, _, _⟩ := hback i t2 ht2 hn (by simpa using hl)
        rw [h2 i t ht htn] at htl
        cases htl
    · -- the running timer `id` sent its event
      have hev := eventsFor_append p (step w s) w.eventChan t.fileEvent hc
      have hlive : t.live = true := by simp [Timer.live, hrun]
      by_cases hname : t.name = p
      · have hpath : t.fileEvent.Path = p := by rw [← hnp id t ht]; exact hname
        rcases h with ⟨h1, h2⟩ | ⟨h1, h2⟩
        · obtain ⟨hid, hfe⟩ := h2 id t ht hname hlive
          right
          constructor
          · rw [hev]
            simp only [hpath, if_true]
            unfold eventsFor at h1
            rw [h1, hfe]
          · unfold NoLive
            intro i t2 ht2 hn
            by_contra hl
            obtain ⟨t0, ht0, htn, htl, _, _⟩ := hback i t2 ht2 hn (by simpa using hl)
            obtain ⟨hi, _⟩ := h2 i t0 ht0 htn htl
            rw [hi, ← hid, hfin] at ht2
            cases ht2
            simp [Timer.live] at hl
        · rw [h2 id t ht hname] at hlive
          cases hlive
      · have hpath : t.fileEvent.Path ≠ p := by rw [← hnp id t ht]; exact hname
        have hev2 : eventsFor p (step w s) = eventsFor p w := by
          rw [hev]
          simp only [hpath, if_false, List.append_nil]
          rfl
        rcases h with ⟨h1, h2⟩ | ⟨h1, h2⟩
        · left
          refine ⟨hev2.trans h1, ?_⟩
          unfold OnlyLiveAt
          intro i t2 ht2 hn hl
          obtain ⟨t0, ht0, htn, htl, hte, _⟩ := hback i t2 ht2 hn hl
          obtain ⟨hi, hfe⟩ := h2 i t0 ht0 htn htl
          exact ⟨hi, by rw [← hte]; exact hfe⟩
        · right
          refine ⟨hev2.trans h1, ?_⟩
          unfold NoLive
          intro i t2 ht2 hn
          by_contra hl
          obtain ⟨t0, ht0, htn, htl, _, _⟩ := hback i t2 ht2 hn (by simpa using hl)
          rw [h2 i t0 ht0 htn] at htl
          cases htl

theorem step_delay (w : Watcher) (s : Step) : (step w s).delay = w.delay := by
  cases s with
  | handle event now isDir addOk =>
    by_cases h : Eligible event
    · exact (handleEvent_eligible w event now isDir addOk h).2.2.2.1
    · simp only [step, handleEvent_ignored w event now isDir addOk h]
  | expire id now =>
    simp only [step, expire]
    split
    · rfl
    · split <;> rfl
  | complete id =>
    simp only [step, complete]
    split
    · rfl
    · split <;> rfl
  | stop =>
    simp only [step, Stop]
    exact (foldl_stopEntry w.timerMap { w with closed := true }).2.2.1

theorem run_delay (w : Watcher) (steps : List Step) : (run w steps).delay = w.delay := by
  induction steps generalizing w with
  | nil => rfl
  | cons s steps ih => exact (ih (step w s)).trans (step_delay w s)

theorem run_append (w : Watcher) (a b : List Step) : run w (a ++ b) = run (run w a) b := by
  simp [run, List.foldl_append]

theorem noLive_of_liveTimers_nil (w : Watcher) (p : List Char) (h : liveTimers w p = []) :
    NoLive w p := by
  unfold NoLive
  intro i t ht hn
  have hi : i < w.timers.length := by
    rcases Nat.lt_or_ge i w.timers.length with h1 | h1
    · exact h1
    · rw [List.getElem?_eq_none h1] at ht; cases ht
  unfold liveTimers at h
  rw [List.filter_eq_nil_iff] at h
  have := h i (List.mem_range.mpr hi)
  rw [ht] at this
  simpa [hn] using this

/-- The live timers of `p` when the only one is the last timer made. -/
theorem liveTimers_of_onlyLiveAt (w : Watcher) (p : List Char) (n : Nat) (e : FileEvent)
    (t : Timer) (hlen : w.timers.length = n + 1) (hget : w.timers[n]? = some t)
    (hname : t.name = p) (hlive : t.live = true) (h : OnlyLiveAt w p n e) :
    liveTimers w p = [n] := by
  unfold liveTimers
  rw [hlen, List.range_succ, List.filter_append]
  have h1 : (List.range n).filter (fun id =>
      match w.timers[id]? with
      | some t => t.live && t.name == p
      | none => false) = [] := by
    rw [List.filter_eq_nil_iff]
    intro i hi
    have hi2 : i < n := List.mem_range.mp hi
    cases hti : w.timers[i]? with
    | none => simp
    | some t2 =>
      simp only [Bool.and_eq_true, beq_iff_eq, not_and]
      intro hl hn
      have := (h i t2 hti hn hl).1
      omega
  rw [h1]
  simp [hget, hname, hlive]

/-- Debounce from a quiet state: in a state a new watcher has reached in which path `p` has
no live timer, a burst of `N ≥ 1` eligible notifications for `p`, each handled while the
timer of the previous one is pending (no timer step in between), leaves exactly one live
timer for `p`, the last one made; whatever steps other than a further notification for `p` follow, at most one
event for `p` is sent, and it carries `p`, the operation of the last notification and the
time it was handled at; and when the last timer fires, exactly this event is sent. -/
theorem debounce_last_write_wins (watchDir : List Char) (delay : Nat)
    (watched : List (List Char)) (history : List Step) (p : List Char)
    (burst : List (Nat × Nat × Bool × Bool)) (last : Nat × Nat × Bool × Bool)
    (later : List Step)
    (hquiet : liveTimers (run (newWatcher watchDir delay watched) history) p = [])
    (helig : ∀ b ∈ burst ++ [last], Eligible ⟨p, b.1⟩)
    (hlater : ∀ s ∈ later, ∀ ev now isDir addOk, s = .handle ev now isDir addOk →
      ev.Name ≠ p) :
    liveTimers (run (newWatcher watchDir delay watched)
        (history ++ burstSteps p (burst ++ [last]))) p =
      [(run (newWatcher watchDir delay watched)
        (history ++ burstSteps p (burst ++ [last]))).timers.length - 1] ∧
    (eventsFor p (run (newWatcher watchDir delay watched)
        (history ++ burstSteps p (burst ++ [last]) ++ later)) =
        eventsFor p (run (newWatcher watchDir delay watched) history) ∨
      eventsFor p (run (newWatcher watchDir delay watched)
        (history ++ burstSteps p (burst ++ [last]) ++ later)) =
        eventsFor p (run (newWatcher watchDir delay watched) history) ++
          [{ Path := p, Op := last.1, Timestamp := last.2.1 }]) ∧
    (∀ t1, last.2.1 + delay ≤ t1 →
      (run (newWatcher watchDir delay watched)
        (history ++ burstSteps p (burst ++ [last]) ++
          [.expire ((run (newWatcher watchDir delay watched)
              (history ++ burstSteps p (burst ++ [last]))).timers.length - 1) t1,
           .complete ((run (newWatcher watchDir delay watched)
              (history ++ burstSteps p (burst ++ [last]))).timers.length - 1)])).eventChan =
        (run (newWatcher watchDir delay watched) history).eventChan ++
          [{ Path := p, Op := last.1, Timestamp := last.2.1 }]) := by
  -- the state before the burst, and before its last notification
  generalize hw0 : run (newWatcher watchDir delay watched) history = w0 at hquiet ⊢
  have hnp0 : NamePath w0 := by
    rw [← hw0]; exact NamePath_run _ _ (NamePath_newWatcher _ _ _)
  have hd0 : w0.delay = delay := by
    rw [← hw0]; exact run_delay _ _
  have hk0 : LiveStored w0 p := by
    have := noLive_of_liveTimers_nil w0 p hquiet
    unfold LiveStored
    intro i t ht hn hl
    rw [this i t ht hn] at hl
    cases hl
  have hel1 : ∀ b ∈ burst, Eligible ⟨p, b.1⟩ := fun b hb =>
    helig b (List.mem_append_left _ hb)
  have hel2 : Eligible ⟨p, last.1⟩ := helig last (by simp)
  obtain ⟨hk1, hc1, hd1⟩ := burst_liveStored p burst w0 hk0 hel1
  generalize hwp : run w0 (burstSteps p burst) = wp at hk1 hc1 hd1
  have hrun1 : run (newWatcher watchDir delay watched)
      (history ++ burstSteps p (burst ++ [last])) =
      handleEvent wp ⟨p, last.1⟩ last.2.1 last.2.2.1 last.2.2.2 := by
    rw [run_append, hw0]
    unfold burstSteps
    rw [List.map_append, run_append]
    unfold burstSteps at hwp
    rw [hwp]
    rfl
  obtain ⟨honly, _, hget, hlen⟩ :=
    handle_only_live wp p last.1 last.2.1 last.2.2.1 last.2.2.2 hk1 hel2
  obtain ⟨_, _, hchan, _, _⟩ :=
    handleEvent_eligible wp ⟨p, last.1⟩ last.2.1 last.2.2.1 last.2.2.2 hel2
  have hn : (handleEvent wp ⟨p, last.1⟩ last.2.1 last.2.2.1 last.2.2.2).timers.length - 1 =
      wp.timers.length := by omega
  refine ⟨?_, ?_, ?_⟩
  · rw [hrun1, hn]
    exact liveTimers_of_onlyLiveAt _ p _ _ _ hlen hget rfl rfl honly
  · rw [run_append, hrun1]
    have hev : eventsFor p (handleEvent wp ⟨p, last.1⟩ last.2.1 last.2.2.1 last.2.2.2) =
        eventsFor p w0 := by
      unfold eventsFor
      rw [hchan, hc1]
    have hnp1 : NamePath (handleEvent wp ⟨p, last.1⟩ last.2.1 last.2.2.1 last.2.2.2) := by
      rw [← hrun1, run_append, hw0]
      exact NamePath_run _ _ hnp0
    exact later_at_most_one p wp.timers.length _ (eventsFor p w0) later _ hlater hnp1
      (Or.inl ⟨hev, honly⟩)
  · intro t1 ht1
    rw [run_append, hrun1, hn]
    have := handle_expire_complete wp ⟨p, last.1⟩ last.2.1 t1 last.2.2.1 last.2.2.2 hel2
      (by rw [hd1, hd0]; exact ht1)
    rw [hc1] at this
    exact this

/-- Debounce at a fresh watcher: create then remove within one quiet window. -/
theorem debounce_last_write_wins_witness :
    liveTimers (run (newWatcher "/data".toList 10 []) []) "/data/a".toList = [] ∧
    (∀ b ∈ [(fsnotify.Create, 0, false, false)] ++ [(fsnotify.Remove, 3, false, false)],
      Eligible ⟨"/data/a".toList, b.1⟩) ∧
    (run (newWatcher "/data".toList 10 [])
        ([] ++ burstSteps "/data/a".toList
          ([(fsnotify.Create, 0, false, false)] ++ [(fsnotify.Remove, 3, false, false)]) ++
          [.expire ((run (newWatcher "/data".toList 10 [])
              ([] ++ burstSteps "/data/a".toList
                ([(fsnotify.Create, 0, false, false)] ++
                  [(fsnotify.Remove, 3, false, false)]))).timers.length - 1) 13,
           .complete ((run (newWatcher "/data".toList 10 [])
              ([] ++ burstSteps "/data/a".toList
                ([(fsnotify.Create, 0, false, false)] ++
                  [(fsnotify.Remove, 3, false, false)]))).timers.length - 1)])).eventChan =
        (run (newWatcher "/data".toList 10 []) []).eventChan ++
          [{ Path := "/data/a".toList, Op := fsnotify.Remove, Timestamp := 3 }] :=
  ⟨by decide, by unfold Eligible; decide,
   (debounce_last_write_wins "/data".toList 10 [] [] "/data/a".toList
      [(fsnotify.Create, 0, false, false)] (fsnotify.Remove, 3, false, false) []
      (by decide) (by unfold Eligible; decide) (by simp)).2.2 13 (by decide)⟩

/-- C6, at the failing run: a burst of two notifications for `/data/a`, create handled at
10 and remove handled at 11 (before the timer of the create, due at 20, has expired),
sends two events, not one.  The burst begins while the callback of an earlier timer of the
path is running (write at 0, expiry at 10): the create stores timer 1, the callback then
deletes the map entry of the path, so the remove loads nothing and stops nothing, and
timers 1 and 2 both fire.  When the callback has returned before the burst begins, the
same burst sends the one event carrying the remove. -/
theorem burst_during_callback_sends_two :
    liveTimers (run (newWatcher "/data".toList 10 ["/data".toList])
        [.handle ⟨"/data/a".toList, fsnotify.Write⟩ 0 false false, .expire 0 10,
          .handle ⟨"/data/a".toList, fsnotify.Create⟩ 10 false false, .complete 0,
          .handle ⟨"/data/a".toList, fsnotify.Remove⟩ 11 false false])
        "/data/a".toList = [1, 2] ∧
      (run (newWatcher "/data".toList 10 ["/data".toList])
        [.handle ⟨"/data/a".toList, fsnotify.Write⟩ 0 false false, .expire 0 10,
          .handle ⟨"/data/a".toList, fsnotify.Create⟩ 10 false false, .complete 0,
          .handle ⟨"/data/a".toList, fsnotify.Remove⟩ 11 false false,
          .expire 1 20, .complete 1, .expire 2 21, .complete 2]).eventChan =
        [{ Path := "/data/a".toList, Op := fsnotify.Write, Timestamp := 0 },
         { Path := "/data/a".toList, Op := fsnotify.Create, Timestamp := 10 },
         { Path := "/data/a".toList, Op := fsnotify.Remove, Timestamp := 11 }] ∧
      (run (newWatcher "/data".toList 10 ["/data".toList])
        [.handle ⟨"/data/a".toList, fsnotify.Write⟩ 0 false false, .expire 0 10,
          .complete 0,
          .handle ⟨"/data/a".toList, fsnotify.Create⟩ 10 false false,
          .handle ⟨"/data/a".toList, fsnotify.Remove⟩ 11 false false,
          .expire 1 20, .complete 1, .expire 2 21, .complete 2]).eventChan =
        [{ Path := "/data/a".toList, Op := fsnotify.Write, Timestamp := 0 },
         { Path := "/data/a".toList, Op := fsnotify.Remove, Timestamp := 11 }] := by
  decide

end watcher

end CloudFileSync

namespace CloudFileSync

namespace filepath

/-! ## `Base` of a joined path -/

/-- The base name of a path that ends in a file name is that name. -/
theorem Base_append_name (Y name : List Char) (hY : Y = [] ∨ Y.getLast? = some '/')
    (hne : name ≠ []) (hsep : '/' ∉ name) : Base (Y ++ name) = name := by
  have hrev : '/' ∉ name.reverse := by simpa using hsep
  have hrevne : name.reverse ≠ [] := by simpa using hne
  have hYend : atElemEnd Y.reverse = true := by
    rcases hY with h | h
    · simp [h, atElemEnd]
    · unfold atElemEnd
      rw [List.head?_reverse, h]
      simp
  unfold Base
  rw [if_neg (by simp [hne])]
  have hdrop : (Y ++ name).reverse.dropWhile (· == '/') = (Y ++ name).reverse := by
    rw [List.reverse_append]
    cases hn : name.reverse with
    | nil => exact absurd hn hrevne
    | cons c t =>
      have hc : c ≠ '/' := by
        intro h
        apply hrev
        rw [hn, h]
        simp
      simp [List.dropWhile_cons, hc]
  simp only [hdrop, List.reverse_reverse]
  rw [List.reverse_append, (takeWhile_elem_append name.reverse Y.reverse hrev hYend).1]
  simp [hne]

/-- `Join(T, name)` ends in `name` for a file name `name`: its base name is `name`. -/
theorem Base_Join_name (T name : List Char) (h : isElem name = true) :
    Base (Join [T, name]) = name := by
  obtain ⟨hne, hsep, _, _⟩ := (isElem_iff name).mp h
  by_cases hT : T = []
  · subst hT
    have hj : Join [[], name] = Clean name := by
      simp [Join, hne, List.intercalate]
    have hb := cleanBuf_of_shape false 0 [name] (by simpa using h) (by simp)
    simp only [rootOf, Bool.false_eq_true, if_false, List.replicate_zero, List.nil_append,
      joinElems] at hb
    have hc : Clean name = name := by
      unfold Clean
      rw [if_neg hne, hb, if_neg hne]
    rw [hj, hc]
    exact Base_append_name [] name (Or.inl rfl) hne hsep
  · have hj : Join [T, name] = Clean (T ++ '/' :: name) := by
      simp [Join, hT, List.intercalate]
    have happ := cleanBuf_append_elems T [name] hT (by simp) (by simpa using h)
    simp only [joinElems] at happ
    have hc : Clean (T ++ '/' :: name) = cleanBuf (T ++ '/' :: name) := by
      unfold Clean
      rw [if_neg (by simp), if_neg (by rw [happ]; simp [hne])]
    rw [hj, hc, happ]
    apply Base_append_name _ name _ hne hsep
    obtain ⟨m, elems, hel, hm, hshape⟩ := cleanBuf_shape T
    split
    · right
      simp
    · next hcond =>
      by_cases hroot : T.head? = some '/'
      · right
        have hlen : (cleanBuf T).length = 1 := by
          by_contra hl
          exact hcond (Or.inl ⟨by simp [hroot], hl⟩)
        rw [hshape] at hlen ⊢
        simp only [hroot, decide_True, rootOf, if_true, List.singleton_append,
          List.length_cons] at hlen ⊢
        have : joinElems (List.replicate m ['.', '.'] ++ elems) = [] :=
          List.length_eq_zero.mp (by omega)
        rw [this]
        rfl
      · left
        have hlen : (cleanBuf T).length = 0 := by
          by_contra hl
          exact hcond (Or.inr ⟨by simp [hroot], hl⟩)
        exact List.length_eq_zero.mp hlen

end filepath

/-! ## C13: the fallback when `Rel` fails -/

/-- C13: when `filepath.Rel(watchDir, localPath)` returns an error, `getRemotePath` returns
`filepath.Join(targetDir, filepath.Base(localPath))`; when the base name is a file name,
the base name of the result is that name, so no other element of the local path is in it;
and `Rel` does return an error when one path is rooted and the other is not. -/
theorem getRemotePath_Rel_error (localPath watchDir targetDir : List Char)
    (h : filepath.Rel watchDir localPath = none) :
    getRemotePath localPath watchDir targetDir =
        filepath.Join [targetDir, filepath.Base localPath] ∧
      (filepath.isElem (filepath.Base localPath) = true →
        filepath.Base (getRemotePath localPath watchDir targetDir) =
          filepath.Base localPath) ∧
      (∀ L W : List Char, decide (L.head? = some '/') ≠ decide (W.head? = some '/') →
        filepath.Rel W L = none) := by
  have h1 : getRemotePath localPath watchDir targetDir =
      filepath.Join [targetDir, filepath.Base localPath] := by
    unfold getRemotePath
    rw [h]
  refine ⟨h1, ?_, fun L W hLW => filepath.Rel_mixed W L hLW⟩
  intro hb
  rw [h1]
  exact filepath.Base_Join_name targetDir _ hb

/-- C13 at the relative watch root `data` and the rooted local path `/other/a.txt`. -/
theorem getRemotePath_Rel_error_witness :
    filepath.Rel "data".toList "/other/a.txt".toList = none ∧
    getRemotePath "/other/a.txt".toList "data".toList "remote/".toList =
      filepath.Join ["remote/".toList, filepath.Base "/other/a.txt".toList] :=
  ⟨by decide,
   (getRemotePath_Rel_error "/other/a.txt".toList "data".toList "remote/".toList
     (by decide)).1⟩

/-! ## C14: events that are not removals -/

/-- C14: for an operation without the `Remove` bit, `uploadFile` is one call of
`UploadFile(localPath, remotePath)` and returns its result; on a recording provider the
only call recorded is that `UploadFile`, so neither `DeleteFile` nor `CreateDir` is
called. -/
theorem uploadFile_not_Remove (op : Nat) (h : fsnotify.Has op fsnotify.Remove = false)
    {σ : Type} (pvd : Provider σ) (localPath remotePath : List Char) (s : σ)
    (name : List Char) (respond : Call → GoError) (log : List Call) :
    uploadFile pvd localPath remotePath op s = pvd.UploadFile localPath remotePath s ∧
      uploadFile (recorder name respond) localPath remotePath op log =
        (respond (.UploadFile localPath remotePath),
          log ++ [.UploadFile localPath remotePath]) := by
  constructor
  · exact uploadFile_eq_UploadFile pvd localPath remotePath op s
  · rw [uploadFile_eq_UploadFile]
    rfl

/-- C14 at the operation `Create|Write`. -/
theorem uploadFile_not_Remove_witness :
    fsnotify.Has (fsnotify.Create ||| fsnotify.Write) fsnotify.Remove = false ∧
    uploadFile (recorder "p".toList (fun _ => none)) "/data/a".toList "remote/a".toList
        (fsnotify.Create ||| fsnotify.Write) [] =
      (none, [Call.UploadFile "/data/a".toList "remote/a".toList]) :=
  ⟨by decide,
   (uploadFile_not_Remove (fsnotify.Create ||| fsnotify.Write) (by decide)
     (recorder "p".toList (fun _ => none)) "/data/a".toList "remote/a".toList []
     "p".toList (fun _ => none) []).2⟩

end CloudFileSync

namespace CloudFileSync

/-! ## C16: trailing separators of the target root -/

theorem HasSuffix_append_sep (X : List Char) : strings.HasSuffix (X ++ ['/']) ['/'] = true := by
  unfold strings.HasSuffix
  simp

theorem TrimSuffix_append_sep (X : List Char) : strings.TrimSuffix (X ++ ['/']) ['/'] = X := by
  unfold strings.TrimSuffix
  rw [HasSuffix_append_sep]
  simp

/-- C16, counterexample: for the target root `/` the result is the relative path alone,
without any `/`; for the target root `remote///` two separators are left. -/
theorem getRemotePath_target_root_slashes :
    getRemotePath "/data/a.txt".toList "/data".toList "/".toList = "a.txt".toList ∧
      getRemotePath "/data/a.txt".toList "/data".toList "remote///".toList =
        "remote//a.txt".toList := by
  decide

/-- C16, amended: for a target root made of a non-empty `S` that does not end in `/`
followed by `n` separators, and a relative path `rel` computed without error,
`getRemotePath` returns `S`, then one separator when `n ≤ 2` and `n - 1` separators when
`n ≥ 3`, then `rel`. -/
theorem getRemotePath_target_normalised (localPath watchDir S rel : List Char) (n : Nat)
    (hRel : filepath.Rel watchDir localPath = some rel) (hS : S ≠ [])
    (hSs : strings.HasSuffix S ['/'] = false) :
    getRemotePath localPath watchDir (S ++ List.replicate n '/') =
      S ++ List.replicate (max 1 (n - 1)) '/' ++ rel := by
  cases n with
  | zero =>
    simp only [List.replicate_zero, List.append_nil]
    rw [(getRemotePath_of_Rel localPath watchDir S rel hRel hS hSs).1]
    simp
  | succ k =>
    have hT : S ++ List.replicate (k + 1) '/' = (S ++ List.replicate k '/') ++ ['/'] := by
      rw [List.replicate_succ', List.append_assoc]
    unfold getRemotePath
    simp only [hRel]
    rw [hT, TrimSuffix_append_sep]
    cases k with
    | zero =>
      simp only [List.replicate_zero, List.append_nil]
      rw [if_pos ⟨hS, hSs⟩]
      simp
    | succ j =>
      have hsuf : strings.HasSuffix (S ++ List.replicate (j + 1) '/') ['/'] = true := by
        rw [List.replicate_succ', ← List.append_assoc]
        exact HasSuffix_append_sep _
      rw [if_neg (by simp [hsuf])]
      have : max 1 (j + 1 + 1 - 1) = j + 1 := by omega
      rw [this]

/-- C16 at the target root `remote//`. -/
theorem getRemotePath_target_normalised_witness :
    filepath.Rel "/data".toList "/data/a.txt".toList = some "a.txt".toList ∧
    "remote".toList ≠ [] ∧
    strings.HasSuffix "remote".toList ['/'] = false ∧
    getRemotePath "/data/a.txt".toList "/data".toList ("remote".toList ++ List.replicate 2 '/') =
      "remote".toList ++ List.replicate (max 1 (2 - 1)) '/' ++ "a.txt".toList :=
  ⟨by decide, by decide, by decide,
   getRemotePath_target_normalised "/data/a.txt".toList "/data".toList "remote".toList
     "a.txt".toList 2 (by decide) (by decide) (by decide)⟩

/-! ## C19: the path the Baidu provider sends for a file -/

/-- C19, at the failing input: for the remote root, `getOrCreateDir` returns `/`, and for
the parent `/` and the name `a.txt`, `createFile` sends `//a.txt`. -/
theorem createFilePath_root_double_slash :
    baidu.getOrCreateDirPath "/".toList = "/".toList ∧
      baidu.createFilePath (baidu.getOrCreateDirPath "/".toList) "a.txt".toList =
        "//a.txt".toList := by
  decide

/-- For a parent path that is not empty and does not end in `/`, `createFile` sends the
parent path, one separator and the file name. -/
theorem createFilePath_of_dir (parentPath fileName : List Char) (hne : parentPath ≠ [])
    (hs : strings.HasSuffix parentPath ['/'] = false) :
    baidu.createFilePath parentPath fileName = parentPath ++ '/' :: fileName := by
  simp [baidu.createFilePath, strings.TrimSuffix, hs, hne]

/-- For every file name, the path `createFile` sends for the parent `/` begins with two
separators. -/
theorem createFilePath_root (fileName : List Char) :
    baidu.createFilePath ['/'] fileName = '/' :: '/' :: fileName := by
  simp [baidu.createFilePath, strings.TrimSuffix, strings.HasSuffix]

namespace watcher

/-! ## C17: the operations `handleEvent` processes -/

/-- C17: a notification with none of the bits create, write, remove, rename leaves the
watcher as it is (no timer, `timerMap` and watch set unchanged); a notification with a
base name that is not hidden and one of these bits makes `handleEvent` append a pending
timer whose event carries the name and the full operation value of the notification, and
store it in `timerMap` under the name; and every event sent in a run of a new watcher
carries one of the four bits. -/
theorem handleEvent_processed_operations (w : Watcher) (event : fsnotify.Event) (now : Nat)
    (isDir addOk : Bool) :
    (event.Op &&& (fsnotify.Create ||| fsnotify.Write ||| fsnotify.Remove |||
        fsnotify.Rename) = 0 →
      handleEvent w event now isDir addOk = w) ∧
    ((filepath.Base event.Name).head? ≠ some '.' →
      event.Op &&& (fsnotify.Create ||| fsnotify.Write ||| fsnotify.Remove |||
        fsnotify.Rename) ≠ 0 →
      (handleEvent w event now isDir addOk).timers =
          timersAfterCancel w event.Name ++
            [{ fileEvent := { Path := event.Name, Op := event.Op, Timestamp := now },
               name := event.Name, deadline := now + w.delay, status := .pending }] ∧
        mapLoad (handleEvent w event now isDir addOk).timerMap event.Name =
          some w.timers.length) ∧
    (∀ watchDir delay watched steps,
      ∀ e ∈ (run (newWatcher watchDir delay watched) steps).eventChan,
        e.Op &&& (fsnotify.Create ||| fsnotify.Write ||| fsnotify.Remove |||
          fsnotify.Rename) ≠ 0) := by
  refine ⟨?_, ?_, ?_⟩
  · intro h
    exact handleEvent_ignored w event now isDir addOk (fun he => he.2 h)
  · intro h1 h2
    obtain ⟨ht, hm, _⟩ := handleEvent_eligible w event now isDir addOk ⟨h1, h2⟩
    exact ⟨ht, by rw [hm]; exact mapLoad_mapStore_self _ _ _⟩
  · intro watchDir delay watched steps e he
    have hinv := run_events_sat
      (fun e => e.Op &&& (fsnotify.Create ||| fsnotify.Write ||| fsnotify.Remove |||
        fsnotify.Rename) ≠ 0)
      (newWatcher watchDir delay watched) steps
      (fun ev _ _ _ _ hel => hel.2)
      ⟨by intro i t ht; simp [newWatcher] at ht, by intro e he; simp [newWatcher] at he⟩
    exact hinv.2 e he

/-- C17 at a `Chmod` notification. -/
theorem handleEvent_processed_operations_witness :
    fsnotify.Chmod &&& (fsnotify.Create ||| fsnotify.Write ||| fsnotify.Remove |||
        fsnotify.Rename) = 0 ∧
    handleEvent (newWatcher "/data".toList 1 []) ⟨"/data/a".toList, fsnotify.Chmod⟩ 0 false
        false = newWatcher "/data".toList 1 [] :=
  ⟨by decide,
   (handleEvent_processed_operations (newWatcher "/data".toList 1 [])
     ⟨"/data/a".toList, fsnotify.Chmod⟩ 0 false false).1 (by decide)⟩

/-! ## C15: the watch set grows with created directories -/

theorem handleEvent_eligible_watched (w : Watcher) (event : fsnotify.Event) (now : Nat)
    (isDir addOk : Bool) (he : Eligible event) :
    (handleEvent w event now isDir addOk).watched =
      if event.Op &&& fsnotify.Create = fsnotify.Create ∧ isDir = true ∧
          w.closed = false ∧ addOk = true ∧ event.Name ∉ w.watched then
        w.watched ++ [event.Name]
      else w.watched := by
  obtain ⟨h1, h2⟩ := he
  have hw : (handleEvent w event now isDir addOk).watched =
      (if event.Op &&& fsnotify.Create = fsnotify.Create ∧ isDir = true then
        fsAdd w event.Name addOk else w).watched := by
    unfold handleEvent
    simp only [h1, h2, and_false, if_false]
    split <;> rfl
  rw [hw]
  unfold fsAdd
  by_cases hc : event.Op &&& fsnotify.Create = fsnotify.Create ∧ isDir = true
  · by_cases ha : w.closed = false ∧ addOk = true ∧ event.Name ∉ w.watched
    · rw [if_pos hc, if_pos ha, if_pos ⟨hc.1, hc.2, ha⟩]
    · rw [if_pos hc, if_neg ha, if_neg (fun h => ha h.2.2)]
  · rw [if_neg hc, if_neg (fun h => hc ⟨h.1, h.2.1⟩)]

/-- C15, counterexample: when `fsWatcher.Add` fails, its error is dropped and the created
directory is not in the watch set after `handleEvent`. -/
theorem created_directory_not_watched :
    "/data/d".toList ∉
      (handleEvent (newWatcher "/data".toList 1 ["/data".toList])
        ⟨"/data/d".toList, fsnotify.Create⟩ 0 true false).watched := by
  decide

/-- C15, amended: for a notification with the `Create` bit that names an existing
directory with a base name that is not hidden, the directory is in the watch set after
`handleEvent` when `fsWatcher.Add` succeeds on the open watcher; whatever `Add` answers,
every path watched before is still watched; and when the directory is watched already,
the watch set does not change. -/
theorem handleEvent_extends_watch_set (w : Watcher) (event : fsnotify.Event) (now : Nat)
    (isDir addOk : Bool) :
    ((filepath.Base event.Name).head? ≠ some '.' →
      event.Op &&& fsnotify.Create = fsnotify.Create → isDir = true →
      w.closed = false → addOk = true →
      event.Name ∈ (handleEvent w event now isDir addOk).watched) ∧
    (∀ p ∈ w.watched, p ∈ (handleEvent w event now isDir addOk).watched) ∧
    (event.Name ∈ w.watched → (handleEvent w event now isDir addOk).watched = w.watched) := by
  by_cases he : Eligible event
  · rw [handleEvent_eligible_watched w event now isDir addOk he]
    refine ⟨?_, ?_, ?_⟩
    · intro _ h2 h3 h4 h5
      by_cases hm : event.Name ∈ w.watched
      · simp [hm]
      · rw [if_pos ⟨h2, h3, h4, h5, hm⟩]
        simp
    · intro p hp
      split
      · exact List.mem_append_left _ hp
      · exact hp
    · intro hm
      simp [hm]
  · rw [handleEvent_ignored w event now isDir addOk he]
    refine ⟨?_, fun p hp => hp, fun _ => rfl⟩
    intro h1 h2 _ _ _
    exfalso
    apply he
    refine ⟨h1, ?_⟩
    intro h0
    have hc : event.Op &&& fsnotify.Create = (event.Op &&& (fsnotify.Create |||
        fsnotify.Write ||| fsnotify.Remove ||| fsnotify.Rename)) &&& fsnotify.Create := by
      rw [Nat.land_assoc]
      rfl
    rw [h0] at hc
    rw [hc] at h2
    simp [fsnotify.Create] at h2

/-- C15 at the notification `CREATE /data/d` for a new directory. -/
theorem handleEvent_extends_watch_set_witness :
    (filepath.Base "/data/d".toList).head? ≠ some '.' ∧
    fsnotify.Create &&& fsnotify.Create = fsnotify.Create ∧
    "/data/d".toList ∈
      (handleEvent (newWatcher "/data".toList 1 ["/data".toList])
        ⟨"/data/d".toList, fsnotify.Create⟩ 0 true true).watched :=
  ⟨by decide, by decide,
   (handleEvent_extends_watch_set (newWatcher "/data".toList 1 ["/data".toList])
     ⟨"/data/d".toList, fsnotify.Create⟩ 0 true true).1 (by decide) (by decide) rfl rfl rfl⟩

end watcher

end CloudFileSync

namespace CloudFileSync

namespace watcher

/-! ## Seeding: the walk of `addWatchDir` -/

theorem addWatchFn_file (addErr : List Char → GoError) (path : List Char) (log : WalkLog) :
    addWatchFn addErr path false none log =
      (none, { log with visited := log.visited ++ [path] }) := by
  simp [addWatchFn]

theorem addWatchFn_err (addErr : List Char → GoError) (path : List Char) (isDir : Bool)
    (e : List Char) (log : WalkLog) :
    addWatchFn addErr path isDir (some e) log =
      (some (.other e), { log with visited := log.visited ++ [path] }) := by
  simp [addWatchFn]

theorem addWatchFn_hidden (addErr : List Char → GoError) (path : List Char) (log : WalkLog)
    (h : (filepath.Base path).head? = some '.') :
    addWatchFn addErr path true none log =
      (some .SkipDir, { log with visited := log.visited ++ [path] }) := by
  simp [addWatchFn, h]

theorem addWatchFn_dir (addErr : List Char → GoError) (path : List Char) (log : WalkLog)
    (h : (filepath.Base path).head? ≠ some '.') :
    addWatchFn addErr path true none log =
      ((addErr path).map WalkErr.other,
        { visited := log.visited ++ [path], added := log.added ++ [path] }) := by
  simp [addWatchFn, h]

/-- The walk of a hidden entry registers nothing and does not stop the walk of its
directory. -/
theorem walk_hidden (addErr : List Char → GoError) (path : List Char) (node : FsNode)
    (log : WalkLog) (h : (filepath.Base path).head? = some '.') (hs : node.Sound = true) :
    (walk addErr path node log).2.added = log.added ∧
      ((walk addErr path node log).1 = none ∨
        ((walk addErr path node log).1 = some .SkipDir ∧ node.IsDir = true)) := by
  cases node with
  | file =>
    rw [walk, addWatchFn_file]
    exact ⟨rfl, Or.inl rfl⟩
  | unreadable e => simp [FsNode.Sound] at hs
  | dir entries =>
    rw [walk, addWatchFn_hidden addErr path log h]
    exact ⟨rfl, Or.inr ⟨rfl, rfl⟩⟩

mutual
/-- The walk of a sound tree at a path that is not hidden: it succeeds exactly when every
directory to register is accepted, and it then has registered these directories, in
order. -/
theorem walk_sound (addErr : List Char → GoError) :
    ∀ (node : FsNode) (path : List Char) (log : WalkLog), node.Sound = true →
      (filepath.Base path).head? ≠ some '.' →
      (walk addErr path node log).1 ≠ some .SkipDir ∧
      ((walk addErr path node log).1 = none ↔
        ∀ p ∈ eligibleDirs path node, addErr p = none) ∧
      ((walk addErr path node log).1 = none →
        (walk addErr path node log).2.added = log.added ++ eligibleDirs path node)
  | .file, path, log, _, _ => by
    rw [walk, addWatchFn_file]
    simp [eligibleDirs]
  | .unreadable e, path, log, hs, _ => by
    simp [FsNode.Sound] at hs
  | .dir entries, path, log, hs, hb => by
    have hse : entries.Sound = true := by simpa [FsNode.Sound] using hs
    rw [walk, addWatchFn_dir addErr path log hb]
    cases ha : addErr path with
    | some e =>
      simp only [Option.map_some']
      refine ⟨by simp, ?_, by simp⟩
      constructor
      · intro h
        cases h
      · intro h
        have := h path (by simp [eligibleDirs])
        rw [ha] at this
        cases this
    | none =>
      simp only [Option.map_none']
      obtain ⟨q1, q2, q3⟩ := walkEntries_sound addErr entries path
        { visited := log.visited ++ [path], added := log.added ++ [path] } hse
      refine ⟨q1, ?_, ?_⟩
      · rw [q2]
        simp [eligibleDirs, ha]
      · intro h
        rw [q3 h]
        simp [eligibleDirs]
/-- The walk of the sound entries of a directory. -/
theorem walkEntries_sound (addErr : List Char → GoError) :
    ∀ (entries : FsEntries) (path : List Char) (log : WalkLog), entries.Sound = true →
      (walkEntries addErr path entries log).1 ≠ some .SkipDir ∧
      ((walkEntries addErr path entries log).1 = none ↔
        ∀ p ∈ eligibleIn path entries, addErr p = none) ∧
      ((walkEntries addErr path entries log).1 = none →
        (walkEntries addErr path entries log).2.added = log.added ++ eligibleIn path entries)
  | .nil, path, log, _ => by
    rw [walkEntries]
    simp [eligibleIn]
  | .lstatErr name e rest, path, log, hs => by
    simp [FsEntries.Sound] at hs
  | .entry name node rest, path, log, hs => by
    have hs3 : filepath.isElem name = true ∧ node.Sound = true ∧ rest.Sound = true := by
      simpa [FsEntries.Sound, and_assoc] using hs
    obtain ⟨hname, hnode, hrest⟩ := hs3
    have hbase : filepath.Base (filepath.Join [path, name]) = name :=
      filepath.Base_Join_name path name hname
    rw [walkEntries]
    by_cases hh : hiddenName name = true
    · -- a hidden entry: nothing is registered below it
      have hhid : (filepath.Base (filepath.Join [path, name])).head? = some '.' := by
        rw [hbase]
        simpa [hiddenName] using hh
      obtain ⟨ha, hr⟩ := walk_hidden addErr (filepath.Join [path, name]) node log hhid hnode
      obtain ⟨q1, q2, q3⟩ := walkEntries_sound addErr rest path
        (walk addErr (filepath.Join [path, name]) node log).2 hrest
      have helig : eligibleIn path (.entry name node rest) = eligibleIn path rest := by
        simp [eligibleIn, hh]
      rw [helig]
      rcases hr with h0 | ⟨h0, hdir⟩
      · have hw : walk addErr (filepath.Join [path, name]) node log =
            (none, (walk addErr (filepath.Join [path, name]) node log).2) := by
          rw [← h0]
        rw [hw]
        simp only
        rw [← ha]
        exact ⟨q1, q2, q3⟩
      · have hw : walk addErr (filepath.Join [path, name]) node log =
            (some .SkipDir, (walk addErr (filepath.Join [path, name]) node log).2) := by
          rw [← h0]
        rw [hw]
        simp only [hdir, ne_eq, not_true_eq_false, or_self, if_false, Bool.true_eq_false]
        rw [← ha]
        exact ⟨q1, q2, q3⟩
    · -- an entry that is not hidden
      have hvis : (filepath.Base (filepath.Join [path, name])).head? ≠ some '.' := by
        rw [hbase]
        simpa [hiddenName] using hh
      obtain ⟨p1, p2, p3⟩ := walk_sound addErr node (filepath.Join [path, name]) log hnode hvis
      obtain ⟨q1, q2, q3⟩ := walkEntries_sound addErr rest path
        (walk addErr (filepath.Join [path, name]) node log).2 hrest
      have helig : eligibleIn path (.entry name node rest) =
          eligibleDirs (filepath.Join [path, name]) node ++ eligibleIn path rest := by
        simp [eligibleIn, hh]
      rw [helig]
      cases hw1 : (walk addErr (filepath.Join [path, name]) node log).1 with
      | none =>
        have hw : walk addErr (filepath.Join [path, name]) node log =
            (none, (walk addErr (filepath.Join [path, name]) node log).2) := by
          rw [← hw1]
        rw [hw]
        simp only
        have hall := p2.mp hw1
        refine ⟨q1, ?_, ?_⟩
        · rw [q2]
          constructor
          · intro h p hp
            rcases List.mem_append.mp hp with h1 | h1
            · exact hall p h1
            · exact h p h1
          · intro h p hp
            exact h p (List.mem_append_right _ hp)
        · intro h
          rw [q3 h, p3 hw1, List.append_assoc]
      | some err =>
        have hw : walk addErr (filepath.Join [path, name]) node log =
            (some err, (walk addErr (filepath.Join [path, name]) node log).2) := by
          rw [← hw1]
        have hne : err ≠ .SkipDir := by
          intro h
          apply p1
          rw [hw1, h]
        rw [hw]
        simp only [hne, ne_eq, not_false_eq_true, or_true, if_true]
        refine ⟨by simpa using hne, ?_, by simp⟩
        constructor
        · intro h
          cases h
        · intro h
          exfalso
          have := p2.mpr (fun p hp => h p (List.mem_append_left _ hp))
          rw [hw1] at this
          cases this
end

/-- The walk of a hidden entry of a sound tree visits the entry and nothing below it. -/
theorem walk_hidden_visited (addErr : List Char → GoError) (path : List Char) (node : FsNode)
    (log : WalkLog) (h : (filepath.Base path).head? = some '.') (hs : node.Sound = true) :
    (walk addErr path node log).2.visited = log.visited ++ [path] := by
  cases node with
  | file => rw [walk, addWatchFn_file]
  | unreadable e => simp [FsNode.Sound] at hs
  | dir entries => rw [walk, addWatchFn_hidden addErr path log h]

mutual
/-- The walk of a sound tree at a path that is not hidden, when it succeeds, has called the
walk function with exactly the paths that are not inside a hidden directory, in order. -/
theorem walk_visited (addErr : List Char → GoError) :
    ∀ (node : FsNode) (path : List Char) (log : WalkLog), node.Sound = true →
      (filepath.Base path).head? ≠ some '.' →
      (walk addErr path node log).1 = none →
      (walk addErr path node log).2.visited = log.visited ++ outsideHidden path node
  | .file, path, log, _, _, _ => by
    rw [walk, addWatchFn_file]
    simp [outsideHidden]
  | .unreadable e, path, log, hs, _, _ => by
    simp [FsNode.Sound] at hs
  | .dir entries, path, log, hs, hb, hnone => by
    have hse : entries.Sound = true := by simpa [FsNode.Sound] using hs
    rw [walk, addWatchFn_dir addErr path log hb] at hnone ⊢
    cases ha : addErr path with
    | some e =>
      rw [ha] at hnone
      simp at hnone
    | none =>
      rw [ha] at hnone
      simp only [Option.map_none'] at hnone ⊢
      rw [walkEntries_visited addErr entries path _ hse hnone]
      simp [outsideHidden]
/-- The walk of the sound entries of a directory, when it succeeds. -/
theorem walkEntries_visited (addErr : List Char → GoError) :
    ∀ (entries : FsEntries) (path : List Char) (log : WalkLog), entries.Sound = true →
      (walkEntries addErr path entries log).1 = none →
      (walkEntries addErr path entries log).2.visited =
        log.visited ++ outsideHiddenIn path entries
  | .nil, path, log, _, _ => by
    rw [walkEntries]
    simp [outsideHiddenIn]
  | .lstatErr name e rest, path, log, hs, _ => by
    simp [FsEntries.Sound] at hs
  | .entry name node rest, path, log, hs, hnone => by
    have hs3 : filepath.isElem name = true ∧ node.Sound = true ∧ rest.Sound = true := by
      simpa [FsEntries.Sound, and_assoc] using hs
    obtain ⟨hname, hnode, hrest⟩ := hs3
    have hbase : filepath.Base (filepath.Join [path, name]) = name :=
      filepath.Base_Join_name path name hname
    rw [walkEntries] at hnone ⊢
    by_cases hh : hiddenName name = true
    · have hhid : (filepath.Base (filepath.Join [path, name])).head? = some '.' := by
        rw [hbase]
        simpa [hiddenName] using hh
      obtain ⟨_, hr⟩ := walk_hidden addErr (filepath.Join [path, name]) node log hhid hnode
      have hv := walk_hidden_visited addErr (filepath.Join [path, name]) node log hhid hnode
      have hout : outsideHiddenIn path (.entry name node rest) =
          filepath.Join [path, name] :: outsideHiddenIn path rest := by
        simp [outsideHiddenIn, hh]
      rw [hout]
      rcases hr with h0 | ⟨h0, hdir⟩
      · have hw : walk addErr (filepath.Join [path, name]) node log =
            (none, (walk addErr (filepath.Join [path, name]) node log).2) := by
          rw [← h0]
        rw [hw] at hnone ⊢
        simp only at hnone ⊢
        rw [walkEntries_visited addErr rest path _ hrest hnone, hv]
        simp
      · have hw : walk addErr (filepath.Join [path, name]) node log =
            (some .SkipDir, (walk addErr (filepath.Join [path, name]) node log).2) := by
          rw [← h0]
        rw [hw] at hnone ⊢
        simp only [hdir, ne_eq, not_true_eq_false, or_self, if_false,
          Bool.true_eq_false] at hnone ⊢
        rw [walkEntries_visited addErr rest path _ hrest hnone, hv]
        simp
    · have hvis : (filepath.Base (filepath.Join [path, name])).head? ≠ some '.' := by
        rw [hbase]
        simpa [hiddenName] using hh
      obtain ⟨p1, _, _⟩ := walk_sound addErr node (filepath.Join [path, name]) log hnode hvis
      have hout : outsideHiddenIn path (.entry name node rest) =
          outsideHidden (filepath.Join [path, name]) node ++ outsideHiddenIn path rest := by
        simp [outsideHiddenIn, hh]
      rw [hout]
      cases hw1 : (walk addErr (filepath.Join [path, name]) node log).1 with
      | none =>
        have hw : walk addErr (filepath.Join [path, name]) node log =
            (none, (walk addErr (filepath.Join [path, name]) node log).2) := by
          rw [← hw1]
        rw [hw] at hnone ⊢
        simp only at hnone ⊢
        rw [walkEntries_visited addErr rest path _ hrest hnone,
          walk_visited addErr node (filepath.Join [path, name]) log hnode hvis hw1,
          List.append_assoc]
      | some err =>
        exfalso
        have hw : walk addErr (filepath.Join [path, name]) node log =
            (some err, (walk addErr (filepath.Join [path, name]) node log).2) := by
          rw [← hw1]
        have hne : err ≠ .SkipDir := by
          intro h
          apply p1
          rw [hw1, h]
        rw [hw] at hnone
        simp [hne] at hnone
end

end watcher

end CloudFileSync

namespace CloudFileSync

namespace watcher

theorem WalkKeeps_visit (start : Option (List Char)) (path : List Char) (log : WalkLog)
    (h : some path = start ∨ ∃ d ∈ log.added, ∃ name, path = filepath.Join [d, name]) :
    WalkKeeps start log { log with visited := log.visited ++ [path] } := by
  refine ⟨fun a ha => ha, fun d hd => Or.inl hd, ?_⟩
  intro v hv
  rcases List.mem_append.mp hv with h1 | h1
  · exact Or.inl h1
  · simp only [List.mem_singleton] at h1
    subst h1
    rcases h with h | h
    · exact Or.inr (Or.inl h)
    · exact Or.inr (Or.inr h)

theorem WalkKeeps_register (start : Option (List Char)) (path : List Char) (log : WalkLog)
    (hb : (filepath.Base path).head? ≠ some '.')
    (h : some path = start ∨ ∃ d ∈ log.added, ∃ name, path = filepath.Join [d, name]) :
    WalkKeeps start log
      { visited := log.visited ++ [path], added := log.added ++ [path] } := by
  refine ⟨fun a ha => List.mem_append_left _ ha, ?_, ?_⟩
  · intro d hd
    rcases List.mem_append.mp hd with h1 | h1
    · exact Or.inl h1
    · simp only [List.mem_singleton] at h1
      subst h1
      exact Or.inr hb
  · intro v hv
    rcases List.mem_append.mp hv with h1 | h1
    · exact Or.inl h1
    · simp only [List.mem_singleton] at h1
      subst h1
      rcases h with h | ⟨d, hd, name, hn⟩
      · exact Or.inr (Or.inl h)
      · exact Or.inr (Or.inr ⟨d, List.mem_append_left _ hd, name, hn⟩)

/-- Two parts of a walk one after the other; the second part starts nowhere new. -/
theorem WalkKeeps_trans (start : Option (List Char)) (log log2 log3 : WalkLog)
    (h1 : WalkKeeps start log log2) (h2 : WalkKeeps none log2 log3) :
    WalkKeeps start log log3 := by
  obtain ⟨a1, b1, c1⟩ := h1
  obtain ⟨a2, b2, c2⟩ := h2
  refine ⟨fun a ha => a2 a (a1 a ha), ?_, ?_⟩
  · intro d hd
    rcases b2 d hd with h | h
    · exact b1 d h
    · exact Or.inr h
  · intro v hv
    rcases c2 v hv with h | h | h
    · rcases c1 v h with h' | h' | ⟨d, hd, name, hn⟩
      · exact Or.inl h'
      · exact Or.inr (Or.inl h')
      · exact Or.inr (Or.inr ⟨d, a2 d hd, name, hn⟩)
    · cases h
    · exact Or.inr (Or.inr h)

mutual
/-- The walk at `path`, reached as the starting point `start` or as an entry of a
registered directory, keeps the log in order. -/
theorem walk_keeps (addErr : List Char → GoError) :
    ∀ (node : FsNode) (path : List Char) (start : Option (List Char)) (log : WalkLog),
      (some path = start ∨ ∃ d ∈ log.added, ∃ name, path = filepath.Join [d, name]) →
      WalkKeeps start log (walk addErr path node log).2
  | .file, path, start, log, h => by
    rw [walk, addWatchFn_file]
    exact WalkKeeps_visit start path log h
  | .unreadable e, path, start, log, h => by
    rw [walk, addWatchFn_err]
    exact WalkKeeps_visit start path log h
  | .dir entries, path, start, log, h => by
    rw [walk]
    by_cases hb : (filepath.Base path).head? = some '.'
    · rw [addWatchFn_hidden addErr path log hb]
      exact WalkKeeps_visit start path log h
    · rw [addWatchFn_dir addErr path log hb]
      have hreg := WalkKeeps_register start path log hb h
      cases ha : addErr path with
      | some e =>
        simp only [Option.map_some']
        exact hreg
      | none =>
        simp only [Option.map_none']
        exact WalkKeeps_trans start _ _ _ hreg
          (walkEntries_keeps addErr entries path _ (by simp))
/-- The walk of the entries of a registered directory keeps the log in order. -/
theorem walkEntries_keeps (addErr : List Char → GoError) :
    ∀ (entries : FsEntries) (path : List Char) (log : WalkLog), path ∈ log.added →
      WalkKeeps none log (walkEntries addErr path entries log).2
  | .nil, path, log, _ => by
    rw [walkEntries]
    exact ⟨fun a ha => ha, fun d hd => Or.inl hd, fun v hv => Or.inl hv⟩
  | .lstatErr name e rest, path, log, hp => by
    rw [walkEntries, addWatchFn_err]
    exact WalkKeeps_visit none _ log (Or.inr ⟨path, hp, name, rfl⟩)
  | .entry name node rest, path, log, hp => by
    have hchild := walk_keeps addErr node (filepath.Join [path, name]) none log
      (Or.inr ⟨path, hp, name, rfl⟩)
    have hrest := walkEntries_keeps addErr rest path
      (walk addErr (filepath.Join [path, name]) node log).2 (hchild.1 path hp)
    rw [walkEntries]
    rcases hw : walk addErr (filepath.Join [path, name]) node log with ⟨r1, l1⟩
    rw [hw] at hchild hrest
    cases r1 with
    | none => exact WalkKeeps_trans none _ _ _ hchild hrest
    | some err =>
      simp only
      split
      · exact hchild
      · exact WalkKeeps_trans none _ _ _ hchild hrest
end

end watcher

end CloudFileSync

namespace CloudFileSync

namespace watcher

/-! ## C11, C12, C18: seeding -/

theorem addWatchDir_ok (env : FsEnv) (dir : List Char) (node : FsNode)
    (hroot : env.root = .ok node) :
    addWatchDir env dir =
      match walk env.addErr dir node ⟨[], []⟩ with
      | (none, log) => (none, log)
      | (some .SkipDir, log) => (none, log)
      | (some (.other e), log) => (some e, log) := by
  unfold addWatchDir
  rw [hroot]

/-- C11, counterexample: for a watch root that names a regular file, `NewWatcher` returns
a watcher with an empty watch set and no error. -/
theorem NewWatcher_regular_file_root :
    NewWatcher ⟨none, .ok .file, fun _ => none⟩ "/data/a.txt".toList 1 =
      .ok (newWatcher "/data/a.txt".toList 1 []) := by
  rfl

/-- C11, amended: `NewWatcher` returns an error and no watcher when
`fsnotify.NewWatcher()` fails, when `os.Lstat(watchDir)` fails (the root does not exist),
and when `fsWatcher.Add` fails for one of the directories to register of a tree whose root
is not hidden; for a root that is not a directory it returns a watcher that watches
nothing. -/
theorem NewWatcher_errors (env : FsEnv) (dir : List Char) (delay : Nat) :
    (∀ e, env.newWatcherErr = some e → NewWatcher env dir delay = .error e) ∧
    (∀ e, env.newWatcherErr = none → env.root = .error e →
      NewWatcher env dir delay = .error e) ∧
    (∀ node d e, env.newWatcherErr = none → env.root = .ok node → node.Sound = true →
      (filepath.Base dir).head? ≠ some '.' → d ∈ eligibleDirs dir node →
      env.addErr d = some e → ∃ e2, NewWatcher env dir delay = .error e2) ∧
    (env.newWatcherErr = none → env.root = .ok .file →
      NewWatcher env dir delay = .ok (newWatcher dir delay [])) := by
  refine ⟨?_, ?_, ?_, ?_⟩
  · intro e h
    unfold NewWatcher
    rw [h]
  · intro e h hroot
    have hres : addWatchDir env dir = (some e, ⟨[dir], []⟩) := by
      unfold addWatchDir
      rw [hroot]
      simp only [addWatchFn_err]
      rfl
    unfold NewWatcher
    rw [h, hres]
  · intro node d e h hroot hs hb hd hfail
    obtain ⟨p1, p2, _⟩ := walk_sound env.addErr node dir ⟨[], []⟩ hs hb
    have hnone : (walk env.addErr dir node ⟨[], []⟩).1 ≠ none := by
      intro h0
      have := p2.mp h0 d hd
      rw [hfail] at this
      cases this
    unfold NewWatcher
    rw [h, addWatchDir_ok env dir node hroot]
    rcases hw : walk env.addErr dir node ⟨[], []⟩ with ⟨r1, l1⟩
    rw [hw] at p1 hnone
    cases r1 with
    | none => exact absurd rfl hnone
    | some err =>
      cases err with
      | SkipDir => exact absurd rfl p1
      | other e2 => exact ⟨e2, rfl⟩
  · intro h hroot
    unfold NewWatcher
    rw [h, addWatchDir_ok env dir .file hroot, walk, addWatchFn_file]
    rfl

/-- C11 at a tree in which `/data/sub` cannot be registered. -/
theorem NewWatcher_errors_witness :
    (⟨none, .ok sampleTree, fun p => if p = "/data/sub".toList then some "limit".toList
        else none⟩ : FsEnv).newWatcherErr = none ∧
    sampleTree.Sound = true ∧
    (filepath.Base "/data".toList).head? ≠ some '.' ∧
    "/data/sub".toList ∈ eligibleDirs "/data".toList sampleTree ∧
    ∃ e2, NewWatcher ⟨none, .ok sampleTree, fun p => if p = "/data/sub".toList then
        some "limit".toList else none⟩ "/data".toList 1 = .error e2 :=
  ⟨rfl, by decide, by decide, by decide,
   (NewWatcher_errors ⟨none, .ok sampleTree, fun p => if p = "/data/sub".toList then
        some "limit".toList else none⟩ "/data".toList 1).2.2.1 sampleTree "/data/sub".toList
      "limit".toList rfl rfl (by decide) (by decide) (by decide) (by decide)⟩

/-- C12, counterexample: under `/data` the directory `sub` cannot be opened; no
registration fails, yet `addWatchDir` returns the error of opening `sub` and has passed
only `/data` to `fsWatcher.Add`, where the directories to register are `/data`,
`/data/sub` and `/data/z`. -/
theorem addWatchDir_closed_directory :
    addWatchDir ⟨none, .ok closedDirTree, fun _ => none⟩ "/data".toList =
        (some "permission denied".toList,
          ⟨["/data".toList, "/data/sub".toList], ["/data".toList]⟩) ∧
      eligibleDirs "/data".toList closedDirTree =
        ["/data".toList, "/data/sub".toList, "/data/z".toList] := by
  decide

/-- C12, amended: for a tree in which every directory can be listed and every entry
examined, with a root whose base name is not hidden, when no registration fails,
`addWatchDir` returns no error and passes to `fsWatcher.Add` exactly the directories to
register, the root first when it is a directory and nothing when it is a file; no
registered directory has a hidden base name; and the paths the walk function is called
with are exactly the paths of the tree that are not inside a hidden directory. -/
theorem addWatchDir_registers_eligible (env : FsEnv) (dir : List Char) (node : FsNode)
    (hroot : env.root = .ok node) (hs : node.Sound = true)
    (hb : (filepath.Base dir).head? ≠ some '.')
    (hadd : ∀ p ∈ eligibleDirs dir node, env.addErr p = none) :
    (addWatchDir env dir).1 = none ∧
      (addWatchDir env dir).2.added = eligibleDirs dir node ∧
      (node.IsDir = true → (addWatchDir env dir).2.added.head? = some dir) ∧
      (node.IsDir = false → (addWatchDir env dir).2.added = []) ∧
      (∀ d ∈ (addWatchDir env dir).2.added, (filepath.Base d).head? ≠ some '.') ∧
      (addWatchDir env dir).2.visited = outsideHidden dir node := by
  obtain ⟨_, p2, p3⟩ := walk_sound env.addErr node dir ⟨[], []⟩ hs hb
  obtain ⟨_, k2, _⟩ := walk_keeps env.addErr node dir (some dir) ⟨[], []⟩ (Or.inl rfl)
  have hnone := p2.mpr hadd
  have hadded := p3 hnone
  have hvisited := walk_visited env.addErr node dir ⟨[], []⟩ hs hb hnone
  have hres : addWatchDir env dir = (none, (walk env.addErr dir node ⟨[], []⟩).2) := by
    rw [addWatchDir_ok env dir node hroot]
    rcases hw : walk env.addErr dir node ⟨[], []⟩ with ⟨r1, l1⟩
    rw [hw] at hnone
    simp only at hnone
    rw [hnone]
  rw [hres]
  refine ⟨rfl, by simpa using hadded, ?_, ?_, ?_, by simpa using hvisited⟩
  · intro hd
    simp only [hadded, List.nil_append]
    cases node with
    | file => simp [FsNode.IsDir] at hd
    | unreadable e => simp [FsNode.Sound] at hs
    | dir entries => simp [eligibleDirs]
  · intro hd
    simp only [hadded, List.nil_append]
    cases node with
    | file => simp [eligibleDirs]
    | unreadable e => simp [FsNode.IsDir] at hd
    | dir entries => simp [FsNode.IsDir] at hd
  · intro d hd
    rcases k2 d hd with h | h
    · simp at h
    · exact h

/-- C12 at the sample tree under `/data`: nothing inside `/data/.git` is visited. -/
theorem addWatchDir_registers_eligible_witness :
    sampleTree.Sound = true ∧
    (filepath.Base "/data".toList).head? ≠ some '.' ∧
    ((addWatchDir ⟨none, .ok sampleTree, fun _ => none⟩ "/data".toList).1 = none ∧
      (addWatchDir ⟨none, .ok sampleTree, fun _ => none⟩ "/data".toList).2.added =
        eligibleDirs "/data".toList sampleTree ∧
      (sampleTree.IsDir = true →
        (addWatchDir ⟨none, .ok sampleTree, fun _ => none⟩ "/data".toList).2.added.head? =
          some "/data".toList) ∧
      (sampleTree.IsDir = false →
        (addWatchDir ⟨none, .ok sampleTree, fun _ => none⟩ "/data".toList).2.added = []) ∧
      (∀ d ∈ (addWatchDir ⟨none, .ok sampleTree, fun _ => none⟩ "/data".toList).2.added,
        (filepath.Base d).head? ≠ some '.') ∧
      (addWatchDir ⟨none, .ok sampleTree, fun _ => none⟩ "/data".toList).2.visited =
        outsideHidden "/data".toList sampleTree) ∧
    eligibleDirs "/data".toList sampleTree =
      ["/data".toList, "/data/sub".toList, "/data/sub/deep".toList] ∧
    outsideHidden "/data".toList sampleTree =
      ["/data".toList, "/data/.git".toList, "/data/a.txt".toList, "/data/sub".toList,
        "/data/sub/b".toList, "/data/sub/deep".toList] :=
  ⟨by decide, by decide,
   addWatchDir_registers_eligible ⟨none, .ok sampleTree, fun _ => none⟩ "/data".toList
     sampleTree rfl (by decide) (by decide) (fun _ _ => rfl),
   by decide, by decide⟩

/-- C18, counterexample: the hidden watch root `/home/u/.sync` exists and is a directory,
but it cannot be opened; `addWatchDir` returns the error of opening it and `NewWatcher`
returns that error, and no watcher.  For a root that can be listed `NewWatcher` still
returns the error of `fsnotify.NewWatcher()` when that call fails. -/
theorem hidden_root_closed :
    (filepath.Base "/home/u/.sync".toList).head? = some '.' ∧
      FsNode.IsDir (.unreadable "permission denied".toList) = true ∧
      (addWatchDir ⟨none, .ok (.unreadable "permission denied".toList), fun _ => none⟩
        "/home/u/.sync".toList).1 = some "permission denied".toList ∧
      NewWatcher ⟨none, .ok (.unreadable "permission denied".toList), fun _ => none⟩
        "/home/u/.sync".toList 1 = .error "permission denied".toList ∧
      NewWatcher ⟨some "too many open files".toList, .ok (.dir .nil), fun _ => none⟩
        "/home/u/.sync".toList 1 = .error "too many open files".toList :=
  ⟨by decide, rfl, rfl, rfl, rfl⟩

/-- C18, amended: for a watch root that is a directory that can be listed, with a base name
beginning with `.`, `addWatchDir` calls the walk function with the root only, registers
nothing and returns no error, and `NewWatcher`, when `fsnotify.NewWatcher()` has
succeeded, returns a watcher with an empty watch set; the base names of `.`, `..` and
`/home/u/.sync` begin with `.`. -/
theorem hidden_root_watches_nothing (env : FsEnv) (dir : List Char) (delay : Nat)
    (entries : FsEntries) (hroot : env.root = .ok (.dir entries))
    (hh : (filepath.Base dir).head? = some '.') :
    (addWatchDir env dir).1 = none ∧
      (addWatchDir env dir).2.added = [] ∧
      (addWatchDir env dir).2.visited = [dir] ∧
      (env.newWatcherErr = none →
        NewWatcher env dir delay = .ok (newWatcher dir delay [])) ∧
      (filepath.Base ".".toList).head? = some '.' ∧
      (filepath.Base "..".toList).head? = some '.' ∧
      (filepath.Base "/home/u/.sync".toList).head? = some '.' := by
  have hres : addWatchDir env dir = (none, ⟨[dir], []⟩) := by
    rw [addWatchDir_ok env dir _ hroot, walk, addWatchFn_hidden env.addErr dir _ hh]
    rfl
  refine ⟨by rw [hres], by rw [hres], by rw [hres], ?_, by decide, by decide, by decide⟩
  intro hnw
  unfold NewWatcher
  rw [hnw, hres]
  rfl

/-- C18 at the watch root `/home/u/.sync`. -/
theorem hidden_root_watches_nothing_witness :
    (filepath.Base "/home/u/.sync".toList).head? = some '.' ∧
    (addWatchDir ⟨none, .ok sampleTree, fun _ => none⟩ "/home/u/.sync".toList).2.visited =
      ["/home/u/.sync".toList] ∧
    NewWatcher ⟨none, .ok sampleTree, fun _ => none⟩ "/home/u/.sync".toList 1 =
      .ok (newWatcher "/home/u/.sync".toList 1 []) :=
  ⟨by decide,
   (hidden_root_watches_nothing ⟨none, .ok sampleTree, fun _ => none⟩
     "/home/u/.sync".toList 1 _ rfl (by decide)).2.2.1,
   (hidden_root_watches_nothing ⟨none, .ok sampleTree, fun _ => none⟩
     "/home/u/.sync".toList 1 _ rfl (by decide)).2.2.2.1 rfl⟩

end watcher

end CloudFileSync
